import Mathlib

/-!
# easypoetry: a shallow embedding of `easypoetry.c`

The editor state of the C program (`struct editor_config e`) is an explicit
record passed through every operation.  A `char *` buffer together with its
length field is a `List Nat` of byte values (`size = chars.length`,
`rsize = render.length`); the terminating NUL that the C code keeps after the
last byte is the default value `0` of an out-of-range read.  A pointer
`erow *row` into `e.row` is the index of that row.  C `int`s are `Int`s (loop
counters that start at `0` and only count upwards are `Nat`s); row lengths are
far below `2^31`, so no arithmetic wraps.

The `while` loop of the highlighter and its recursion into the next row are
structural recursions on a fuel argument.  The fuel the model passes is
enough: `hl_loop_fuel` and `update_syntax_fuel_enough` show that more fuel
gives the same result, for a profile without empty keywords and a document
whose rows carry their offset as `idx`.
-/

namespace EasyPoetry

/-! ## Constants -/

/-- `#define KILO_TAB_STOP 8`. -/
def KILO_TAB_STOP : Nat := 8

/-- The tab byte. -/
def TAB : Nat := 9

/-- The space byte. -/
def SPACE : Nat := 32

/-- `enum editor_key`, the values above the byte range. -/
def BACKSPACE : Int := 127
def ARROW_LEFT : Int := 1000
def ARROW_RIGHT : Int := 1001
def ARROW_UP : Int := 1002
def ARROW_DOWN : Int := 1003
def DEL_KEY : Int := 1004
def HOME_KEY : Int := 1005
def END_KEY : Int := 1006
def PAGE_UP : Int := 1007
def PAGE_DOWN : Int := 1008

/-- The key value of Enter. -/
def KEY_ENTER : Int := 13

/-- The key value of Escape. -/
def KEY_ESC : Int := 27

/-- `enum editor_highlight`. -/
inductive editor_highlight where
  | HL_NORMAL
  | HL_COMMENT
  | HL_MLCOMMENT
  | HL_KEYWORD1
  | HL_KEYWORD2
  | HL_STRING
  | HL_NUMBER
  | HL_MATCH
  deriving DecidableEq, Repr, Inhabited

open editor_highlight

/-- `#define HL_HIGHLIGHT_NUMBERS (1 << 0)`. -/
def HL_HIGHLIGHT_NUMBERS : Nat := 1

/-- `#define HL_HIGHLIGHT_STRINGS (1 << 1)`. -/
def HL_HIGHLIGHT_STRINGS : Nat := 2

/-! ## Data -/

/-- Record `struct editor_syntax` without the file-matching fields; every string is
the list of its bytes up to the terminating NUL. -/
structure editor_syntax where
  keywords : List (List Nat)
  singleline_comment_start : List Nat
  multiline_comment_start : List Nat
  multiline_comment_end : List Nat
  flags : Nat
  deriving DecidableEq, Repr

/-- `struct erow`.  `size` and `rsize` are the lengths of `chars` and
`render`. -/
structure erow where
  idx : Int
  chars : List Nat
  render : List Nat
  hl : List editor_highlight
  hl_open_comment : Bool
  deriving DecidableEq, Repr

instance : Inhabited erow := ⟨⟨0, [], [], [], false⟩⟩

/-- `row->size`. -/
def erow.size (row : erow) : Int := row.chars.length

/-- `row->rsize`. -/
def erow.rsize (row : erow) : Nat := row.render.length

/-- `struct editor_config`; `syn` is the field `syntax` (`none` for `NULL`). -/
structure editor_config where
  cx : Int
  cy : Int
  rx : Int
  rowoff : Int
  coloff : Int
  screenrows : Int
  screencols : Int
  numrows : Int
  row : List erow
  dirty : Int
  syn : Option editor_syntax
  deriving DecidableEq, Repr

/-- Read of `e.row[i]`; outside the array the model reads an empty row. -/
def row_at (rows : List erow) (i : Int) : erow :=
  if i < 0 then default else rows.getD i.toNat default

/-- Write of `e.row[i]`; outside the array the model writes nothing. -/
def row_set (rows : List erow) (i : Int) (r : erow) : List erow :=
  if i < 0 then rows else rows.set i.toNat r

/-- Read of byte `s[i]` of a NUL-terminated buffer. -/
def byte_at (s : List Nat) (i : Nat) : Nat := s.getD i 0

/-- The bytes of a string literal of the source. -/
def lit (s : String) : List Nat := s.toList.map Char.toNat

/-! ## Filetypes -/

/-- `C_HL_keywords`. -/
def C_HL_keywords : List (List Nat) :=
  [lit "switch", lit "if", lit "while", lit "for", lit "break", lit "continue",
   lit "return", lit "else", lit "struct", lit "union", lit "typedef", lit "static",
   lit "enum", lit "class", lit "case", lit "int|", lit "long|", lit "double|",
   lit "float|", lit "char|", lit "unsigned|", lit "signed|", lit "void|"]

/-- `HLDB[0]`, the C profile. -/
def HLDB_c : editor_syntax :=
  { keywords := C_HL_keywords
    singleline_comment_start := lit "//"
    multiline_comment_start := lit "/*"
    multiline_comment_end := lit "*/"
    flags := HL_HIGHLIGHT_NUMBERS ||| HL_HIGHLIGHT_STRINGS }

/-! ## Row operations: column mapping and render -/

/-- The loop of `editor_row_cx_to_rx`: the value of `rx` after `n` iterations. -/
def cx_to_rx_loop (chars : List Nat) : Nat → Nat
  | 0 => 0
  | n + 1 =>
    let rx := cx_to_rx_loop chars n
    let rx := if byte_at chars n = TAB then rx + ((KILO_TAB_STOP - 1) - rx % KILO_TAB_STOP) else rx
    rx + 1

/-- `editor_row_cx_to_rx`. -/
def editor_row_cx_to_rx (row : erow) (cx : Int) : Int :=
  (cx_to_rx_loop row.chars cx.toNat : Nat)

/-- The loop of `editor_row_rx_to_cx` over the bytes from index `cx` on, with
the current value of `cur_rx`. -/
def rx_to_cx_loop (rx : Int) : List Nat → Nat → Nat → Nat
  | [], cx, _ => cx
  | c :: rest, cx, cur_rx =>
    let cur_rx := if c = TAB then cur_rx + ((KILO_TAB_STOP - 1) - cur_rx % KILO_TAB_STOP) else cur_rx
    let cur_rx := cur_rx + 1
    if (cur_rx : Int) > rx then cx else rx_to_cx_loop rx rest (cx + 1) cur_rx

/-- `editor_row_rx_to_cx`. -/
def editor_row_rx_to_cx (row : erow) (rx : Int) : Int :=
  (rx_to_cx_loop rx row.chars 0 0 : Nat)

/-- The inner `while (idx % KILO_TAB_STOP != 0)` loop of `editor_update_row`;
`render.length` is `idx`. -/
def tab_fill : Nat → List Nat → List Nat
  | 0, render => render
  | fuel + 1, render =>
    if render.length % KILO_TAB_STOP ≠ 0 then tab_fill fuel (render ++ [SPACE]) else render

/-- The second `for` loop of `editor_update_row` over the remaining bytes of
`chars`, appending to `render`. -/
def render_loop : List Nat → List Nat → List Nat
  | [], render => render
  | c :: rest, render =>
    if c = TAB then render_loop rest (tab_fill KILO_TAB_STOP (render ++ [SPACE]))
    else render_loop rest (render ++ [c])

/-! ## Syntax highlighting -/

/-- `isspace` in the C locale. -/
def isspace (c : Nat) : Bool := c == 32 || (9 ≤ c && c ≤ 13)

/-- `isdigit`. -/
def isdigit (c : Nat) : Bool := 48 ≤ c && c ≤ 57

/-- `is_separator`. -/
def is_separator (c : Nat) : Bool :=
  isspace c || c == 0 || (lit ",.()+-/*=~%<>[];").contains c

/-- `strncmp(s, t, n) == 0` on NUL-terminated buffers: the first `n` bytes are
compared in order, stopping early at a difference or at a common NUL. -/
def strncmp_eq : Nat → List Nat → List Nat → Bool
  | 0, _, _ => true
  | n + 1, s, t =>
    if s.headD 0 ≠ t.headD 0 then false
    else if s.headD 0 = 0 then true
    else strncmp_eq n s.tail t.tail

/-- `memset(&hl[i], v, n)`. -/
def memset_hl (hl : List editor_highlight) (i : Nat) (v : editor_highlight) :
    Nat → List editor_highlight
  | 0 => hl
  | n + 1 => (memset_hl hl i v n).set (i + n) v

/-- The local variables of the `while` loop of the highlighter together with
the array `row->hl`. -/
structure hl_state where
  i : Nat
  hl : List editor_highlight
  prev_sep : Bool
  in_string : Nat
  in_comment : Bool
  deriving DecidableEq, Repr

/-- The keyword `for` loop at position `i`: the stripped length and the `kw2`
flag of the first keyword, in list order, that matches and is followed by a
separator.  The source reads `keywords[j][klen - 1]`, so a keyword of a
profile is never the empty string. -/
def keyword_match (render : List Nat) (i : Nat) : List (List Nat) → Option (Nat × Bool)
  | [] => none
  | kw :: rest =>
    let klen := kw.length
    let kw2 := byte_at kw (klen - 1) == 124
    let klen := if kw2 then klen - 1 else klen
    if strncmp_eq klen (render.drop i) kw && is_separator (byte_at render (i + klen)) then
      some (klen, kw2)
    else keyword_match render i rest

/-- One iteration of the `while (i < row->rsize)` loop of the highlighter,
for `i < rsize`: the variables after it, and `false` when the iteration ends
in `break`, `true` when the loop goes on to test its condition again. -/
def hl_step (s : editor_syntax) (render : List Nat) (st : hl_state) : hl_state × Bool :=
  let i := st.i
  let c := byte_at render i
  let prev_hl := if i > 0 then st.hl.getD (i - 1) HL_NORMAL else HL_NORMAL
  let scs := s.singleline_comment_start
  let mcs := s.multiline_comment_start
  let mce := s.multiline_comment_end
  if scs.length ≠ 0 ∧ st.in_string = 0 ∧ st.in_comment = false
      ∧ strncmp_eq scs.length (render.drop i) scs = true then
    ({ st with hl := memset_hl st.hl i HL_COMMENT (render.length - i) }, false)
  else if mcs.length ≠ 0 ∧ mce.length ≠ 0 ∧ st.in_string = 0 ∧ st.in_comment = true then
    if strncmp_eq mce.length (render.drop i) mce then
      ({ st with hl := memset_hl (st.hl.set i HL_MLCOMMENT) i HL_MLCOMMENT mce.length
                 i := i + mce.length, in_comment := false, prev_sep := true }, true)
    else
      ({ st with hl := st.hl.set i HL_MLCOMMENT, i := i + 1 }, true)
  else if mcs.length ≠ 0 ∧ mce.length ≠ 0 ∧ st.in_string = 0
      ∧ strncmp_eq mcs.length (render.drop i) mcs = true then
    ({ st with hl := memset_hl st.hl i HL_MLCOMMENT mcs.length
               i := i + mcs.length, in_comment := true }, true)
  else if s.flags &&& HL_HIGHLIGHT_STRINGS ≠ 0 ∧ st.in_string ≠ 0 then
    if c = 92 ∧ i + 1 < render.length then
      ({ st with hl := (st.hl.set i HL_STRING).set (i + 1) HL_STRING, i := i + 2 }, true)
    else
      ({ st with hl := st.hl.set i HL_STRING
                 in_string := if c = st.in_string then 0 else st.in_string
                 i := i + 1, prev_sep := true }, true)
  else if s.flags &&& HL_HIGHLIGHT_STRINGS ≠ 0 ∧ (c = 34 ∨ c = 39) then
    ({ st with in_string := c, hl := st.hl.set i HL_STRING, i := i + 1 }, true)
  else if s.flags &&& HL_HIGHLIGHT_NUMBERS ≠ 0
      ∧ ((isdigit c = true ∧ (st.prev_sep = true ∨ prev_hl = HL_NUMBER))
          ∨ (c = 46 ∧ prev_hl = HL_NUMBER)) then
    ({ st with hl := st.hl.set i HL_NUMBER, i := i + 1, prev_sep := false }, true)
  else
    match (if st.prev_sep then keyword_match render i s.keywords else none) with
    | some (klen, kw2) =>
      ({ st with hl := memset_hl st.hl i (if kw2 then HL_KEYWORD2 else HL_KEYWORD1) klen
                 i := i + klen, prev_sep := false }, true)
    | none => ({ st with prev_sep := is_separator c, i := i + 1 }, true)

/-- The `while (i < row->rsize)` loop of the highlighter.  Every iteration
that continues advances `i` when no keyword is empty, so `rsize + 1` units of
fuel run the loop to its end (`hl_loop_fuel`). -/
def hl_loop (s : editor_syntax) (render : List Nat) : Nat → hl_state → hl_state
  | 0, st => st
  | fuel + 1, st =>
    if st.i < render.length then
      if (hl_step s render st).2 = true then hl_loop s render fuel (hl_step s render st).1
      else (hl_step s render st).1
    else st

/-- The classification of one row: the highlight array and the final
`in_comment` computed by the body of the highlighter from the render and the
incoming `in_comment`. -/
def classify (s : editor_syntax) (render : List Nat) (in_comment : Bool) :
    List editor_highlight × Bool :=
  let st := hl_loop s render (render.length + 1)
    ⟨0, List.replicate render.length HL_NORMAL, true, 0, in_comment⟩
  (st.hl, st.in_comment)

/-- The highlighter of the source, on the row at index `at_` (the pointer
`row`), with fuel for the recursion into the next row: on a document whose
rows carry their own offset as `idx` each call moves one row down, so
`numrows` calls are never exceeded. -/
def update_syntax_fuel : Nat → editor_config → Int → editor_config
  | 0, e, _ => e
  | fuel + 1, e, at_ =>
    let row := row_at e.row at_
    match e.syn with
    | none =>
      { e with row := row_set e.row at_ { row with hl := List.replicate row.rsize HL_NORMAL } }
    | some s =>
      let in_comment := decide (row.idx > 0) && (row_at e.row (row.idx - 1)).hl_open_comment
      let res := classify s row.render in_comment
      let changed := row.hl_open_comment != res.2
      let e1 := { e with row := row_set e.row at_ { row with hl := res.1, hl_open_comment := res.2 } }
      if changed = true ∧ row.idx + 1 < e.numrows then update_syntax_fuel fuel e1 (row.idx + 1)
      else e1

/-- The function `editor_update_syntax` of the source on the row at index
`at_`. -/
def editor_update_syntax (e : editor_config) (at_ : Int) : editor_config :=
  update_syntax_fuel (e.row.length + 1) e at_

/-- `editor_update_row` on the row at index `at_`. -/
def editor_update_row (e : editor_config) (at_ : Int) : editor_config :=
  let row := row_at e.row at_
  let e1 := { e with row := row_set e.row at_ { row with render := render_loop row.chars [] } }
  editor_update_syntax e1 at_

/-- `editor_insert_row`. -/
def editor_insert_row (e : editor_config) (at_ : Int) (s : List Nat) : editor_config :=
  if at_ < 0 ∨ at_ > e.numrows then e
  else
    let shifted := (e.row.drop at_.toNat).map (fun r => { r with idx := r.idx + 1 })
    let e1 := { e with row := e.row.take at_.toNat ++ (⟨at_, s, [], [], false⟩ : erow) :: shifted }
    let e2 := editor_update_row e1 at_
    { e2 with numrows := e2.numrows + 1, dirty := e2.dirty + 1 }

/-- `editor_del_row`. -/
def editor_del_row (e : editor_config) (at_ : Int) : editor_config :=
  if at_ < 0 ∨ at_ ≥ e.numrows then e
  else
    let shifted := (e.row.drop (at_.toNat + 1)).map (fun r => { r with idx := r.idx - 1 })
    { e with row := e.row.take at_.toNat ++ shifted, numrows := e.numrows - 1, dirty := e.dirty + 1 }

/-- `editor_row_insert_char` on the row at index `r`; the byte stored is `c`
converted to `char`. -/
def editor_row_insert_char (e : editor_config) (r : Int) (at_ : Int) (c : Int) : editor_config :=
  let row := row_at e.row r
  let at1 := if at_ < 0 ∨ at_ > row.size then row.size else at_
  let chars := row.chars.take at1.toNat ++ (c % 256).toNat :: row.chars.drop at1.toNat
  let e1 := editor_update_row { e with row := row_set e.row r { row with chars := chars } } r
  { e1 with dirty := e1.dirty + 1 }

/-- `editor_row_append_string` on the row at index `r`. -/
def editor_row_append_string (e : editor_config) (r : Int) (s : List Nat) : editor_config :=
  let row := row_at e.row r
  let e1 := editor_update_row { e with row := row_set e.row r { row with chars := row.chars ++ s } } r
  { e1 with dirty := e1.dirty + 1 }

/-- `editor_row_del_char` on the row at index `r`. -/
def editor_row_del_char (e : editor_config) (r : Int) (at_ : Int) : editor_config :=
  let row := row_at e.row r
  if at_ < 0 ∨ at_ ≥ row.size then e
  else
    let chars := row.chars.take at_.toNat ++ row.chars.drop (at_.toNat + 1)
    let e1 := editor_update_row { e with row := row_set e.row r { row with chars := chars } } r
    { e1 with dirty := e1.dirty + 1 }

/-! ## Editor operations -/

/-- `editor_insert_char`. -/
def editor_insert_char (e : editor_config) (c : Int) : editor_config :=
  let e1 := if e.cy = e.numrows then editor_insert_row e e.numrows [] else e
  let e2 := editor_row_insert_char e1 e1.cy e1.cx c
  { e2 with cx := e2.cx + 1 }

/-- `editor_insert_newline`. -/
def editor_insert_newline (e : editor_config) : editor_config :=
  let e1 :=
    if e.cx = 0 then editor_insert_row e e.cy []
    else
      let row := row_at e.row e.cy
      let e1 := editor_insert_row e (e.cy + 1) (row.chars.drop e.cx.toNat)
      let row := row_at e1.row e1.cy
      editor_update_row
        { e1 with row := row_set e1.row e1.cy { row with chars := row.chars.take e1.cx.toNat } } e1.cy
  { e1 with cy := e1.cy + 1, cx := 0 }

/-- `editor_del_char`. -/
def editor_del_char (e : editor_config) : editor_config :=
  if e.cy = e.numrows then e
  else if e.cx = 0 ∧ e.cy = 0 then e
  else
    let row := row_at e.row e.cy
    if e.cx > 0 then
      let e1 := editor_row_del_char e e.cy (e.cx - 1)
      { e1 with cx := e1.cx - 1 }
    else
      let e1 := { e with cx := (row_at e.row (e.cy - 1)).size }
      let e2 := editor_row_append_string e1 (e1.cy - 1) row.chars
      let e3 := editor_del_row e2 e2.cy
      { e3 with cy := e3.cy - 1 }

/-! ## Find -/

/-- The bytes of a C string: the buffer up to its first NUL. -/
def cstr (s : List Nat) : List Nat := s.takeWhile (fun c => c ≠ 0)

/-- The scan of `strstr` over the rest of the haystack, `off` bytes in. -/
def strstr_loop (q : List Nat) : List Nat → Nat → Option Nat
  | [], off => if q.isPrefixOf [] then some off else none
  | c :: rest, off =>
    if q.isPrefixOf (c :: rest) then some off else strstr_loop q rest (off + 1)

/-- `strstr(s, q)`: the offset `match - s` of the first occurrence of the C
string `q` in the C string `s`, `none` for `NULL`. -/
def strstr (s q : List Nat) : Option Nat := strstr_loop (cstr q) (cstr s) 0

/-- The `static` variables of `editor_find_callback`. -/
structure find_state where
  last_match : Int
  direction : Int
  saved_hl_line : Int
  saved_hl : Option (List editor_highlight)
  deriving DecidableEq, Repr

/-- The initial values of the `static` variables. -/
def find_state_init : find_state := ⟨-1, 1, 0, none⟩

/-- The `for` loop of `editor_find_callback` with `n` iterations left: the
row and the offset of the match at which it breaks, if it does. -/
def find_scan (e : editor_config) (query : List Nat) (direction : Int) :
    Nat → Int → Option (Int × Nat)
  | 0, _ => none
  | n + 1, current =>
    let current := current + direction
    let current :=
      if current = -1 then e.numrows - 1 else if current = e.numrows then 0 else current
    match strstr (row_at e.row current).render query with
    | some off => some (current, off)
    | none => find_scan e query direction n current

/-- The first step of `editor_find_callback`: `memcpy` of the saved highlight
array back into the row it was taken from. -/
def find_restore (fs : find_state) (e : editor_config) : find_state × editor_config :=
  match fs.saved_hl with
  | some saved =>
    let row := row_at e.row fs.saved_hl_line
    let restored : erow := { row with hl := saved.take row.rsize ++ row.hl.drop row.rsize }
    ({ fs with saved_hl := none }, { e with row := row_set e.row fs.saved_hl_line restored })
  | none => (fs, e)

/-- `editor_find_callback` on the static variables and the editor state. -/
def editor_find_callback (fs : find_state) (e : editor_config) (query : List Nat) (key : Int) :
    find_state × editor_config :=
  let fs1 := (find_restore fs e).1
  let e1 := (find_restore fs e).2
  if key = KEY_ENTER ∨ key = KEY_ESC then ({ fs1 with last_match := -1, direction := 1 }, e1)
  else
    let fs2 :=
      if key = ARROW_RIGHT ∨ key = ARROW_DOWN then { fs1 with direction := 1 }
      else if key = ARROW_LEFT ∨ key = ARROW_UP then { fs1 with direction := -1 }
      else { fs1 with last_match := -1, direction := 1 }
    let fs3 := if fs2.last_match = -1 then { fs2 with direction := 1 } else fs2
    match find_scan e1 query fs3.direction e1.numrows.toNat fs3.last_match with
    | none => (fs3, e1)
    | some (current, off) =>
      let row := row_at e1.row current
      let marked : erow := { row with hl := memset_hl row.hl off HL_MATCH (cstr query).length }
      ({ fs3 with last_match := current, saved_hl_line := current
                  saved_hl := some (row.hl.take row.rsize) },
       { e1 with cy := current, cx := editor_row_rx_to_cx row off, rowoff := e1.numrows
                 row := row_set e1.row current marked })

/-! ## Terminal input -/

/-- The outcome of one `read(STDIN_FILENO, &c, 1)`: a byte (`read` returns 1),
no byte (`read` returns 0, or -1 with `EAGAIN`), or another error. -/
inductive read_result where
  | byte (b : Nat)
  | nothing
  | error
  deriving DecidableEq, Repr

/-- What a call of `editor_read_key` comes to on a stream of `read` outcomes:
it returns a key and leaves the rest of the stream, or the process exits in
`die_last`, or the stream ends while the function still waits for a byte. -/
inductive key_result where
  | key (k : Int) (rest : List read_result)
  | died
  | blocked
  deriving DecidableEq, Repr

/-- The value of a `char` holding the byte `b` as an `int`; `char` is signed,
as on the x86 Linux targets of the program. -/
def char_to_int (b : Nat) : Int := if b < 128 then (b : Int) else (b : Int) - 256

/-- The part of `editor_read_key` after the byte `ESC` has been read. -/
def read_escape (input : List read_result) : key_result :=
  match input with
  | read_result.byte s0 :: read_result.byte s1 :: rest =>
    if s0 = 91 then
      if 48 ≤ s1 ∧ s1 ≤ 57 then
        match rest with
        | read_result.byte s2 :: rest2 =>
          if s2 = 126 then
            if s1 = 49 then key_result.key HOME_KEY rest2
            else if s1 = 51 then key_result.key DEL_KEY rest2
            else if s1 = 52 then key_result.key END_KEY rest2
            else if s1 = 53 then key_result.key PAGE_UP rest2
            else if s1 = 54 then key_result.key PAGE_DOWN rest2
            else if s1 = 55 then key_result.key HOME_KEY rest2
            else if s1 = 56 then key_result.key END_KEY rest2
            else key_result.key KEY_ESC rest2
          else key_result.key KEY_ESC rest2
        | _ :: rest2 => key_result.key KEY_ESC rest2
        | [] => key_result.blocked
      else if s1 = 65 then key_result.key ARROW_UP rest
      else if s1 = 66 then key_result.key ARROW_DOWN rest
      else if s1 = 67 then key_result.key ARROW_RIGHT rest
      else if s1 = 68 then key_result.key ARROW_LEFT rest
      else if s1 = 72 then key_result.key HOME_KEY rest
      else if s1 = 70 then key_result.key END_KEY rest
      else key_result.key KEY_ESC rest
    else if s0 = 79 then
      if s1 = 72 then key_result.key HOME_KEY rest
      else if s1 = 70 then key_result.key END_KEY rest
      else key_result.key KEY_ESC rest
    else key_result.key KEY_ESC rest
  | read_result.byte _ :: _ :: rest => key_result.key KEY_ESC rest
  | read_result.byte _ :: [] => key_result.blocked
  | _ :: rest => key_result.key KEY_ESC rest
  | [] => key_result.blocked

/-- `editor_read_key` on the stream of the outcomes of its `read` calls. -/
def editor_read_key : List read_result → key_result
  | [] => key_result.blocked
  | read_result.nothing :: rest => editor_read_key rest
  | read_result.error :: _ => key_result.died
  | read_result.byte c :: rest =>
    if c = 27 then read_escape rest else key_result.key (char_to_int c) rest

/-! ## File i/o -/

/-- `editor_scroll`. -/
def editor_scroll (e : editor_config) : editor_config :=
  let e1 := { e with rx := 0 }
  let e2 :=
    if e1.cy < e1.numrows then { e1 with rx := editor_row_cx_to_rx (row_at e1.row e1.cy) e1.cx }
    else e1
  let e3 := if e2.cy < e2.rowoff then { e2 with rowoff := e2.cy } else e2
  let e4 :=
    if e3.cy ≥ e3.rowoff + e3.screenrows then { e3 with rowoff := e3.cy - e3.screenrows + 1 }
    else e3
  let e5 := if e4.rx < e4.coloff then { e4 with coloff := e4.rx } else e4
  if e5.rx ≥ e5.coloff + e5.screencols then { e5 with coloff := e5.rx - e5.screencols + 1 }
  else e5

/-! ## Input -/

/-- `iscntrl` in the C locale, on the values an `unsigned char` or a `char`
can hold. -/
def iscntrl (c : Int) : Bool := (0 ≤ c && c < 32) || c == 127

/-- The variables of a running `editor_prompt` with the search callback: the
`static` variables of the callback, the editor state and the bytes of `buf`. -/
structure prompt_state where
  fs : find_state
  e : editor_config
  buf : List Nat
  deriving DecidableEq, Repr

/-- What `editor_prompt` comes to on a sequence of keys: it returns (`none`
for `NULL`, else the bytes of `buf`) and leaves the keys it did not read, or
the keys end while it is at the head of its loop. -/
inductive prompt_outcome where
  | returned (query : Option (List Nat)) (st : prompt_state) (rest : List Int)
  | waiting (st : prompt_state)
  deriving DecidableEq, Repr

/-- The call `if (callback) callback(buf, c)` of `editor_prompt`. -/
def prompt_callback
    (callback : Option (find_state → editor_config → List Nat → Int → find_state × editor_config))
    (st : prompt_state) (c : Int) : prompt_state :=
  match callback with
  | some f => { st with fs := (f st.fs st.e st.buf c).1, e := (f st.fs st.e st.buf c).2 }
  | none => st

/-- `editor_prompt` on the keys that the successive calls of `editor_read_key`
return.  Each turn of the loop draws the screen (`editor_refresh_screen`
calls `editor_scroll`) and then reads one key. -/
def editor_prompt
    (callback : Option (find_state → editor_config → List Nat → Int → find_state × editor_config)) :
    prompt_state → List Int → prompt_outcome
  | st, [] => prompt_outcome.waiting st
  | st, c :: keys =>
    let st1 : prompt_state := { st with e := editor_scroll st.e }
    if c = DEL_KEY ∨ c = 8 ∨ c = BACKSPACE then
      let st2 : prompt_state :=
        if st1.buf.length ≠ 0 then { st1 with buf := st1.buf.dropLast } else st1
      editor_prompt callback (prompt_callback callback st2 c) keys
    else if c = KEY_ESC then
      prompt_outcome.returned none (prompt_callback callback st1 c) keys
    else if c = KEY_ENTER then
      if st1.buf.length ≠ 0 then
        prompt_outcome.returned (some st1.buf) (prompt_callback callback st1 c) keys
      else editor_prompt callback (prompt_callback callback st1 c) keys
    else
      let st2 : prompt_state :=
        if iscntrl c = false ∧ c < 128 then { st1 with buf := st1.buf ++ [(c % 256).toNat] }
        else st1
      editor_prompt callback (prompt_callback callback st2 c) keys

/-- `editor_find` on the keys typed while its prompt is open. -/
def editor_find (fs : find_state) (e : editor_config) (keys : List Int) : prompt_outcome :=
  match editor_prompt (some editor_find_callback) ⟨fs, e, []⟩ keys with
  | prompt_outcome.returned (some query) st rest => prompt_outcome.returned (some query) st rest
  | prompt_outcome.returned none st rest =>
    prompt_outcome.returned none
      { st with e := { st.e with cx := e.cx, cy := e.cy, coloff := e.coloff, rowoff := e.rowoff } }
      rest
  | prompt_outcome.waiting st => prompt_outcome.waiting st

/-- `editor_move_cursor`. -/
def editor_move_cursor (e : editor_config) (key : Int) : editor_config :=
  let e1 :=
    if key = ARROW_LEFT then
      if e.cx ≠ 0 then { e with cx := e.cx - 1 }
      else if e.cy > 0 then { e with cy := e.cy - 1, cx := (row_at e.row (e.cy - 1)).size }
      else e
    else if key = ARROW_RIGHT then
      if e.cy < e.numrows ∧ e.cx < (row_at e.row e.cy).size then { e with cx := e.cx + 1 }
      else if e.cy < e.numrows ∧ e.cx = (row_at e.row e.cy).size then
        { e with cy := e.cy + 1, cx := 0 }
      else e
    else if key = ARROW_UP then
      if e.cy ≠ 0 then { e with cy := e.cy - 1 } else e
    else if key = ARROW_DOWN then
      if e.cy + 1 < e.numrows then { e with cy := e.cy + 1 } else e
    else e
  let rowlen := if e1.cy ≥ e1.numrows then 0 else (row_at e1.row e1.cy).size
  if e1.cx > rowlen then { e1 with cx := rowlen } else e1

/-! ## Reference definitions and projections used in the statements -/

/-- Reference tab expansion in the words of the specification: scanning the
content left to right with the render built so far, a byte other than a tab
is copied unchanged and a tab is replaced by `8 - (d mod 8)` spaces, `d` the
length of the render so far. -/
def expand_tabs_spec : List Nat → List Nat → List Nat
  | [], out => out
  | c :: rest, out =>
    if c = 9 then expand_tabs_spec rest (out ++ List.replicate (8 - out.length % 8) 32)
    else expand_tabs_spec rest (out ++ [c])

/-- The part of a row that the highlighter never writes. -/
def erow.content (r : erow) : Int × List Nat × List Nat := (r.idx, r.chars, r.render)

/-- The editor state without its rows. -/
def editor_config.frame (e : editor_config) : editor_config := { e with row := [] }

/-- A one-row document whose row holds a tab, the byte `a` and a tab. -/
def doc_tabs : editor_config :=
  ⟨0, 0, 0, 0, 0, 24, 80, 1, [⟨0, [9, 97, 9], [], [], false⟩], 0, some HLDB_c⟩

/-- The row that one call of the highlighter on the row at `at_` stores
there. -/
def rederive_row (e : editor_config) (at_ : Int) : erow :=
  let row := row_at e.row at_
  match e.syn with
  | none => { row with hl := List.replicate row.rsize HL_NORMAL }
  | some s =>
    let res := classify s row.render
      (decide (row.idx > 0) && (row_at e.row (row.idx - 1)).hl_open_comment)
    { row with hl := res.1, hl_open_comment := res.2 }

/-- Every row carries its own offset as `idx`. -/
def rows_indexed (rows : List erow) : Prop :=
  ∀ (i : Nat), i < rows.length → (rows.getD i default).idx = i

/-- The invariants of a document: `numrows` counts the rows and every row
carries its own offset as `idx`. -/
def doc_wf (e : editor_config) : Prop :=
  e.numrows = e.row.length ∧ rows_indexed e.row

/-- Coherence of one row given the `hl_open_comment` of the row before it
(`false` for row 0): its render is the one `editor_update_row` derives from
its content, and its highlight array and `hl_open_comment` are the
classification of that render. -/
def row_coherent (syn : Option editor_syntax) (seed : Bool) (r : erow) : Bool :=
  r.render == render_loop r.chars [] &&
    match syn with
    | some s => (r.hl, r.hl_open_comment) == classify s r.render seed
    | none => r.hl == List.replicate r.rsize HL_NORMAL

/-- Coherence of the rows from some offset on, given the incoming seed. -/
def rows_coherent (syn : Option editor_syntax) : Bool → List erow → Bool
  | _, [] => true
  | seed, r :: rest => row_coherent syn seed r && rows_coherent syn r.hl_open_comment rest

/-- A coherent document: no row carries stale derived state. -/
def coherent (e : editor_config) : Bool := rows_coherent e.syn false e.row

/-- The cursor is valid: on a row at its bytes or just after them, or on the
line after the last row at column 0. -/
def cursor_valid (e : editor_config) : Prop :=
  0 ≤ e.cy ∧ e.cy ≤ e.numrows ∧ 0 ≤ e.cx ∧
    e.cx ≤ (if e.cy < e.numrows then (row_at e.row e.cy).size else 0)

instance (e : editor_config) : Decidable (cursor_valid e) := by
  unfold cursor_valid; infer_instance

/-- The state after `init_editor` on a 24 by 80 terminal, with the C profile
selected as `editor_open` does for a `.c` file before it reads the lines. -/
def doc_init : editor_config := ⟨0, 0, 0, 0, 0, 22, 80, 0, [], 0, some HLDB_c⟩

/-- The buffer built from the given lines as `editor_open` builds it: each
line is inserted after the rows present. -/
def doc_of_lines (lines : List (List Nat)) : editor_config :=
  lines.foldl (fun e s => editor_insert_row e e.numrows s) doc_init

/-- The buffer with the rows `/* start`, `middle`, `end */ code`. -/
def doc_comment : editor_config :=
  doc_of_lines [lit "/* start", lit "middle", lit "end */ code"]

/-- The buffer with the rows `/*/` and `x`, cursor at column 1 of row 0. -/
def doc_split : editor_config :=
  { doc_of_lines [lit "/*/", lit "x"] with cx := 1, cy := 0 }

/-- The buffer with the rows `//`, `/*` and `x`, cursor at column 0 of row 1. -/
def doc_join : editor_config :=
  { doc_of_lines [lit "//", lit "/*", lit "x"] with cx := 0, cy := 1 }

/-- The query occurs in the render at offset `off`, both read as C strings
(up to their first NUL byte), the way `strstr` reads them. -/
def occurs_at (render query : List Nat) (off : Nat) : Prop :=
  off ≤ (cstr render).length ∧ cstr query <+: (cstr render).drop off

instance (render query : List Nat) (off : Nat) : Decidable (occurs_at render query off) := by
  unfold occurs_at; infer_instance

/-- The render contains the query before its first NUL byte. -/
def cstr_contains (render query : List Nat) : Prop := ∃ off, occurs_at render query off

/-- The offset `off` is the first at which the query occurs in the render. -/
def first_occurrence (render query : List Nat) (off : Nat) : Prop :=
  occurs_at render query off ∧ ∀ o, o < off → ¬ occurs_at render query o

/-- The row at which the claimed scan starts: row 0 when there is no previous
match or the key is not an arrow, one row after the previous match for
`ARROW_RIGHT`/`ARROW_DOWN`, one row before it for `ARROW_LEFT`/`ARROW_UP`. -/
def find_start (fs : find_state) (key : Int) : Int :=
  if fs.last_match = -1 then 0
  else if key = ARROW_RIGHT ∨ key = ARROW_DOWN then fs.last_match + 1
  else if key = ARROW_LEFT ∨ key = ARROW_UP then fs.last_match - 1
  else 0

/-- The step of the claimed scan: backwards for `ARROW_LEFT`/`ARROW_UP` after
a previous match, forwards otherwise. -/
def find_step (fs : find_state) (key : Int) : Int :=
  if fs.last_match ≠ -1 ∧ (key = ARROW_LEFT ∨ key = ARROW_UP) then -1 else 1

/-- The `t`-th row of the claimed scan, in cyclic order over the rows. -/
def scan_row (e : editor_config) (fs : find_state) (key : Int) (t : Nat) : Int :=
  (find_start fs key + find_step fs key * t) % e.numrows

/-- A document with the rows `x` and `a`, NUL, `b`. -/
def doc_nul : editor_config := doc_of_lines [[120], [97, 0, 98]]

/-- No keyword of the profile is empty once its `|` marker is stripped. -/
def keywords_nonempty (s : editor_syntax) : Prop :=
  ∀ kw, kw ∈ s.keywords → kw ≠ [] ∧ kw ≠ [124]

instance (s : editor_syntax) : Decidable (keywords_nonempty s) := by
  unfold keywords_nonempty; infer_instance

/-- The length of a keyword without its `|` marker, as the keyword loop
computes it. -/
def stripped_len (kw : List Nat) : Nat :=
  if (byte_at kw (kw.length - 1) == 124) = true then kw.length - 1 else kw.length

/-- The `hl_open_comment` that the rows hand on to the row after them, `seed`
when there is no row. -/
def out_open (seed : Bool) : List erow → Bool
  | [] => seed
  | r :: rest => out_open r.hl_open_comment rest

/-- The decode table of the escape sequences as the specification lists it:
the bytes that follow `ESC`, and the key. -/
def escape_table_spec : List (List Nat × Int) :=
  [([91, 65], ARROW_UP), ([91, 66], ARROW_DOWN), ([91, 67], ARROW_RIGHT), ([91, 68], ARROW_LEFT),
   ([91, 72], HOME_KEY), ([79, 72], HOME_KEY), ([91, 70], END_KEY), ([79, 70], END_KEY),
   ([91, 49, 126], HOME_KEY), ([91, 55, 126], HOME_KEY), ([91, 51, 126], DEL_KEY),
   ([91, 52, 126], END_KEY), ([91, 56, 126], END_KEY), ([91, 53, 126], PAGE_UP),
   ([91, 54, 126], PAGE_DOWN)]

/-- The state after a sequence of calls of `editor_find_callback`, each with
the query and the key it is called with. -/
def find_calls (calls : List (List Nat × Int)) (fs : find_state) (e : editor_config) :
    find_state × editor_config :=
  calls.foldl (fun s c => editor_find_callback s.1 s.2 c.1 c.2) (fs, e)

/-- The row with the cells `off .. off + len - 1` of its highlight array set to
`HL_MATCH`. -/
def overlay_row (r : erow) (off len : Nat) : erow :=
  { r with hl := memset_hl r.hl off HL_MATCH len }

/-- The text of a keyword entry: the entry without its `|` marker. -/
def keyword_text_spec (kw : List Nat) : List Nat :=
  if kw.getLast? = some 124 then kw.dropLast else kw

/-- The entry is a Keyword2 entry: it ends in `|`. -/
def keyword_is_kw2_spec (kw : List Nat) : Bool := kw.getLast? == some 124

/-- The keyword matches at position `i` of the render: its text stands there
and the byte after it, NUL at the end of the render, is a separator. -/
def keyword_matches_spec (render : List Nat) (i : Nat) (kw : List Nat) : Bool :=
  (keyword_text_spec kw).isPrefixOf (render.drop i)
    && is_separator (byte_at render (i + (keyword_text_spec kw).length))

/-- The longest keyword of the list that matches at position `i`, the first
in list order among those of that length; `none` when no keyword matches. -/
def longest_keyword_spec (render : List Nat) (i : Nat) : List (List Nat) → Option (List Nat)
  | [] => none
  | kw :: rest =>
    match longest_keyword_spec render i rest with
    | none => if keyword_matches_spec render i kw = true then some kw else none
    | some b =>
      if keyword_matches_spec render i kw = true
          ∧ (keyword_text_spec b).length ≤ (keyword_text_spec kw).length then some kw
      else some b

/-- Every entry of the list is a C string that the keyword loop reads as the
specification does: the bytes it compares are the text of the entry, its
`kw2` flag says whether the entry ends in `|`, and the text holds no NUL. -/
def keywords_plain (kws : List (List Nat)) : Prop :=
  ∀ kw ∈ kws, kw.take (stripped_len kw) = keyword_text_spec kw
    ∧ (byte_at kw (kw.length - 1) == 124) = keyword_is_kw2_spec kw
    ∧ ∀ c ∈ keyword_text_spec kw, c ≠ 0

instance (kws : List (List Nat)) : Decidable (keywords_plain kws) := by
  unfold keywords_plain; infer_instance

/-- No text of an entry of the list is the start of the text of another
entry. -/
def keywords_prefix_free (kws : List (List Nat)) : Prop :=
  ∀ kw1 ∈ kws, ∀ kw2 ∈ kws,
    (keyword_text_spec kw1).isPrefixOf (keyword_text_spec kw2) = true → kw1 = kw2

instance (kws : List (List Nat)) : Decidable (keywords_prefix_free kws) := by
  unfold keywords_prefix_free; infer_instance

/-- The iteration of the highlighter loop at the state `st` comes to the
keyword loop: none of the tests before it in the loop body holds (line
comment, inside a multi-line comment, start of a multi-line comment, inside a
string, start of a string, number) and `prev_sep` is set. -/
def keyword_attempted (s : editor_syntax) (render : List Nat) (st : hl_state) : Prop :=
  ¬ (s.singleline_comment_start.length ≠ 0 ∧ st.in_string = 0 ∧ st.in_comment = false
      ∧ strncmp_eq s.singleline_comment_start.length (render.drop st.i)
          s.singleline_comment_start = true) ∧
  ¬ (s.multiline_comment_start.length ≠ 0 ∧ s.multiline_comment_end.length ≠ 0
      ∧ st.in_string = 0 ∧ st.in_comment = true) ∧
  ¬ (s.multiline_comment_start.length ≠ 0 ∧ s.multiline_comment_end.length ≠ 0
      ∧ st.in_string = 0
      ∧ strncmp_eq s.multiline_comment_start.length (render.drop st.i)
          s.multiline_comment_start = true) ∧
  ¬ (s.flags &&& HL_HIGHLIGHT_STRINGS ≠ 0 ∧ st.in_string ≠ 0) ∧
  ¬ (s.flags &&& HL_HIGHLIGHT_STRINGS ≠ 0
      ∧ (byte_at render st.i = 34 ∨ byte_at render st.i = 39)) ∧
  ¬ (s.flags &&& HL_HIGHLIGHT_NUMBERS ≠ 0
      ∧ ((isdigit (byte_at render st.i) = true
            ∧ (st.prev_sep = true
                ∨ (if st.i > 0 then st.hl.getD (st.i - 1) HL_NORMAL else HL_NORMAL) = HL_NUMBER))
          ∨ (byte_at render st.i = 46
              ∧ (if st.i > 0 then st.hl.getD (st.i - 1) HL_NORMAL else HL_NORMAL) = HL_NUMBER))) ∧
  st.prev_sep = true

instance (s : editor_syntax) (render : List Nat) (st : hl_state) :
    Decidable (keyword_attempted s render st) := by
  unfold keyword_attempted; infer_instance

/-! ## Column mapping -/

theorem cx_to_rx_loop_succ_ge (chars : List Nat) (n : Nat) :
    cx_to_rx_loop chars n + 1 ≤ cx_to_rx_loop chars (n + 1) := by
  simp only [cx_to_rx_loop]
  split <;> omega

theorem cx_to_rx_loop_mono (chars : List Nat) {m n : Nat} (h : m ≤ n) :
    cx_to_rx_loop chars m ≤ cx_to_rx_loop chars n := by
  induction h with
  | refl => exact Nat.le_refl _
  | step _ ih => exact Nat.le_trans ih (Nat.le_of_succ_le (cx_to_rx_loop_succ_ge chars _))

theorem byte_at_append_cons (pre : List Nat) (c : Nat) (rest : List Nat) :
    byte_at (pre ++ c :: rest) pre.length = c := by
  induction pre with
  | nil => rfl
  | cons a pre ih => simpa [byte_at] using ih

theorem rx_to_cx_loop_spec (rx : Int) (rest : List Nat) :
    ∀ (pre : List Nat), (cx_to_rx_loop (pre ++ rest) pre.length : Int) ≤ rx →
      pre.length ≤ rx_to_cx_loop rx rest pre.length (cx_to_rx_loop (pre ++ rest) pre.length) ∧
      rx_to_cx_loop rx rest pre.length (cx_to_rx_loop (pre ++ rest) pre.length) ≤ (pre ++ rest).length ∧
      (cx_to_rx_loop (pre ++ rest)
        (rx_to_cx_loop rx rest pre.length (cx_to_rx_loop (pre ++ rest) pre.length)) : Int) ≤ rx := by
  induction rest with
  | nil => intro pre h; simpa [rx_to_cx_loop] using h
  | cons c rest ih =>
    intro pre h
    have hstep : cx_to_rx_loop (pre ++ c :: rest) (pre.length + 1) =
        (if c = TAB then cx_to_rx_loop (pre ++ c :: rest) pre.length
            + ((KILO_TAB_STOP - 1) - cx_to_rx_loop (pre ++ c :: rest) pre.length % KILO_TAB_STOP)
          else cx_to_rx_loop (pre ++ c :: rest) pre.length) + 1 := by
      simp only [cx_to_rx_loop, byte_at_append_cons]
    simp only [rx_to_cx_loop]
    rw [← hstep]
    split
    · refine ⟨Nat.le_refl _, ?_, h⟩
      simp
    · rename_i hgt
      have hle : (cx_to_rx_loop (pre ++ c :: rest) (pre.length + 1) : Int) ≤ rx := by omega
      have key := ih (pre ++ [c])
      simp only [List.append_assoc, List.singleton_append, List.length_append,
        List.length_singleton] at key
      have := key hle
      refine ⟨by omega, ?_, this.2.2⟩
      simpa using this.2.1

/-- C1: for logical columns `0 <= a <= b <= row.size` the display column of
`a` is at most the display column of `b`: `editor_row_cx_to_rx` is
monotonically non-decreasing in the logical column, whatever the row content. -/
theorem C1_cx_to_rx_monotone (row : erow) (a b : Int) (_ha : 0 ≤ a) (hab : a ≤ b)
    (_hb : b ≤ row.size) : editor_row_cx_to_rx row a ≤ editor_row_cx_to_rx row b := by
  unfold editor_row_cx_to_rx
  have h : a.toNat ≤ b.toNat := Int.toNat_le_toNat hab
  exact_mod_cast cx_to_rx_loop_mono row.chars h

/-- C1 at the row of `doc_tabs` (tab, `a`, tab) with `a = 1`, `b = 3`. -/
theorem C1_cx_to_rx_monotone_witness :
    editor_row_cx_to_rx (row_at doc_tabs.row 0) 1 ≤ editor_row_cx_to_rx (row_at doc_tabs.row 0) 3 :=
  C1_cx_to_rx_monotone (row_at doc_tabs.row 0) 1 3 (by decide) (by decide) (by decide)

/-- C2: for a display column `rx >= 0` the logical column
`cx = editor_row_rx_to_cx row rx` lies in `0 .. row.size` and its display
column `editor_row_cx_to_rx row cx` does not exceed `rx`. -/
theorem C2_rx_to_cx_reexpansion (row : erow) (rx : Int) (h : 0 ≤ rx) :
    0 ≤ editor_row_rx_to_cx row rx ∧ editor_row_rx_to_cx row rx ≤ row.size ∧
      editor_row_cx_to_rx row (editor_row_rx_to_cx row rx) ≤ rx := by
  have key := rx_to_cx_loop_spec rx row.chars [] (by simpa [cx_to_rx_loop] using h)
  simp only [List.nil_append, List.length_nil, cx_to_rx_loop] at key
  unfold editor_row_rx_to_cx editor_row_cx_to_rx erow.size
  refine ⟨Int.ofNat_nonneg _, by exact_mod_cast key.2.1, ?_⟩
  simpa using key.2.2

/-- C2 at the row of `doc_tabs` with `rx = 5`. -/
theorem C2_rx_to_cx_reexpansion_witness :
    0 ≤ editor_row_rx_to_cx (row_at doc_tabs.row 0) 5 ∧
      editor_row_rx_to_cx (row_at doc_tabs.row 0) 5 ≤ (row_at doc_tabs.row 0).size ∧
      editor_row_cx_to_rx (row_at doc_tabs.row 0) (editor_row_rx_to_cx (row_at doc_tabs.row 0) 5) ≤ 5 :=
  C2_rx_to_cx_reexpansion (row_at doc_tabs.row 0) 5 (by decide)

/-! ## Render derivation -/

theorem tab_fill_eq (fuel : Nat) : ∀ (r : List Nat), (8 - r.length % 8) % 8 ≤ fuel →
    tab_fill fuel r = r ++ List.replicate ((8 - r.length % 8) % 8) SPACE := by
  induction fuel with
  | zero =>
    intro r h
    have h0 : (8 - r.length % 8) % 8 = 0 := by omega
    simp [tab_fill, h0]
  | succ fuel ih =>
    intro r h
    simp only [tab_fill, KILO_TAB_STOP]
    split
    · rename_i hne
      have hlen : (r ++ [SPACE]).length = r.length + 1 := by simp
      have hk : (8 - r.length % 8) % 8 = (8 - (r ++ [SPACE]).length % 8) % 8 + 1 := by
        rw [hlen]; omega
      rw [ih (r ++ [SPACE]) (by omega), hk, List.replicate_succ]
      simp
    · rename_i heq
      have h0 : (8 - r.length % 8) % 8 = 0 := by omega
      simp [h0]

theorem tab_fill_after_space (r : List Nat) :
    tab_fill KILO_TAB_STOP (r ++ [SPACE]) = r ++ List.replicate (8 - r.length % 8) SPACE := by
  have hlen : (r ++ [SPACE]).length = r.length + 1 := by simp
  rw [tab_fill_eq KILO_TAB_STOP (r ++ [SPACE]) (by simp only [KILO_TAB_STOP]; omega)]
  have hk : 8 - r.length % 8 = (8 - (r ++ [SPACE]).length % 8) % 8 + 1 := by
    rw [hlen]; omega
  rw [hk, List.replicate_succ]
  simp

theorem render_loop_eq_spec (chars : List Nat) : ∀ (out : List Nat),
    render_loop chars out = expand_tabs_spec chars out := by
  induction chars with
  | nil => intro out; rfl
  | cons c rest ih =>
    intro out
    simp only [render_loop, expand_tabs_spec, TAB]
    split
    · rw [tab_fill_after_space, ih]; rfl
    · rw [ih]

theorem render_loop_append (xs ys : List Nat) : ∀ (out : List Nat),
    render_loop (xs ++ ys) out = render_loop ys (render_loop xs out) := by
  induction xs with
  | nil => intro out; rfl
  | cons c rest ih =>
    intro out
    simp only [List.cons_append, render_loop]
    split <;> exact ih _

theorem render_loop_prefix (chars : List Nat) : ∀ (out : List Nat),
    out <+: render_loop chars out := by
  induction chars with
  | nil => intro out; exact List.prefix_refl _
  | cons c rest ih =>
    intro out
    simp only [render_loop]
    split
    · rw [tab_fill_after_space]
      exact List.IsPrefix.trans (List.prefix_append _ _) (ih _)
    · exact List.IsPrefix.trans (List.prefix_append _ _) (ih _)

theorem render_loop_no_tab (chars : List Nat) : ∀ (out : List Nat),
    TAB ∉ out → TAB ∉ render_loop chars out := by
  induction chars with
  | nil => intro out h; exact h
  | cons c rest ih =>
    intro out h
    simp only [render_loop]
    split
    · rw [tab_fill_after_space]
      apply ih
      simp only [List.mem_append, List.mem_replicate, not_or]
      exact ⟨h, fun hh => by simp [TAB, SPACE] at hh⟩
    · rename_i hc
      apply ih
      simp only [List.mem_append, List.mem_singleton, not_or]
      exact ⟨h, fun hh => hc hh.symm⟩

theorem render_loop_tab (pre : List Nat) :
    render_loop (pre ++ [TAB]) [] =
      render_loop pre [] ++ List.replicate (8 - (render_loop pre []).length % 8) SPACE := by
  rw [render_loop_append]
  simp only [render_loop, if_true]
  rw [tab_fill_after_space]

/-- after n ≤ size iterations, rx is the length of the render of the first n bytes -/
theorem cx_to_rx_loop_eq_render (rest : List Nat) : ∀ (pre : List Nat),
    cx_to_rx_loop (pre ++ rest) pre.length = (render_loop pre []).length := by
  intro pre
  induction pre using List.reverseRecOn generalizing rest with
  | nil => rfl
  | append_singleton pre c ih =>
    have h1 := ih (c :: rest)
    simp only [List.append_assoc, List.singleton_append, List.length_append, List.length_singleton]
    simp only [cx_to_rx_loop, byte_at_append_cons, h1]
    rw [render_loop_append]
    simp only [render_loop]
    split
    · rw [tab_fill_after_space]
      simp only [List.length_append, List.length_replicate, KILO_TAB_STOP]
      omega
    · simp

/-! ## The highlighter leaves content alone -/

theorem row_at_natCast (rows : List erow) (n : Nat) :
    row_at rows (n : Int) = rows.getD n default := by
  simp [row_at]

theorem row_set_natCast (rows : List erow) (n : Nat) (r : erow) :
    row_set rows (n : Int) r = rows.set n r := by
  simp [row_set]

theorem row_set_length (rows : List erow) (i : Int) (r : erow) :
    (row_set rows i r).length = rows.length := by
  unfold row_set; split <;> simp

theorem list_set_getD_self (rows : List erow) : ∀ (n : Nat), rows.set n (rows.getD n default) = rows := by
  induction rows with
  | nil => intro n; rfl
  | cons a rows ih =>
    intro n
    cases n with
    | zero => rfl
    | succ n => simp only [List.set_cons_succ, List.getD_cons_succ, ih]

theorem row_set_row_at_self (rows : List erow) (i : Int) :
    row_set rows i (row_at rows i) = rows := by
  unfold row_set row_at
  split
  · rfl
  · exact list_set_getD_self rows _

theorem map_set_same {β : Type} (f : erow → β) (rows : List erow) :
    ∀ (n : Nat) (r : erow), f r = f (rows.getD n default) → (rows.set n r).map f = rows.map f := by
  induction rows with
  | nil => intro n r _; rfl
  | cons a rows ih =>
    intro n r h
    cases n with
    | zero => simp only [List.set_cons_zero, List.map_cons]; rw [h]; rfl
    | succ n =>
      simp only [List.set_cons_succ, List.map_cons]
      rw [ih n r (by simpa using h)]

theorem row_set_map_same {β : Type} (f : erow → β) (rows : List erow) (i : Int) (r : erow)
    (h : f r = f (row_at rows i)) : (row_set rows i r).map f = rows.map f := by
  unfold row_set
  split
  · rfl
  · rename_i hi
    apply map_set_same
    simpa [row_at, hi] using h

theorem update_syntax_fuel_frame (fuel : Nat) : ∀ (e : editor_config) (at_ : Int),
    (update_syntax_fuel fuel e at_).frame = e.frame ∧
    (update_syntax_fuel fuel e at_).row.map erow.content = e.row.map erow.content := by
  induction fuel with
  | zero => intro e at_; exact ⟨rfl, rfl⟩
  | succ fuel ih =>
    intro e at_
    simp only [update_syntax_fuel]
    split
    · exact ⟨rfl, row_set_map_same _ _ _ _ rfl⟩
    · split
      · refine ⟨(ih _ _).1, ?_⟩
        rw [(ih _ _).2]
        exact row_set_map_same _ _ _ _ rfl
      · exact ⟨rfl, row_set_map_same _ _ _ _ rfl⟩

theorem editor_update_syntax_frame (e : editor_config) (at_ : Int) :
    ( editor_update_syntax e at_).frame = e.frame ∧
    ( editor_update_syntax e at_).row.map erow.content = e.row.map erow.content :=
  update_syntax_fuel_frame _ e at_

theorem map_eq_row_at {β : Type} (f : erow → β) {l1 l2 : List erow} (h : l1.map f = l2.map f)
    (i : Int) : f (row_at l1 i) = f (row_at l2 i) := by
  unfold row_at
  split
  · rfl
  · have h1 : ∀ (l : List erow) (n : Nat), f (l.getD n default) = (l.map f).getD n (f default) := by
      intro l n
      simp only [List.getD_eq_getElem?_getD, List.getElem?_map]
      cases l[n]? <;> rfl
    rw [h1, h1, h]

theorem row_at_row_set_self (rows : List erow) (i : Int) (r : erow) (h0 : 0 ≤ i)
    (h1 : i < rows.length) : row_at (row_set rows i r) i = r := by
  obtain ⟨n, rfl⟩ := Int.eq_ofNat_of_zero_le h0
  have hn : n < rows.length := by exact_mod_cast h1
  rw [row_set_natCast, row_at_natCast]
  simp [hn]

theorem editor_update_syntax_row_content (e : editor_config) (at_ i : Int) :
    (row_at ( editor_update_syntax e at_).row i).idx = (row_at e.row i).idx ∧
    (row_at ( editor_update_syntax e at_).row i).chars = (row_at e.row i).chars ∧
    (row_at ( editor_update_syntax e at_).row i).render = (row_at e.row i).render := by
  have h := map_eq_row_at erow.content ( editor_update_syntax_frame e at_).2 i
  simpa only [erow.content, Prod.mk.injEq] using h

theorem editor_update_row_content (e : editor_config) (at_ : Int) (h0 : 0 ≤ at_)
    (h1 : at_ < e.row.length) :
    (row_at (editor_update_row e at_).row at_).idx = (row_at e.row at_).idx ∧
    (row_at (editor_update_row e at_).row at_).chars = (row_at e.row at_).chars ∧
    (row_at (editor_update_row e at_).row at_).render = render_loop (row_at e.row at_).chars [] := by
  simp only [editor_update_row]
  refine ⟨( editor_update_syntax_row_content _ at_ at_).1.trans ?_,
    ( editor_update_syntax_row_content _ at_ at_).2.1.trans ?_,
    ( editor_update_syntax_row_content _ at_ at_).2.2.trans ?_⟩ <;>
  rw [row_at_row_set_self _ _ _ h0 h1]

/-- C3: the render that `editor_update_row` stores in the row equals the
reference tab expansion of the row content (non-tab bytes copied, a tab
replaced by `8 - (d mod 8)` spaces with `d` the render length so far); the
render holds no tab byte; and for every tab of the content, the number `k` of
spaces it yields is between 1 and 8, the render of the content up to and
including that tab has a length that is a multiple of 8, and it is an initial
segment of the whole render. -/
theorem C3_render_is_tab_expansion (e : editor_config) (at_ : Int) (h0 : 0 ≤ at_)
    (h1 : at_ < e.row.length) :
    (row_at (editor_update_row e at_).row at_).render
        = expand_tabs_spec (row_at e.row at_).chars [] ∧
      TAB ∉ (row_at (editor_update_row e at_).row at_).render ∧
      ∀ (pre post : List Nat), (row_at e.row at_).chars = pre ++ TAB :: post →
        ∃ k, 1 ≤ k ∧ k ≤ 8 ∧ k = 8 - (expand_tabs_spec pre []).length % 8 ∧
          expand_tabs_spec (pre ++ [TAB]) [] = expand_tabs_spec pre [] ++ List.replicate k SPACE ∧
          (expand_tabs_spec (pre ++ [TAB]) []).length % 8 = 0 ∧
          expand_tabs_spec (pre ++ [TAB]) [] <+: (row_at (editor_update_row e at_).row at_).render := by
  have hr := (editor_update_row_content e at_ h0 h1).2.2
  refine ⟨by rw [hr, render_loop_eq_spec], by rw [hr]; exact render_loop_no_tab _ _ (by simp), ?_⟩
  intro pre post hc
  refine ⟨8 - (expand_tabs_spec pre []).length % 8, by omega, by omega, rfl, ?_, ?_, ?_⟩
  · rw [← render_loop_eq_spec, ← render_loop_eq_spec, render_loop_tab]
  · rw [← render_loop_eq_spec, render_loop_tab]
    simp only [List.length_append, List.length_replicate]
    omega
  · have hsplit : pre ++ TAB :: post = (pre ++ [TAB]) ++ post := by simp
    rw [hr, hc, ← render_loop_eq_spec, hsplit, render_loop_append (pre ++ [TAB]) post]
    exact render_loop_prefix _ _

/-- C3 at row 0 of `doc_tabs`. -/
theorem C3_render_is_tab_expansion_witness :
    (row_at (editor_update_row doc_tabs 0).row 0).render
      = expand_tabs_spec (row_at doc_tabs.row 0).chars [] :=
  (C3_render_is_tab_expansion doc_tabs 0 (by decide) (by decide)).1

/-- C4: after `editor_update_row` the render length `rsize` of the row equals
`editor_row_cx_to_rx row row.size`, and for every index `j < row.size` whose
content byte is not a tab, the render byte at `editor_row_cx_to_rx row j` is
the content byte at `j`. -/
theorem C4_cx_to_rx_agrees_with_render (e : editor_config) (at_ : Int) (h0 : 0 ≤ at_)
    (h1 : at_ < e.row.length) :
    ((row_at (editor_update_row e at_).row at_).rsize : Int)
        = editor_row_cx_to_rx (row_at (editor_update_row e at_).row at_)
            (row_at (editor_update_row e at_).row at_).size ∧
      ∀ (j : Nat), j < (row_at (editor_update_row e at_).row at_).chars.length →
        byte_at (row_at (editor_update_row e at_).row at_).chars j ≠ TAB →
        (row_at (editor_update_row e at_).row at_).render[
            (editor_row_cx_to_rx (row_at (editor_update_row e at_).row at_) j).toNat]?
          = some (byte_at (row_at (editor_update_row e at_).row at_).chars j) := by
  obtain ⟨_, hc, hr⟩ := editor_update_row_content e at_ h0 h1
  generalize row_at (editor_update_row e at_).row at_ = row at hc hr
  generalize (row_at e.row at_).chars = chars at hc hr
  unfold editor_row_cx_to_rx erow.rsize erow.size
  rw [hc, hr]
  constructor
  · have := cx_to_rx_loop_eq_render [] chars
    simp only [List.append_nil] at this
    simp [this]
  · intro j hj hne
    have hsplit : chars = chars.take j ++ byte_at chars j :: chars.drop (j + 1) := by
      have : byte_at chars j = chars[j] := by simp [byte_at, hj]
      rw [this]; simp
    have hlen : (chars.take j).length = j := by simp; omega
    have h2 := cx_to_rx_loop_eq_render (byte_at chars j :: chars.drop (j + 1)) (chars.take j)
    rw [← hsplit, hlen] at h2
    simp only [Int.toNat_ofNat, h2]
    obtain ⟨t, ht⟩ := render_loop_prefix (chars.drop (j + 1)) (render_loop (chars.take j) [] ++ [byte_at chars j])
    have h3 : render_loop chars [] = render_loop (chars.take j) [] ++ byte_at chars j :: t := by
      conv_lhs => rw [hsplit]
      rw [render_loop_append]
      simp only [render_loop, if_neg hne]
      rw [← ht]; simp
    rw [h3, List.getElem?_append_right (Nat.le_refl _)]
    simp

/-- C4 at row 0 of `doc_tabs`. -/
theorem C4_cx_to_rx_agrees_with_render_witness :
    ((row_at (editor_update_row doc_tabs 0).row 0).rsize : Int)
      = editor_row_cx_to_rx (row_at (editor_update_row doc_tabs 0).row 0)
          (row_at (editor_update_row doc_tabs 0).row 0).size :=
  (C4_cx_to_rx_agrees_with_render doc_tabs 0 (by decide) (by decide)).1

/-! ## Locality of the highlighter -/

theorem update_syntax_fuel_succ (fuel : Nat) (e : editor_config) (at_ : Int) :
    update_syntax_fuel (fuel + 1) e at_ =
      if e.syn.isSome = true ∧
          (row_at e.row at_).hl_open_comment ≠ (rederive_row e at_).hl_open_comment ∧
          (row_at e.row at_).idx + 1 < e.numrows then
        update_syntax_fuel fuel { e with row := row_set e.row at_ (rederive_row e at_) }
          ((row_at e.row at_).idx + 1)
      else { e with row := row_set e.row at_ (rederive_row e at_) } := by
  simp only [update_syntax_fuel, rederive_row]
  cases hs : e.syn with
  | none => simp
  | some s =>
    simp only [Option.isSome_some, true_and, bne_iff_ne, ne_eq]

theorem rederive_row_content (e : editor_config) (at_ : Int) :
    (rederive_row e at_).content = (row_at e.row at_).content := by
  unfold rederive_row
  cases e.syn <;> rfl

theorem rows_indexed_of_content {l1 l2 : List erow}
    (h : l1.map erow.content = l2.map erow.content) (h2 : rows_indexed l2) : rows_indexed l1 := by
  intro i hi
  have hlen : l1.length = l2.length := by simpa using congrArg List.length h
  have := map_eq_row_at erow.content h (i : Int)
  rw [row_at_natCast, row_at_natCast] at this
  have h3 := congrArg Prod.fst this
  simp only [erow.content] at h3
  rw [h3]
  exact h2 i (hlen ▸ hi)

theorem take_set_self (rows : List erow) (r : erow) : ∀ (n : Nat),
    (rows.set n r).take n = rows.take n := by
  induction rows with
  | nil => intro n; simp
  | cons a rows ih =>
    intro n
    cases n with
    | zero => simp
    | succ n => simp [ih]

theorem take_succ_eq {l1 l2 : List erow} : ∀ {n : Nat}, l1.take (n + 1) = l2.take (n + 1) →
    l1.take n = l2.take n ∧ l1.getD n default = l2.getD n default := by
  intro n h
  constructor
  · have := congrArg (List.take n) h
    simpa [List.take_take] using this
  · have := congrArg (fun l => l.getD n default) h
    simpa [List.getD_eq_getElem?_getD, List.getElem?_take] using this

theorem update_syntax_fuel_below (fuel : Nat) : ∀ (e : editor_config) (n : Nat),
    rows_indexed e.row → e.numrows ≤ e.row.length → n < e.row.length →
    (update_syntax_fuel fuel e n).row.take n = e.row.take n ∧
      (1 ≤ fuel → (update_syntax_fuel fuel e n).row.getD n default = rederive_row e n) := by
  induction fuel with
  | zero => intro e n _ _ _; exact ⟨rfl, fun h => absurd h (by decide)⟩
  | succ fuel ih =>
    intro e n hidx hnum hn
    rw [update_syntax_fuel_succ]
    split
    · rename_i hc
      have hi : (row_at e.row n).idx = n := by rw [row_at_natCast]; exact hidx n hn
      rw [hi] at hc ⊢
      have hn1 : n + 1 < e.row.length := by
        have := hc.2.2
        omega
      have hcast : ((n : Int) + 1) = ((n + 1 : Nat) : Int) := by push_cast; rfl
      rw [hcast]
      have hcont : (row_set e.row n (rederive_row e n)).map erow.content = e.row.map erow.content :=
        row_set_map_same _ _ _ _ (rederive_row_content e n)
      have := ih { e with row := row_set e.row n (rederive_row e n) } (n + 1)
        (rows_indexed_of_content hcont hidx) (by simpa [row_set_length] using hnum)
        (by simpa [row_set_length] using hn1)
      obtain ⟨h1, h2⟩ := take_succ_eq this.1
      simp only [row_set_natCast] at h1 h2 ⊢
      refine ⟨by rw [h1, take_set_self], fun _ => ?_⟩
      rw [h2]
      simp [hn]
    · simp only [row_set_natCast]
      refine ⟨take_set_self _ _ _, fun _ => ?_⟩
      simp [hn]

/-! ## The fuel of the model is enough -/

theorem keyword_match_cons (render : List Nat) (i : Nat) (kw : List Nat) (rest : List (List Nat)) :
    keyword_match render i (kw :: rest) =
      if (strncmp_eq (stripped_len kw) (render.drop i) kw
          && is_separator (byte_at render (i + stripped_len kw))) = true then
        some (stripped_len kw, byte_at kw (kw.length - 1) == 124)
      else keyword_match render i rest := rfl

theorem stripped_len_pos (kw : List Nat) (h1 : kw ≠ []) (h2 : kw ≠ [124]) : 1 ≤ stripped_len kw := by
  unfold stripped_len
  cases kw with
  | nil => exact absurd rfl h1
  | cons a t =>
    cases t with
    | nil =>
      have ha : a ≠ 124 := fun h => h2 (by rw [h])
      simp [byte_at, ha]
    | cons b t => split <;> simp

theorem keyword_match_pos (render : List Nat) (i : Nat) : ∀ (kws : List (List Nat)),
    (∀ kw, kw ∈ kws → kw ≠ [] ∧ kw ≠ [124]) → ∀ klen kw2,
    keyword_match render i kws = some (klen, kw2) → 1 ≤ klen := by
  intro kws
  induction kws with
  | nil => intro _ klen kw2 h; simp [keyword_match] at h
  | cons kw rest ih =>
    intro hk klen kw2 h
    rw [keyword_match_cons] at h
    split at h
    · simp only [Option.some.injEq, Prod.mk.injEq] at h
      rw [← h.1]
      exact stripped_len_pos kw (hk kw (List.mem_cons_self _ _)).1 (hk kw (List.mem_cons_self _ _)).2
    · exact ih (fun kw' hkw' => hk kw' (List.mem_cons_of_mem _ hkw')) klen kw2 h

/-- An iteration that does not `break` advances `i`. -/
theorem hl_step_advances (s : editor_syntax) (hk : keywords_nonempty s) (render : List Nat)
    (st : hl_state) : st.i + 1 ≤ (hl_step s render st).1.i ∨ (hl_step s render st).2 = false := by
  unfold hl_step
  simp only
  generalize hd : (if st.prev_sep = true then keyword_match render st.i s.keywords else none) = d
  rcases d with _ | ⟨klen, kw2⟩
  · simp only
    split_ifs <;>
      first
        | exact Or.inr rfl
        | (left; exact Nat.le_refl _)
        | (left; simp only; omega)
  · have hpos : 1 ≤ klen := by
      split at hd
      · exact keyword_match_pos _ _ _ hk _ _ hd
      · simp at hd
    simp only
    split_ifs <;>
      first
        | exact Or.inr rfl
        | (left; exact Nat.le_refl _)
        | (left; simp only; omega)

/-- Fuel beyond `rsize + 1 - i` does not change the result of the loop of the
highlighter: with that much fuel the loop runs to its end. -/
theorem hl_loop_fuel (s : editor_syntax) (hk : keywords_nonempty s) (render : List Nat) :
    ∀ (f1 f2 : Nat) (st : hl_state), render.length + 1 ≤ f1 + st.i →
      render.length + 1 ≤ f2 + st.i → hl_loop s render f1 st = hl_loop s render f2 st := by
  intro f1
  induction f1 with
  | zero =>
    intro f2 st h1 h2
    cases f2 with
    | zero => rfl
    | succ f2 => simp only [hl_loop]; rw [if_neg (by omega)]
  | succ f1 ih =>
    intro f2 st h1 h2
    cases f2 with
    | zero => simp only [hl_loop]; rw [if_neg (by omega)]
    | succ f2 =>
      simp only [hl_loop]
      split
      · split
        · rename_i hgo
          rcases hl_step_advances s hk render st with h | h
          · exact ih _ _ (by omega) (by omega)
          · rw [h] at hgo; exact absurd hgo (by decide)
        · rfl
      · rfl

theorem HLDB_c_keywords_nonempty : keywords_nonempty HLDB_c := by decide

/-- The classification does not depend on the fuel of the model: any fuel
from `rsize + 1` on gives the result of `classify`. -/
theorem classify_fuel (s : editor_syntax) (hk : keywords_nonempty s) (render : List Nat)
    (in_comment : Bool) (fuel : Nat) (h : render.length + 1 ≤ fuel) :
    classify s render in_comment =
      ((hl_loop s render fuel ⟨0, List.replicate render.length HL_NORMAL, true, 0, in_comment⟩).hl,
       (hl_loop s render fuel ⟨0, List.replicate render.length HL_NORMAL, true, 0, in_comment⟩).in_comment) := by
  unfold classify
  simp only
  rw [hl_loop_fuel s hk render (render.length + 1) fuel _ (by simp) (by simp; omega)]

/-- On a document whose rows carry their offset as `idx`, fuel beyond the
number of rows from `n` on does not change the result of the highlighter:
the recursion into the next row ends by itself. -/
theorem update_syntax_fuel_enough : ∀ (f1 f2 : Nat) (e : editor_config) (n : Nat),
    rows_indexed e.row → e.numrows ≤ e.row.length → n < e.row.length →
    e.row.length ≤ f1 + n → e.row.length ≤ f2 + n →
    update_syntax_fuel f1 e n = update_syntax_fuel f2 e n := by
  intro f1
  induction f1 with
  | zero => intro f2 e n _ _ hn h1 _; omega
  | succ f1 ih =>
    intro f2 e n hidx hnum hn h1 h2
    cases f2 with
    | zero => omega
    | succ f2 =>
      rw [update_syntax_fuel_succ, update_syntax_fuel_succ]
      split
      · rename_i hc
        have hi : (row_at e.row n).idx = n := by rw [row_at_natCast]; exact hidx n hn
        rw [hi] at hc ⊢
        have hn1 : n + 1 < e.row.length := by
          have := hc.2.2
          omega
        have hcast : ((n : Int) + 1) = ((n + 1 : Nat) : Int) := by push_cast; rfl
        rw [hcast]
        have hcont : (row_set e.row n (rederive_row e n)).map erow.content = e.row.map erow.content :=
          row_set_map_same _ _ _ _ (rederive_row_content e n)
        apply ih
        · exact rows_indexed_of_content hcont hidx
        · simpa [row_set_length] using hnum
        · simpa [row_set_length] using hn1
        · simp only [row_set_length]; omega
        · simp only [row_set_length]; omega
      · rfl

/-! ## Idempotence of derivation -/

theorem take_eq_row_at {l1 l2 : List erow} {n : Nat} (h : l1.take n = l2.take n) (j : Int)
    (hj : j < n) : row_at l1 j = row_at l2 j := by
  unfold row_at
  split
  · rfl
  · rename_i h0
    have hlt : j.toNat < n := by omega
    have := congrArg (fun l => l.getD j.toNat default) h
    simpa [List.getD_eq_getElem?_getD, List.getElem?_take, hlt] using this

theorem frame_syn {e1 e2 : editor_config} (h : e1.frame = e2.frame) : e1.syn = e2.syn := by
  have := congrArg editor_config.syn h
  exact this

theorem frame_numrows {e1 e2 : editor_config} (h : e1.frame = e2.frame) :
    e1.numrows = e2.numrows := by
  have := congrArg editor_config.numrows h
  exact this

theorem frame_row_eq {e1 e2 : editor_config} (h : e1.frame = e2.frame) (hr : e1.row = e2.row) :
    e1 = e2 := by
  cases e1; cases e2
  simp only [editor_config.frame, editor_config.mk.injEq] at h hr ⊢
  simp [h, hr]

theorem rows_indexed_of_idx {l1 l2 : List erow}
    (h : l1.map erow.idx = l2.map erow.idx) (h2 : rows_indexed l2) : rows_indexed l1 := by
  intro i hi
  have hlen : l1.length = l2.length := by simpa using congrArg List.length h
  have := map_eq_row_at erow.idx h (i : Int)
  rw [row_at_natCast, row_at_natCast] at this
  rw [this]
  exact h2 i (hlen ▸ hi)

theorem with_row_self (U : editor_config) (rows : List erow) (h : rows = U.row) :
    { U with row := rows } = U := by
  subst h; rfl

theorem update_syntax_fuel_length (fuel : Nat) (e : editor_config) (at_ : Int) :
    (update_syntax_fuel fuel e at_).row.length = e.row.length := by
  simpa using congrArg List.length (update_syntax_fuel_frame fuel e at_).2

/-- A second run of the highlighter on the same row changes nothing. -/
theorem update_syntax_fuel_idem (fuel1 fuel2 : Nat) (h1 : 1 ≤ fuel1) (e : editor_config) (n : Nat)
    (hidx : rows_indexed e.row) (hnum : e.numrows ≤ e.row.length) (hn : n < e.row.length) :
    update_syntax_fuel fuel2 (update_syntax_fuel fuel1 e n) n = update_syntax_fuel fuel1 e n := by
  obtain ⟨htake, hrow⟩ := update_syntax_fuel_below fuel1 e n hidx hnum hn
  have hrow := hrow h1
  have hframe := (update_syntax_fuel_frame fuel1 e n).1
  generalize update_syntax_fuel fuel1 e n = U at htake hrow hframe
  have hi : (row_at e.row n).idx = n := by rw [row_at_natCast]; exact hidx n hn
  have hat : row_at U.row n = rederive_row e n := by rw [row_at_natCast]; exact hrow
  have hre : rederive_row U n = rederive_row e n := by
    have hprev : (decide ((n : Int) > 0) && (row_at U.row ((n : Int) - 1)).hl_open_comment)
        = (decide ((n : Int) > 0) && (row_at e.row ((n : Int) - 1)).hl_open_comment) := by
      by_cases hpos : (n : Int) > 0
      · rw [take_eq_row_at htake ((n : Int) - 1) (by omega)]
      · simp [hpos]
    conv_lhs => unfold rederive_row
    rw [hat, frame_syn hframe]
    unfold rederive_row
    cases e.syn with
    | none => rfl
    | some s =>
      simp only [hi]
      rw [hprev]
  cases fuel2 with
  | zero => rfl
  | succ fuel2 =>
    rw [update_syntax_fuel_succ, hre, hat]
    simp only [ne_eq, not_true_eq_false, false_and, and_false, if_false]
    apply with_row_self
    rw [← hat]
    exact row_set_row_at_self _ _

/-- C8: derivation is idempotent.  For a document whose `numrows` counts its
rows and whose rows carry their own offset as `idx`, and a row index
`0 <= at_ < numrows`, calling `editor_update_row` on that row a second time
leaves the whole editor state, every row's render, highlight array and
`hl_open_comment` included, exactly as it was after the first call. -/
theorem C8_update_row_idempotent (e : editor_config) (at_ : Int) (hwf : doc_wf e) (h0 : 0 ≤ at_)
    (h1 : at_ < e.numrows) :
    editor_update_row (editor_update_row e at_) at_ = editor_update_row e at_ := by
  obtain ⟨n, rfl⟩ := Int.eq_ofNat_of_zero_le h0
  have hn : n < e.row.length := by have := hwf.1; omega
  obtain ⟨hidx', hchars, hrender⟩ := editor_update_row_content e n h0 (by exact_mod_cast hn)
  -- the second call finds the render already in place
  have hself : ∀ (U : editor_config), (row_at U.row n).render = render_loop (row_at U.row n).chars [] →
      editor_update_row U n = editor_update_syntax U n := by
    intro U hU
    unfold editor_update_row
    simp only
    congr 1
    apply with_row_self
    rw [← hU]
    exact row_set_row_at_self _ _
  rw [hself _ (by rw [hrender, hchars])]
  unfold editor_update_row
  simp only
  unfold editor_update_syntax
  apply update_syntax_fuel_idem _ _ (Nat.succ_le_succ (Nat.zero_le _))
  · refine rows_indexed_of_idx ?_ hwf.2
    simp only
    apply row_set_map_same
    rfl
  · simp only [row_set_length]; exact le_of_eq hwf.1
  · simpa only [row_set_length] using hn

/-- The buffer of the three comment rows satisfies the document invariants. -/
theorem doc_comment_wf : doc_wf doc_comment := by
  refine ⟨by decide, ?_⟩
  intro i hi
  have h3 : i < 3 := hi
  interval_cases i <;> rfl

/-- C8 at row 1 of the buffer of the three comment rows. -/
theorem C8_update_row_idempotent_witness :
    editor_update_row (editor_update_row doc_comment 1) 1 = editor_update_row doc_comment 1 :=
  C8_update_row_idempotent doc_comment 1 doc_comment_wf (by decide) (by decide)

/-! ## Content of the rows under the editing operations -/

theorem frame_cx {e1 e2 : editor_config} (h : e1.frame = e2.frame) : e1.cx = e2.cx := by
  have := congrArg editor_config.cx h
  exact this

theorem frame_cy {e1 e2 : editor_config} (h : e1.frame = e2.frame) : e1.cy = e2.cy := by
  have := congrArg editor_config.cy h
  exact this

theorem map_chars_of_content {l1 l2 : List erow}
    (h : l1.map erow.content = l2.map erow.content) : l1.map erow.chars = l2.map erow.chars := by
  have := congrArg (List.map (fun (c : Int × List Nat × List Nat) => c.2.1)) h
  simpa [List.map_map, Function.comp_def, erow.content] using this

theorem row_at_chars (rows : List erow) (i : Int) (h0 : 0 ≤ i) :
    (row_at rows i).chars = (rows.map erow.chars).getD i.toNat [] := by
  unfold row_at
  rw [if_neg (by omega)]
  simp only [List.getD_eq_getElem?_getD, List.getElem?_map]
  cases rows[i.toNat]? <;> rfl

/-- `editor_update_row` changes neither the cursor, nor the row count, nor any content. -/
theorem editor_update_row_view (e : editor_config) (at_ : Int) :
    (editor_update_row e at_).cx = e.cx ∧ (editor_update_row e at_).cy = e.cy ∧
    (editor_update_row e at_).numrows = e.numrows ∧
    (editor_update_row e at_).row.map erow.chars = e.row.map erow.chars := by
  unfold editor_update_row
  simp only
  have h := editor_update_syntax_frame
    { e with row := row_set e.row at_ ({ (row_at e.row at_) with render := render_loop (row_at e.row at_).chars [] }) } at_
  refine ⟨frame_cx h.1, frame_cy h.1, frame_numrows h.1, ?_⟩
  rw [map_chars_of_content h.2]
  apply row_set_map_same
  rfl

theorem editor_insert_row_view (e : editor_config) (at_ : Int) (s : List Nat) (h0 : 0 ≤ at_)
    (h1 : at_ ≤ e.numrows) :
    (editor_insert_row e at_ s).cx = e.cx ∧ (editor_insert_row e at_ s).cy = e.cy ∧
    (editor_insert_row e at_ s).numrows = e.numrows + 1 ∧
    (editor_insert_row e at_ s).row.map erow.chars
      = (e.row.map erow.chars).take at_.toNat ++ s :: (e.row.map erow.chars).drop at_.toNat := by
  unfold editor_insert_row
  rw [if_neg (by omega)]
  simp only
  obtain ⟨a, b, c, d⟩ := editor_update_row_view
    { e with row := e.row.take at_.toNat ++ (⟨at_, s, [], [], false⟩ : erow) ::
        (e.row.drop at_.toNat).map (fun r => { r with idx := r.idx + 1 }) } at_
  refine ⟨a, b, by rw [c], ?_⟩
  rw [d]
  simp [List.map_take, List.map_drop, Function.comp_def]

theorem editor_del_row_view (e : editor_config) (at_ : Int) (h0 : 0 ≤ at_) (h1 : at_ < e.numrows) :
    (editor_del_row e at_).cx = e.cx ∧ (editor_del_row e at_).cy = e.cy ∧
    (editor_del_row e at_).numrows = e.numrows - 1 ∧
    (editor_del_row e at_).row.map erow.chars
      = (e.row.map erow.chars).take at_.toNat ++ (e.row.map erow.chars).drop (at_.toNat + 1) := by
  unfold editor_del_row
  rw [if_neg (by omega)]
  simp [List.map_take, List.map_drop, Function.comp_def]

theorem row_set_map_chars (rows : List erow) (i : Int) (r : erow) (h0 : 0 ≤ i) :
    (row_set rows i r).map erow.chars = (rows.map erow.chars).set i.toNat r.chars := by
  unfold row_set
  rw [if_neg (by omega)]
  exact List.map_set

theorem editor_row_append_string_view (e : editor_config) (r : Int) (s : List Nat) (h0 : 0 ≤ r) :
    (editor_row_append_string e r s).cx = e.cx ∧ (editor_row_append_string e r s).cy = e.cy ∧
    (editor_row_append_string e r s).numrows = e.numrows ∧
    (editor_row_append_string e r s).row.map erow.chars
      = (e.row.map erow.chars).set r.toNat ((row_at e.row r).chars ++ s) := by
  unfold editor_row_append_string
  simp only
  obtain ⟨a, b, c, d⟩ := editor_update_row_view
    { e with row := row_set e.row r ({ (row_at e.row r) with chars := (row_at e.row r).chars ++ s }) } r
  refine ⟨a, b, c, ?_⟩
  rw [d]
  exact row_set_map_chars _ _ _ h0

theorem list_split_set {α : Type} (x t : α) : ∀ (L : List α) (c : Nat), c < L.length →
    (L.take (c + 1) ++ t :: L.drop (c + 1)).set c x = L.take c ++ x :: t :: L.drop (c + 1) := by
  intro L
  induction L with
  | nil => intro c h; simp at h
  | cons a L ih =>
    intro c h
    cases c with
    | zero => simp
    | succ c => simpa using ih c (by simpa using h)

theorem list_insert_getD {α : Type} (d : α) (t : α) : ∀ (L : List α) (c : Nat), c < L.length →
    (L.take (c + 1) ++ t :: L.drop (c + 1)).getD c d = L.getD c d := by
  intro L
  induction L with
  | nil => intro c h; simp at h
  | cons a L ih =>
    intro c h
    cases c with
    | zero => simp
    | succ c => simpa using ih c (by simpa using h)

theorem list_drop_eq_cons {α : Type} (d : α) : ∀ (L : List α) (c : Nat), c < L.length →
    L.drop c = L.getD c d :: L.drop (c + 1) := by
  intro L
  induction L with
  | nil => intro c h; simp at h
  | cons a L ih =>
    intro c h
    cases c with
    | zero => simp
    | succ c => simpa using ih c (by simpa using h)

/-- `editor_insert_newline` with the cursor on an existing row: the row at
`cy` keeps its first `cx` bytes, a new row after it holds the rest. -/
theorem editor_insert_newline_view (e : editor_config) (hnum : e.numrows = e.row.length)
    (hcy0 : 0 ≤ e.cy) (hcy : e.cy < e.numrows) (hcx0 : 0 ≤ e.cx) :
    (editor_insert_newline e).cx = 0 ∧ (editor_insert_newline e).cy = e.cy + 1 ∧
    (editor_insert_newline e).numrows = e.numrows + 1 ∧
    (editor_insert_newline e).row.map erow.chars
      = (e.row.map erow.chars).take e.cy.toNat
          ++ ((e.row.map erow.chars).getD e.cy.toNat []).take e.cx.toNat
          :: ((e.row.map erow.chars).getD e.cy.toNat []).drop e.cx.toNat
          :: (e.row.map erow.chars).drop (e.cy.toNat + 1) := by
  have hc : e.cy.toNat < (e.row.map erow.chars).length := by simp; omega
  unfold editor_insert_newline
  simp only
  split
  · rename_i hk
    obtain ⟨a, b, c, d⟩ := editor_insert_row_view e e.cy [] hcy0 (le_of_lt hcy)
    refine ⟨trivial, by rw [b], c, ?_⟩
    rw [d, hk, list_drop_eq_cons [] _ _ hc]
    simp
  · rename_i hk
    obtain ⟨a, b, c, d⟩ := editor_insert_row_view e (e.cy + 1) ((row_at e.row e.cy).chars.drop e.cx.toNat)
      (by omega) (by omega)
    obtain ⟨a', b', c', d'⟩ := editor_update_row_view
      { (editor_insert_row e (e.cy + 1) ((row_at e.row e.cy).chars.drop e.cx.toNat)) with
        row := row_set (editor_insert_row e (e.cy + 1) ((row_at e.row e.cy).chars.drop e.cx.toNat)).row
          (editor_insert_row e (e.cy + 1) ((row_at e.row e.cy).chars.drop e.cx.toNat)).cy
          ({ (row_at (editor_insert_row e (e.cy + 1) ((row_at e.row e.cy).chars.drop e.cx.toNat)).row
              (editor_insert_row e (e.cy + 1) ((row_at e.row e.cy).chars.drop e.cx.toNat)).cy) with
            chars := (row_at (editor_insert_row e (e.cy + 1) ((row_at e.row e.cy).chars.drop e.cx.toNat)).row
              (editor_insert_row e (e.cy + 1) ((row_at e.row e.cy).chars.drop e.cx.toNat)).cy).chars.take
                (editor_insert_row e (e.cy + 1) ((row_at e.row e.cy).chars.drop e.cx.toNat)).cx.toNat }) }
      (editor_insert_row e (e.cy + 1) ((row_at e.row e.cy).chars.drop e.cx.toNat)).cy
    generalize editor_insert_row e (e.cy + 1) ((row_at e.row e.cy).chars.drop e.cx.toNat) = e1
      at a b c d a' b' c' d'
    have hsucc : (e.cy + 1).toNat = e.cy.toNat + 1 := by omega
    refine ⟨trivial, by rw [b', b], by rw [c', c], ?_⟩
    rw [d', row_set_map_chars _ _ _ (by omega), row_at_chars _ _ (by omega), d, b, a, hsucc,
      row_at_chars _ _ hcy0, list_insert_getD _ _ _ _ hc]
    exact list_split_set _ _ _ _ hc

theorem list_join_set {α : Type} (x : α) : ∀ (L : List α) (p : Nat), p < L.length →
    (L.set p x).take (p + 1) ++ (L.set p x).drop (p + 2) = L.take p ++ x :: L.drop (p + 2) := by
  intro L
  induction L with
  | nil => intro p h; simp at h
  | cons a L ih =>
    intro p h
    cases p with
    | zero => simp
    | succ p => simpa using ih p (by simpa using h)

/-- `editor_del_char` at column 0 of a row below the first: the row is
appended to the row above it and removed, the cursor goes to the join. -/
theorem editor_del_char_join_view (e : editor_config) (hnum : e.numrows = e.row.length)
    (hcx : e.cx = 0) (hcy0 : 0 < e.cy) (hcy : e.cy < e.numrows) :
    (editor_del_char e).cx = (((e.row.map erow.chars).getD (e.cy.toNat - 1) []).length : Int) ∧
    (editor_del_char e).cy = e.cy - 1 ∧
    (editor_del_char e).numrows = e.numrows - 1 ∧
    (editor_del_char e).row.map erow.chars
      = (e.row.map erow.chars).take (e.cy.toNat - 1)
          ++ ((e.row.map erow.chars).getD (e.cy.toNat - 1) []
                ++ (e.row.map erow.chars).getD e.cy.toNat [])
          :: (e.row.map erow.chars).drop (e.cy.toNat + 1) := by
  have hp : e.cy.toNat - 1 < (e.row.map erow.chars).length := by simp; omega
  have hpred : (e.cy - 1).toNat = e.cy.toNat - 1 := by omega
  unfold editor_del_char
  rw [if_neg (by omega), if_neg (by omega)]
  simp only
  rw [if_neg (by omega)]
  obtain ⟨a, b, c, d⟩ := editor_row_append_string_view
    { e with cx := (row_at e.row (e.cy - 1)).size } (e.cy - 1) (row_at e.row e.cy).chars (by omega)
  simp only at a b c d
  obtain ⟨a', b', c', d'⟩ := editor_del_row_view
    (editor_row_append_string { e with cx := (row_at e.row (e.cy - 1)).size } (e.cy - 1)
      (row_at e.row e.cy).chars)
    (editor_row_append_string { e with cx := (row_at e.row (e.cy - 1)).size } (e.cy - 1)
      (row_at e.row e.cy).chars).cy (by rw [b]; omega) (by rw [b, c]; omega)
  generalize editor_row_append_string { e with cx := (row_at e.row (e.cy - 1)).size } (e.cy - 1)
    (row_at e.row e.cy).chars = e2 at a b c d a' b' c' d'
  refine ⟨?_, by rw [b', b], by rw [c', c], ?_⟩
  · rw [a', a]
    unfold erow.size
    rw [row_at_chars _ _ (by omega), hpred]
  · rw [d', d, b, hpred, row_at_chars _ _ (by omega), row_at_chars _ _ (by omega), hpred]
    have h1 : e.cy.toNat = (e.cy.toNat - 1) + 1 := by omega
    have h2 : e.cy.toNat + 1 = (e.cy.toNat - 1) + 2 := by omega
    rw [h2]
    conv_lhs => rw [h1]
    conv_rhs => rw [h1]
    simp only [Nat.add_sub_cancel]
    exact list_join_set _ _ _ hp

theorem list_split_join (k : Nat) : ∀ (L : List (List Nat)) (c : Nat), c < L.length →
    (L.take c ++ (L.getD c []).take k :: (L.getD c []).drop k :: L.drop (c + 1)).take c
        ++ ((L.take c ++ (L.getD c []).take k :: (L.getD c []).drop k :: L.drop (c + 1)).getD c []
            ++ (L.take c ++ (L.getD c []).take k :: (L.getD c []).drop k :: L.drop (c + 1)).getD
                (c + 1) [])
        :: (L.take c ++ (L.getD c []).take k :: (L.getD c []).drop k :: L.drop (c + 1)).drop
            (c + 1 + 1) = L ∧
      (L.take c ++ (L.getD c []).take k :: (L.getD c []).drop k :: L.drop (c + 1)).getD c []
        = (L.getD c []).take k := by
  intro L
  induction L with
  | nil => intro c h; simp at h
  | cons a L ih =>
    intro c h
    cases c with
    | zero => simp
    | succ c => simpa using ih c (by simpa using h)

/-- C9: for a document whose `numrows` counts its rows and a cursor on an
existing row `cy < numrows` at a column `0 <= cx <= size` of that row,
`editor_insert_newline` followed immediately by `editor_del_char` yields the
same number of rows, the same content in every row, and the cursor back at
`(cx, cy)`. -/
theorem C9_split_then_join (e : editor_config) (hnum : e.numrows = e.row.length)
    (hcy0 : 0 ≤ e.cy) (hcy : e.cy < e.numrows) (hcx0 : 0 ≤ e.cx)
    (hcx : e.cx ≤ (row_at e.row e.cy).size) :
    (editor_del_char (editor_insert_newline e)).numrows = e.numrows ∧
    (editor_del_char (editor_insert_newline e)).row.map erow.chars = e.row.map erow.chars ∧
    (editor_del_char (editor_insert_newline e)).cx = e.cx ∧
    (editor_del_char (editor_insert_newline e)).cy = e.cy := by
  obtain ⟨a, b, c, d⟩ := editor_insert_newline_view e hnum hcy0 hcy hcx0
  have hlen : (editor_insert_newline e).numrows = (editor_insert_newline e).row.length := by
    have := congrArg List.length d
    simp at this
    rw [c, this]
    simp; omega
  obtain ⟨a', b', c', d'⟩ := editor_del_char_join_view (editor_insert_newline e) hlen a
    (by rw [b]; omega) (by rw [b, c]; omega)
  have hc : e.cy.toNat < (e.row.map erow.chars).length := by simp; omega
  have hsucc : (e.cy + 1).toNat = e.cy.toNat + 1 := by omega
  have hk : e.cx.toNat ≤ ((e.row.map erow.chars).getD e.cy.toNat []).length := by
    have := hcx
    unfold erow.size at this
    rw [row_at_chars _ _ hcy0] at this
    omega
  rw [b, hsucc, d] at a' d'
  simp only [Nat.add_sub_cancel] at a' d'
  refine ⟨by rw [c', c]; omega, ?_, ?_, by rw [b', b]; omega⟩
  · rw [d']
    exact (list_split_join _ _ _ hc).1
  · rw [a', (list_split_join _ _ _ hc).2, List.length_take]
    omega

/-- C9 at the buffer of the three comment rows, cursor at column 3 of row 2. -/
theorem C9_split_then_join_witness :
    (editor_del_char (editor_insert_newline { doc_comment with cx := 3, cy := 2 })).row.map erow.chars
      = doc_comment.row.map erow.chars :=
  (C9_split_then_join { doc_comment with cx := 3, cy := 2 } (by decide) (by decide) (by decide)
    (by decide) (by decide)).2.1

/-! ## Search -/

theorem strstr_loop_spec (q : List Nat) : ∀ (s : List Nat) (k : Nat),
    (∀ off, strstr_loop q s k = some off →
      ∃ j, off = k + j ∧ j ≤ s.length ∧ q <+: s.drop j ∧ ∀ j', j' < j → ¬ q <+: s.drop j') ∧
    (strstr_loop q s k = none → ∀ j, j ≤ s.length → ¬ q <+: s.drop j) := by
  intro s
  induction s with
  | nil =>
    intro k
    simp only [strstr_loop, List.isPrefixOf_iff_prefix]
    constructor
    · intro off h
      split at h
      · rename_i hp
        exact ⟨0, by simpa using h.symm, Nat.le_refl _, by simpa using hp, fun j' hj' => absurd hj' (by omega)⟩
      · simp at h
    · intro h j hj
      split at h
      · simp at h
      · rename_i hp
        simpa using hp
  | cons c rest ih =>
    intro k
    simp only [strstr_loop, List.isPrefixOf_iff_prefix]
    constructor
    · intro off h
      split at h
      · rename_i hp
        exact ⟨0, by simpa using h.symm, Nat.zero_le _, by simpa using hp, fun j' hj' => absurd hj' (by omega)⟩
      · rename_i hp
        obtain ⟨j, h1, h2, h3, h4⟩ := (ih (k + 1)).1 off h
        refine ⟨j + 1, by omega, by simpa using h2, by simpa using h3, ?_⟩
        intro j' hj'
        cases j' with
        | zero => simpa using hp
        | succ j' => simpa using h4 j' (by omega)
    · intro h j hj
      split at h
      · simp at h
      · rename_i hp
        cases j with
        | zero => simpa using hp
        | succ j => simpa using (ih (k + 1)).2 h j (by simpa using hj)

theorem strstr_some {r q : List Nat} {off : Nat} (h : strstr r q = some off) :
    first_occurrence r q off := by
  obtain ⟨j, h1, h2, h3, h4⟩ := (strstr_loop_spec (cstr q) (cstr r) 0).1 off h
  have : off = j := by omega
  subst this
  refine ⟨⟨h2, h3⟩, fun o ho hocc => h4 o ho hocc.2⟩

theorem strstr_none {r q : List Nat} (h : strstr r q = none) : ¬ cstr_contains r q := by
  rintro ⟨off, h1, h2⟩
  exact (strstr_loop_spec (cstr q) (cstr r) 0).2 h off h1 h2

theorem wrap_eq_emod (N x : Int) (hN : 0 < N) (h1 : -1 ≤ x) (h2 : x ≤ N) :
    (if x = -1 then N - 1 else if x = N then 0 else x) = x % N := by
  split
  · rename_i h
    subst h
    have : (-1 : Int) = (N - 1) + (-1) * N := by ring
    rw [this, Int.add_mul_emod_self, Int.emod_eq_of_lt (by omega) (by omega)]
  · split
    · rename_i h
      subst h
      simp
    · rw [Int.emod_eq_of_lt (by omega) (by omega)]

theorem find_scan_spec (e : editor_config) (q : List Nat) (dir : Int) (hN : 0 < e.numrows)
    (hdir : dir = 1 ∨ dir = -1) : ∀ (n : Nat) (cur : Int), -1 ≤ cur → cur < e.numrows →
      (dir = -1 → 0 ≤ cur) →
    (∀ r off, find_scan e q dir n cur = some (r, off) →
      ∃ t, t < n ∧ r = (cur + dir * ((t : Int) + 1)) % e.numrows ∧
        strstr (row_at e.row r).render q = some off ∧
        ∀ t', t' < t →
          strstr (row_at e.row ((cur + dir * ((t' : Int) + 1)) % e.numrows)).render q = none) ∧
    (find_scan e q dir n cur = none → ∀ t, t < n →
      strstr (row_at e.row ((cur + dir * ((t : Int) + 1)) % e.numrows)).render q = none) := by
  intro n
  induction n with
  | zero =>
    intro cur _ _ _
    simp [find_scan]
  | succ n ih =>
    intro cur h1 h2 h3
    have hw : (if cur + dir = -1 then e.numrows - 1 else if cur + dir = e.numrows then 0
        else cur + dir) = (cur + dir) % e.numrows := by
      apply wrap_eq_emod _ _ hN
      · rcases hdir with h | h
        · omega
        · have := h3 h; omega
      · rcases hdir with h | h <;> omega
    have hnext : ∀ (t : Int), ((cur + dir) % e.numrows + dir * (t + 1)) % e.numrows
        = (cur + dir * (t + 1 + 1)) % e.numrows := by
      intro t
      rw [Int.emod_add_emod]
      congr 1
      ring
    have hlo : 0 ≤ (cur + dir) % e.numrows := Int.emod_nonneg _ (by omega)
    have hhi : (cur + dir) % e.numrows < e.numrows := Int.emod_lt_of_pos _ hN
    simp only [find_scan, hw]
    cases hs : strstr (row_at e.row ((cur + dir) % e.numrows)).render q with
    | some off0 =>
      simp only
      constructor
      · intro r off heq
        simp only [Option.some.injEq, Prod.mk.injEq] at heq
        obtain ⟨rfl, rfl⟩ := heq
        refine ⟨0, Nat.succ_pos _, by simp, hs, fun t' ht' => absurd ht' (by omega)⟩
      · intro h; simp at h
    | none =>
      simp only
      obtain ⟨ih1, ih2⟩ := ih ((cur + dir) % e.numrows) (by omega) hhi (fun _ => hlo)
      have h0 : (cur + dir * (((0 : Nat) : Int) + 1)) % e.numrows = (cur + dir) % e.numrows := by
        simp
      constructor
      · intro r off heq
        obtain ⟨t, ht, hr, hso, hbefore⟩ := ih1 r off heq
        refine ⟨t + 1, by omega, ?_, hso, ?_⟩
        · rw [hr, hnext]; push_cast; rfl
        · intro t' ht'
          cases t' with
          | zero => rw [h0]; exact hs
          | succ t' =>
            have := hbefore t' (by omega)
            rw [hnext] at this
            push_cast
            exact this
      · intro hnone t ht
        cases t with
        | zero => rw [h0]; exact hs
        | succ t =>
          have := ih2 hnone t (by omega)
          rw [hnext] at this
          push_cast
          exact this

theorem scan_hits_every_row (N cur dir i : Int) (hN : 0 < N) (hdir : dir = 1 ∨ dir = -1)
    (h0 : 0 ≤ i) (h1 : i < N) :
    ∃ (t : Nat), t < N.toNat ∧ (cur + dir * ((t : Int) + 1)) % N = i := by
  rcases hdir with h | h
  · subst h
    refine ⟨((i - cur - 1) % N).toNat, ?_, ?_⟩
    · have := Int.emod_lt_of_pos (i - cur - 1) hN
      have := Int.emod_nonneg (i - cur - 1) (show N ≠ 0 by omega)
      omega
    · rw [Int.toNat_of_nonneg (Int.emod_nonneg _ (by omega))]
      have : cur + 1 * ((i - cur - 1) % N + 1) = (cur + 1) + (i - cur - 1) % N := by ring
      rw [this, Int.add_emod_emod]
      have : cur + 1 + (i - cur - 1) = i := by ring
      rw [this, Int.emod_eq_of_lt h0 h1]
  · subst h
    refine ⟨((cur - 1 - i) % N).toNat, ?_, ?_⟩
    · have := Int.emod_lt_of_pos (cur - 1 - i) hN
      have := Int.emod_nonneg (cur - 1 - i) (show N ≠ 0 by omega)
      omega
    · rw [Int.toNat_of_nonneg (Int.emod_nonneg _ (by omega))]
      have : cur + -1 * ((cur - 1 - i) % N + 1) = (cur - 1) - (cur - 1 - i) % N := by ring
      rw [this, Int.sub_emod, Int.emod_emod, ← Int.sub_emod]
      have : cur - 1 - (cur - 1 - i) = i := by ring
      rw [this, Int.emod_eq_of_lt h0 h1]

theorem find_restore_view (fs : find_state) (e : editor_config) :
    (find_restore fs e).1.last_match = fs.last_match ∧
    (find_restore fs e).2.numrows = e.numrows ∧
    (find_restore fs e).2.row.map erow.content = e.row.map erow.content := by
  unfold find_restore
  cases fs.saved_hl with
  | none => exact ⟨rfl, rfl, rfl⟩
  | some saved =>
    refine ⟨rfl, rfl, ?_⟩
    apply row_set_map_same
    rfl

/-- What `editor_find_callback` does for a key other than Enter and Escape,
in terms of the effective previous match `lm` and direction `dir`. -/
theorem find_callback_scan (fs : find_state) (e : editor_config) (q : List Nat) (key : Int)
    (hk1 : key ≠ KEY_ENTER) (hk2 : key ≠ KEY_ESC) :
    ∃ (lm dir : Int), (dir = 1 ∨ dir = -1) ∧ (lm = -1 ∨ lm = fs.last_match) ∧ (dir = -1 → lm ≠ -1) ∧
      (∀ (t : Int), lm + dir * (t + 1) = find_start fs key + find_step fs key * t) ∧
      ∀ r off, find_scan (find_restore fs e).2 q dir e.numrows.toNat lm = some (r, off) →
        (editor_find_callback fs e q key).2.cy = r ∧
        (editor_find_callback fs e q key).2.cx
          = editor_row_rx_to_cx (row_at (find_restore fs e).2.row r) off := by
  obtain ⟨hlm, hnum, _⟩ := find_restore_view fs e
  unfold editor_find_callback
  rw [if_neg (by simp [hk1, hk2])]
  simp only [hnum, hlm]
  unfold find_start find_step
  have h11 : (1 : Int) = -1 → False := by decide
  by_cases hf : key = ARROW_RIGHT ∨ key = ARROW_DOWN
  · have hnb : ¬ (key = ARROW_LEFT ∨ key = ARROW_UP) := by
      rcases hf with h | h <;> subst h <;> decide
    refine ⟨fs.last_match, 1, Or.inl rfl, Or.inr rfl, fun h => absurd h h11, ?_, ?_⟩
    · intro t
      by_cases hm : fs.last_match = -1
      · simp [hm]
      · simp [hm, hf, hnb]; ring
    · intro r off hscan
      by_cases hm : fs.last_match = -1
      · rw [hm] at hscan; simp [hm, hf, hlm, hscan]
      · simp [hm, hf, hlm, hscan]
  · by_cases hb : key = ARROW_LEFT ∨ key = ARROW_UP
    · by_cases hm : fs.last_match = -1
      · refine ⟨fs.last_match, 1, Or.inl rfl, Or.inr rfl, fun h => absurd h h11, ?_, ?_⟩
        · intro t; simp [hm]
        · intro r off hscan
          rw [hm] at hscan
          simp [hm, hf, hb, hlm, hscan]
      · refine ⟨fs.last_match, -1, Or.inr rfl, Or.inr rfl, fun _ => hm, ?_, ?_⟩
        · intro t; simp [hm, hf, hb]; ring
        · intro r off hscan
          simp [hm, hf, hb, hlm, hscan]
    · refine ⟨-1, 1, Or.inl rfl, Or.inl rfl, fun h => absurd h h11, ?_, ?_⟩
      · intro t
        by_cases hm : fs.last_match = -1 <;> simp [hm, hf, hb]
      · intro r off hscan
        simp [hf, hb, hscan]

/-- C10 (amended): in `editor_find_callback`, for a document whose `numrows`
counts its rows, a previous match `last_match` that is `-1` or a row, a key
other than Enter and Escape and a query that some row's render contains
before its first NUL byte, the cursor row becomes the first row of the cyclic
scan `scan_row` (from row 0 when there is no previous match or the key is not
an arrow, else from one row after the previous match for
`ARROW_RIGHT`/`ARROW_DOWN` or one row before it for `ARROW_LEFT`/`ARROW_UP`,
wrapping between the last row and row 0) whose render contains the query
before its first NUL byte, and the cursor column becomes
`editor_row_rx_to_cx` of the offset of the first occurrence in that row; in
particular a query that only row 0 contains is found at row 0, wherever the
cursor was. -/
theorem C10_find_scans_cyclically (fs : find_state) (e : editor_config) (q : List Nat) (key : Int)
    (hnum : e.numrows = e.row.length) (hlm1 : -1 ≤ fs.last_match)
    (hlm2 : fs.last_match < e.numrows) (hk1 : key ≠ KEY_ENTER) (hk2 : key ≠ KEY_ESC)
    (hex : ∃ (i : Nat), i < e.row.length ∧ cstr_contains (row_at e.row i).render q) :
    ∃ (t : Nat), (t : Int) < e.numrows ∧
      (editor_find_callback fs e q key).2.cy = scan_row e fs key t ∧
      (∀ t', t' < t → ¬ cstr_contains (row_at e.row (scan_row e fs key t')).render q) ∧
      (∃ off, first_occurrence (row_at e.row (scan_row e fs key t)).render q off ∧
        (editor_find_callback fs e q key).2.cx
          = editor_row_rx_to_cx (row_at e.row (scan_row e fs key t)) off) ∧
      ((∀ (i : Nat), 0 < i → i < e.row.length → ¬ cstr_contains (row_at e.row i).render q) →
        (editor_find_callback fs e q key).2.cy = 0) := by
  obtain ⟨lm, dir, hdir, hlm, hneg, harith, hcb⟩ := find_callback_scan fs e q key hk1 hk2
  obtain ⟨_, hnum1, hcont⟩ := find_restore_view fs e
  obtain ⟨i, hi, hci⟩ := hex
  have hN : 0 < e.numrows := by omega
  have hrender : ∀ (j : Int), (row_at (find_restore fs e).2.row j).render = (row_at e.row j).render := by
    intro j
    have := map_eq_row_at erow.content hcont j
    simp only [erow.content, Prod.mk.injEq] at this
    exact this.2.2
  have hrx : ∀ (j : Int) (off : Int), editor_row_rx_to_cx (row_at (find_restore fs e).2.row j) off
      = editor_row_rx_to_cx (row_at e.row j) off := by
    intro j off
    have := map_eq_row_at erow.content hcont j
    simp only [erow.content, Prod.mk.injEq] at this
    unfold editor_row_rx_to_cx
    rw [this.2.1]
  have hspec := find_scan_spec (find_restore fs e).2 q dir (by rw [hnum1]; exact hN) hdir
    e.numrows.toNat lm (by rcases hlm with h | h <;> omega) (by rcases hlm with h | h <;> omega)
    (by intro hd; have := hneg hd; rcases hlm with h | h <;> omega)
  rw [hnum1] at hspec
  simp only [hrender] at hspec
  have hrow : ∀ (t : Nat), (lm + dir * ((t : Int) + 1)) % e.numrows = scan_row e fs key t := by
    intro t
    unfold scan_row
    rw [harith]
  simp only [hrow] at hspec
  cases hfs : find_scan (find_restore fs e).2 q dir e.numrows.toNat lm with
  | none =>
    exfalso
    obtain ⟨t, ht, hti⟩ := scan_hits_every_row e.numrows lm dir i hN hdir (by omega) (by omega)
    have := hspec.2 hfs t ht
    rw [hrow] at hti
    rw [hti] at this
    exact strstr_none this hci
  | some p =>
    obtain ⟨r, off⟩ := p
    obtain ⟨t, ht, hr, hso, hbefore⟩ := hspec.1 r off hfs
    obtain ⟨hcy, hcx⟩ := hcb r off hfs
    rw [hrx] at hcx
    subst hr
    refine ⟨t, by omega, hcy, fun t' ht' => strstr_none (hbefore t' ht'),
      ⟨off, strstr_some hso, hcx⟩, ?_⟩
    intro honly
    rw [hcy]
    by_contra hne
    have h0 : 0 ≤ scan_row e fs key t := Int.emod_nonneg _ (by omega)
    have h1 : scan_row e fs key t < e.numrows := Int.emod_lt_of_pos _ hN
    have hcast : ((scan_row e fs key t).toNat : Int) = scan_row e fs key t := Int.toNat_of_nonneg h0
    have := honly (scan_row e fs key t).toNat (by omega) (by omega)
    rw [hcast] at this
    exact this ⟨off, (strstr_some hso).1⟩

/-- C10 at the buffer of the three comment rows, query `code` typed with no
previous match. -/
theorem C10_find_scans_cyclically_witness :
    ∃ (t : Nat), (t : Int) < doc_comment.numrows ∧
      (editor_find_callback find_state_init doc_comment (lit "code") 101).2.cy
        = scan_row doc_comment find_state_init 101 t := by
  obtain ⟨t, h1, h2, _⟩ := C10_find_scans_cyclically find_state_init doc_comment (lit "code") 101
    (by decide) (by decide) (by decide) (by decide) (by decide)
    ⟨2, by decide, ⟨7, by decide⟩⟩
  exact ⟨t, h1, h2⟩

/-- Counterexample to C10 as stated: of the two rows of `doc_nul` only row 1
holds the query `b` in its render, after a NUL byte, yet
`editor_find_callback` with no previous match does not move the cursor to
row 1: it finds no match and leaves the editor state as it was. -/
theorem C10_counterexample :
    doc_nul.numrows = 2 ∧
    [98] <:+: (row_at doc_nul.row 1).render ∧ ¬ [98] <:+: (row_at doc_nul.row 0).render ∧
    (editor_find_callback find_state_init doc_nul [98] 98).2.cy ≠ 1 ∧
    (editor_find_callback find_state_init doc_nul [98] 98).2 = doc_nul := by
  decide

/-! ## Coherence under the edits -/

theorem out_open_concat (x : erow) : ∀ (A : List erow) (seed : Bool),
    out_open seed (A ++ [x]) = x.hl_open_comment := by
  intro A
  induction A with
  | nil => intro seed; rfl
  | cons a A ih => intro seed; exact ih _

theorem rows_coherent_append_cons (syn : Option editor_syntax) (r : erow) (B : List erow) :
    ∀ (A : List erow) (seed : Bool),
    rows_coherent syn seed (A ++ r :: B) =
      (rows_coherent syn seed A && (row_coherent syn (out_open seed A) r
        && rows_coherent syn r.hl_open_comment B)) := by
  intro A
  induction A with
  | nil => intro seed; rfl
  | cons a A ih =>
    intro seed
    show (row_coherent syn seed a && rows_coherent syn a.hl_open_comment (A ++ r :: B)) = _
    rw [ih]
    simp only [rows_coherent, out_open, Bool.and_assoc]

theorem rows_coherent_concat (syn : Option editor_syntax) (r : erow) (A : List erow) (seed : Bool) :
    rows_coherent syn seed (A ++ [r]) =
      (rows_coherent syn seed A && row_coherent syn (out_open seed A) r) := by
  rw [rows_coherent_append_cons]
  simp [rows_coherent]

theorem rows_coherent_none (B : List erow) : ∀ (s1 s2 : Bool),
    rows_coherent none s1 B = rows_coherent none s2 B := by
  induction B with
  | nil => intro _ _; rfl
  | cons b B ih => intro s1 s2; rfl

theorem row_at_append_length (A : List erow) (r : erow) (B : List erow) :
    row_at (A ++ r :: B) (A.length : Int) = r := by
  rw [row_at_natCast]
  induction A with
  | nil => rfl
  | cons a A ih => simpa using ih

theorem row_set_append_length (A : List erow) (r r' : erow) (B : List erow) :
    row_set (A ++ r :: B) (A.length : Int) r' = A ++ r' :: B := by
  rw [row_set_natCast]
  simp

/-- The seed that the highlighter reads for the row after the rows `A`. -/
theorem seed_eq_out_open (A : List erow) (r : erow) (B : List erow) :
    (decide ((A.length : Int) > 0) && (row_at (A ++ r :: B) ((A.length : Int) - 1)).hl_open_comment)
      = out_open false A := by
  induction A using List.reverseRecOn with
  | nil => rfl
  | append_singleton A x _ =>
    rw [out_open_concat]
    have h1 : (((A ++ [x]).length : Nat) : Int) - 1 = (A.length : Int) := by
      simp
    have h2 : (A ++ [x]) ++ r :: B = A ++ x :: r :: B := by simp
    rw [h1, h2, row_at_append_length]
    simp

theorem rederive_row_coherent (e : editor_config) (A : List erow) (r : erow) (B : List erow)
    (hrow : e.row = A ++ r :: B) (hidx : r.idx = A.length)
    (hr : r.render = render_loop r.chars []) :
    row_coherent e.syn (out_open false A) (rederive_row e A.length) = true := by
  unfold rederive_row row_coherent
  rw [hrow, row_at_append_length]
  cases e.syn with
  | none => simp [hr, erow.rsize]
  | some s =>
    simp only [hidx, seed_eq_out_open]
    simp [hr]

theorem row_coherent_render {syn : Option editor_syntax} {seed : Bool} {r : erow}
    (h : row_coherent syn seed r = true) : r.render = render_loop r.chars [] := by
  unfold row_coherent at h
  simp only [Bool.and_eq_true, beq_iff_eq] at h
  exact h.1

/-- The propagation of the highlighter restores coherence: when the rows
before the row at `A.length` are coherent, that row has its render, and the
rows after it are coherent for the `hl_open_comment` it had, then after the
highlighter has run on it the whole document is coherent. -/
theorem update_syntax_fuel_coherent : ∀ (fuel : Nat) (e : editor_config) (A : List erow) (r : erow)
    (B : List erow), e.row = A ++ r :: B → rows_indexed e.row → e.numrows ≤ e.row.length →
    (B = [] ∨ e.numrows = e.row.length) → B.length + 1 ≤ fuel →
    rows_coherent e.syn false A = true → r.render = render_loop r.chars [] →
    rows_coherent e.syn r.hl_open_comment B = true →
    coherent (update_syntax_fuel fuel e A.length) = true := by
  intro fuel
  induction fuel with
  | zero => intro e A r B _ _ _ _ hf; omega
  | succ fuel ih =>
    intro e A r B hrow hidx hnum hB hf hA hr hBc
    have hlen : e.row.length = A.length + 1 + B.length := by rw [hrow]; simp; omega
    have hri : r.idx = A.length := by
      have := hidx A.length (by omega)
      rw [← row_at_natCast, hrow, row_at_append_length] at this
      exact this
    have hr' := rederive_row_coherent e A r B hrow hri hr
    have hset : row_set e.row (A.length : Int) (rederive_row e A.length)
        = A ++ rederive_row e A.length :: B := by
      rw [hrow, row_set_append_length]
    rw [update_syntax_fuel_succ]
    have hat : row_at e.row (A.length : Int) = r := by rw [hrow, row_at_append_length]
    rw [hat, hset]
    split
    · rename_i hc
      obtain ⟨hsome, hchg, hlt⟩ := hc
      rw [hri] at hlt ⊢
      cases B with
      | nil =>
        exfalso
        simp at hlen
        omega
      | cons b B' =>
        have hnl : e.numrows = e.row.length := by
          rcases hB with h | h
          · exact absurd h (by simp)
          · exact h
        have hcast : ((A.length : Int) + 1) = (((A ++ [rederive_row e A.length]).length : Nat) : Int) := by
          simp
        rw [hcast]
        simp only [rows_coherent, Bool.and_eq_true] at hBc
        apply ih _ (A ++ [rederive_row e A.length]) b B'
        · simp
        · refine rows_indexed_of_content ?_ hidx
          simp only
          rw [← hset]
          exact row_set_map_same _ _ _ _ (rederive_row_content e _)
        · simp only [List.length_append, List.length_cons, List.length_singleton]
          rw [hnl, hlen]; simp; omega
        · right
          simp only [List.length_append, List.length_cons, List.length_singleton]
          rw [hnl, hlen]; simp; omega
        · simp at hf; omega
        · simp only
          rw [rows_coherent_concat, hA, hr']
          rfl
        · exact row_coherent_render hBc.1
        · exact hBc.2
    · rename_i hc
      unfold coherent
      simp only
      rw [rows_coherent_append_cons, hA, hr']
      simp only [Bool.true_and]
      cases hs : e.syn with
      | none => rw [hs] at hBc; rw [rows_coherent_none _ _ r.hl_open_comment]; exact hBc
      | some s =>
        rw [hs] at hBc
        by_cases hchg : r.hl_open_comment = (rederive_row e A.length).hl_open_comment
        · rw [← hchg]; exact hBc
        · have hge : ¬ (r.idx + 1 < e.numrows) := by
            intro hlt
            exact hc ⟨by rw [hs]; rfl, hchg, hlt⟩
          have hBnil : B = [] := by
            rcases hB with h | h
            · exact h
            · rw [hri, h, hlen] at hge
              have : B.length = 0 := by push_cast at hge; omega
              exact List.length_eq_zero.mp this
          subst hBnil
          rfl

theorem map_idx_of_content {l1 l2 : List erow}
    (h : l1.map erow.content = l2.map erow.content) : l1.map erow.idx = l2.map erow.idx := by
  have := congrArg (List.map (fun (c : Int × List Nat × List Nat) => c.1)) h
  simpa [List.map_map, Function.comp_def, erow.content] using this

theorem editor_update_row_idx (e : editor_config) (at_ : Int) :
    (editor_update_row e at_).row.map erow.idx = e.row.map erow.idx := by
  unfold editor_update_row
  simp only
  rw [map_idx_of_content ( editor_update_syntax_frame _ at_).2]
  apply row_set_map_same
  rfl

/-- `editor_update_row` on a row whose neighbours are coherent makes the
document coherent. -/
theorem editor_update_row_coherent (e : editor_config) (A : List erow) (r : erow) (B : List erow)
    (hrow : e.row = A ++ r :: B) (hidx : rows_indexed e.row) (hnum : e.numrows ≤ e.row.length)
    (hB : B = [] ∨ e.numrows = e.row.length) (hA : rows_coherent e.syn false A = true)
    (hBc : rows_coherent e.syn r.hl_open_comment B = true) :
    coherent (editor_update_row e A.length) = true := by
  unfold editor_update_row editor_update_syntax
  simp only
  have hat : row_at e.row (A.length : Int) = r := by rw [hrow, row_at_append_length]
  have hset : ∀ r1, row_set e.row (A.length : Int) r1 = A ++ r1 :: B := by
    intro r1; rw [hrow, row_set_append_length]
  rw [hat, hset]
  have hlen : e.row.length = A.length + 1 + B.length := by rw [hrow]; simp; omega
  apply update_syntax_fuel_coherent _ _ A _ B rfl
  · refine rows_indexed_of_idx ?_ hidx
    simp only
    rw [← hset]
    apply row_set_map_same
    rw [hat]
  · simp only [List.length_append, List.length_cons]; omega
  · rcases hB with h | h
    · exact Or.inl h
    · right; simp only [List.length_append, List.length_cons]; omega
  · simp only [List.length_append, List.length_cons]; omega
  · exact hA
  · rfl
  · exact hBc

theorem list_split_at (rows : List erow) (n : Nat) (hn : n < rows.length) :
    rows = rows.take n ++ rows.getD n default :: rows.drop (n + 1) ∧ (rows.take n).length = n := by
  constructor
  · have := list_drop_eq_cons (default : erow) rows n hn
    rw [← this, List.take_append_drop]
  · rw [List.length_take]; omega

/-- Replacing the content of one row of a coherent document and running
`editor_update_row` on it gives a coherent document. -/
theorem replace_row_update_coherent (e : editor_config) (n : Nat) (r1 : erow) (hwf : doc_wf e)
    (hn : n < e.row.length) (hc : coherent e = true) (hidx : r1.idx = (row_at e.row n).idx)
    (hopen : r1.hl_open_comment = (row_at e.row n).hl_open_comment) :
    coherent (editor_update_row { e with row := row_set e.row n r1 } n) = true := by
  obtain ⟨hsplit, hAlen⟩ := list_split_at e.row n hn
  unfold coherent at hc
  rw [hsplit, rows_coherent_append_cons] at hc
  simp only [Bool.and_eq_true] at hc
  obtain ⟨hA, _, hBc⟩ := hc
  have hat : row_at e.row (n : Int) = e.row.getD n default := row_at_natCast _ _
  have hset : row_set e.row (n : Int) r1 = e.row.take n ++ r1 :: e.row.drop (n + 1) := by
    have := row_set_append_length (e.row.take n) (e.row.getD n default) r1 (e.row.drop (n + 1))
    rw [hAlen, ← hsplit] at this
    exact this
  have key := editor_update_row_coherent { e with row := row_set e.row n r1 }
    (e.row.take n) r1 (e.row.drop (n + 1)) hset
  rw [hAlen] at key
  apply key
  · refine rows_indexed_of_idx ?_ hwf.2
    simp only
    apply row_set_map_same
    exact hidx
  · simp only [row_set_length]
    exact le_of_eq hwf.1
  · right
    simp only [row_set_length]
    exact hwf.1
  · exact hA
  · rw [hopen, hat]; exact hBc

theorem replace_row_update_coherent_int (e : editor_config) (at_ : Int) (r1 : erow)
    (hwf : doc_wf e) (h0 : 0 ≤ at_) (h1 : at_ < e.row.length) (hc : coherent e = true)
    (hidx : r1.idx = (row_at e.row at_).idx)
    (hopen : r1.hl_open_comment = (row_at e.row at_).hl_open_comment) :
    coherent (editor_update_row { e with row := row_set e.row at_ r1 } at_) = true := by
  obtain ⟨n, rfl⟩ := Int.eq_ofNat_of_zero_le h0
  exact replace_row_update_coherent e n r1 hwf (by exact_mod_cast h1) hc hidx hopen

/-- `editor_row_insert_char` keeps a coherent document coherent. -/
theorem editor_row_insert_char_coherent (e : editor_config) (n : Nat) (at_ c : Int)
    (hwf : doc_wf e) (hn : n < e.row.length) (hc : coherent e = true) :
    coherent (editor_row_insert_char e n at_ c) = true := by
  unfold editor_row_insert_char
  simp only
  show coherent (editor_update_row _ (n : Int)) = true
  exact replace_row_update_coherent e n _ hwf hn hc rfl rfl

theorem rows_indexed_concat (rows : List erow) (r : erow) (h : rows_indexed rows)
    (hr : r.idx = rows.length) : rows_indexed (rows ++ [r]) := by
  intro i hi
  simp only [List.length_append, List.length_singleton] at hi
  by_cases hlt : i < rows.length
  · have := h i hlt
    simp only [List.getD_eq_getElem?_getD, List.getElem?_append_left hlt] at this ⊢
    exact this
  · have hi' : i = rows.length := by omega
    subst hi'
    simp [hr]

/-- Appending a row with `editor_insert_row` keeps the document invariants
and coherence. -/
theorem editor_insert_row_end (e : editor_config) (s : List Nat) (hwf : doc_wf e)
    (hc : coherent e = true) :
    doc_wf (editor_insert_row e e.numrows s) ∧ coherent (editor_insert_row e e.numrows s) = true ∧
    (editor_insert_row e e.numrows s).cx = e.cx ∧ (editor_insert_row e e.numrows s).cy = e.cy ∧
    (editor_insert_row e e.numrows s).numrows = e.numrows + 1 := by
  obtain ⟨hnum, hidx⟩ := hwf
  have hN : e.numrows.toNat = e.row.length := by omega
  obtain ⟨a, b, c, _⟩ := editor_insert_row_view e e.numrows s (by omega) (le_refl _)
  refine ⟨?_, ?_, a, b, c⟩
  · unfold editor_insert_row
    rw [if_neg (by omega)]
    simp only [hN, List.take_length, List.drop_length, List.map_nil]
    have hlen := congrArg List.length (editor_update_row_idx
      { e with row := e.row ++ [(⟨e.numrows, s, [], [], false⟩ : erow)] } e.numrows)
    simp only [List.length_map, List.length_append, List.length_singleton] at hlen
    constructor
    · simp only
      rw [hlen, (editor_update_row_view _ _).2.2.1]
      simp only
      omega
    · simp only
      refine rows_indexed_of_idx (editor_update_row_idx _ _) ?_
      exact rows_indexed_concat _ _ hidx hnum
  · unfold editor_insert_row
    rw [if_neg (by omega)]
    simp only [hN, List.take_length, List.drop_length, List.map_nil]
    show coherent (editor_update_row _ e.numrows) = true
    rw [hnum]
    apply editor_update_row_coherent _ e.row _ [] rfl
    · exact rows_indexed_concat _ _ hidx rfl
    · simp only [List.length_append, List.length_singleton]; omega
    · exact Or.inl rfl
    · exact hc
    · rfl

/-- The part of C5 that the code keeps: `editor_insert_char` with any byte, at
a cursor row `0 <= cy <= numrows`, turns a coherent document that satisfies
the document invariants into a coherent document. -/
theorem editor_insert_char_coherent (e : editor_config) (c : Int) (hwf : doc_wf e)
    (hcy0 : 0 ≤ e.cy) (hcy : e.cy ≤ e.numrows) (hc : coherent e = true) :
    coherent (editor_insert_char e c) = true := by
  unfold editor_insert_char
  simp only
  show coherent (editor_row_insert_char _ _ _ c) = true
  split
  · rename_i heq
    obtain ⟨hwf1, hc1, _, hcy1, hnum1⟩ := editor_insert_row_end e [] hwf hc
    rw [hcy1]
    obtain ⟨n, hn⟩ := Int.eq_ofNat_of_zero_le hcy0
    rw [hn]
    apply editor_row_insert_char_coherent _ _ _ _ hwf1 _ hc1
    have := hwf1.1
    omega
  · rename_i hne
    obtain ⟨n, hn⟩ := Int.eq_ofNat_of_zero_le hcy0
    rw [hn]
    apply editor_row_insert_char_coherent _ _ _ _ hwf _ hc
    have := hwf.1
    omega

/-- The branch of `editor_del_char` that C5 holds for: with the cursor inside
a row (`0 < cx <= size`, `cy < numrows`) a coherent document that satisfies
the document invariants stays coherent. -/
theorem editor_del_char_in_row_coherent (e : editor_config) (hwf : doc_wf e)
    (hcy0 : 0 ≤ e.cy) (hcy : e.cy < e.numrows) (hcx : 0 < e.cx) (hc : coherent e = true) :
    coherent (editor_del_char e) = true := by
  unfold editor_del_char
  rw [if_neg (by omega), if_neg (by omega)]
  simp only
  rw [if_pos hcx]
  show coherent (editor_row_del_char e e.cy (e.cx - 1)) = true
  unfold editor_row_del_char
  simp only
  split
  · exact hc
  · show coherent (editor_update_row _ e.cy) = true
    have hlt : e.cy < e.row.length := by have := hwf.1; omega
    exact replace_row_update_coherent_int e e.cy _ hwf hcy0 hlt hc rfl rfl

/-! ## Multi-line comments: the worked examples -/

/-- C6: with the C profile active, in the buffer built by inserting the rows
`/* start`, `middle`, `end */ code` in order, every cell of rows 0 and 1 is
`HL_MLCOMMENT`, in row 2 the cells 0..5 (`end */`) are `HL_MLCOMMENT` and the
remaining five cells (` code`) are `HL_NORMAL`, and `hl_open_comment` is true
for rows 0 and 1 and false for row 2. -/
theorem C6_comment_rows_classified :
    doc_comment.syn = some HLDB_c ∧ doc_comment.numrows = 3 ∧
    doc_comment.row.map erow.render = [lit "/* start", lit "middle", lit "end */ code"] ∧
    (row_at doc_comment.row 0).hl = List.replicate 8 HL_MLCOMMENT ∧
    (row_at doc_comment.row 1).hl = List.replicate 6 HL_MLCOMMENT ∧
    (row_at doc_comment.row 2).hl = List.replicate 6 HL_MLCOMMENT ++ List.replicate 5 HL_NORMAL ∧
    doc_comment.row.map erow.hl_open_comment = [true, true, false] := by
  decide

/-- C7: from the buffer of C6 with the cursor at column 2 of row 0, two calls
of `editor_del_char` remove the opening marker `/*` from row 0, and with no
further call every cell of all three rows is `HL_NORMAL` and
`hl_open_comment` is false on every row. -/
theorem C7_removing_marker_reclassifies :
    (editor_del_char (editor_del_char { doc_comment with cx := 2, cy := 0 })).row.map erow.chars
      = [lit " start", lit "middle", lit "end */ code"] ∧
    (editor_del_char (editor_del_char { doc_comment with cx := 2, cy := 0 })).row.map erow.hl
      = [List.replicate 6 HL_NORMAL, List.replicate 6 HL_NORMAL, List.replicate 11 HL_NORMAL] ∧
    (editor_del_char (editor_del_char { doc_comment with cx := 2, cy := 0 })).row.map
      erow.hl_open_comment = [false, false, false] := by
  decide

/-- C5, the code at two failing inputs.  `doc_split` (rows `/*/`, `x`, cursor
at column 1 of row 0) is well formed and coherent and its cursor is valid,
but after `editor_insert_newline` the rows are `/`, `*/`, `x`, rows 0 and 1
leave no comment open, and row 2 still carries `HL_MLCOMMENT` and
`hl_open_comment = true` where its classification is `HL_NORMAL` and `false`:
the document is not coherent.  `doc_join` (rows `//`, `/*`, `x`, cursor at
column 0 of row 1) is well formed and coherent and its cursor is valid, but
after `editor_del_char` the rows are `///*`, `x`, row 0 is a line comment
that leaves no comment open, and row 1 still carries `HL_MLCOMMENT` and
`hl_open_comment = true`. -/
theorem C5_edits_leave_stale_rows :
    (doc_split.numrows = 2 ∧ doc_split.row.map erow.idx = [0, 1] ∧
      coherent doc_split = true ∧ cursor_valid doc_split ∧
      (editor_insert_newline doc_split).row.map erow.chars = [lit "/", lit "*/", lit "x"] ∧
      (editor_insert_newline doc_split).row.map erow.hl_open_comment = [false, false, true] ∧
      (row_at (editor_insert_newline doc_split).row 2).hl = [HL_MLCOMMENT] ∧
      classify HLDB_c (row_at (editor_insert_newline doc_split).row 2).render false
        = ([HL_NORMAL], false) ∧
      coherent (editor_insert_newline doc_split) = false) ∧
    (doc_join.numrows = 3 ∧ doc_join.row.map erow.idx = [0, 1, 2] ∧
      coherent doc_join = true ∧ cursor_valid doc_join ∧
      (editor_del_char doc_join).row.map erow.chars = [lit "///*", lit "x"] ∧
      (editor_del_char doc_join).row.map erow.hl_open_comment = [false, true] ∧
      (row_at (editor_del_char doc_join).row 1).hl = [HL_MLCOMMENT] ∧
      classify HLDB_c (row_at (editor_del_char doc_join).row 1).render false
        = ([HL_NORMAL], false) ∧
      coherent (editor_del_char doc_join) = false) := by
  decide

/-! ## Row store: bounds and indices -/

theorem editor_update_row_frame (e : editor_config) (at_ : Int) :
    (editor_update_row e at_).frame = e.frame := by
  unfold editor_update_row
  simp only
  rw [( editor_update_syntax_frame _ at_).1]
  rfl

theorem frame_dirty {e1 e2 : editor_config} (h : e1.frame = e2.frame) : e1.dirty = e2.dirty := by
  have := congrArg editor_config.dirty h
  exact this

theorem editor_update_syntax_take (e : editor_config) (n : Nat) (hidx : rows_indexed e.row)
    (hnum : e.numrows ≤ e.row.length) (hn : n < e.row.length) :
    ( editor_update_syntax e n).row.take n = e.row.take n :=
  (update_syntax_fuel_below _ e n hidx hnum hn).1

theorem editor_update_row_take (e : editor_config) (n : Nat) (hidx : rows_indexed e.row)
    (hnum : e.numrows ≤ e.row.length) (hn : n < e.row.length) :
    (editor_update_row e n).row.take n = e.row.take n := by
  unfold editor_update_row
  simp only
  refine ( editor_update_syntax_take _ n ?_ ?_ ?_).trans ?_
  · refine rows_indexed_of_idx ?_ hidx
    simp only
    apply row_set_map_same
    rfl
  · simpa only [row_set_length] using hnum
  · simpa only [row_set_length] using hn
  · simp only [row_set_natCast]
    exact take_set_self _ _ _

theorem rows_indexed_insert (A B : List erow) (r : erow) (h : rows_indexed (A ++ B))
    (hr : r.idx = A.length) :
    rows_indexed (A ++ r :: B.map (fun x => { x with idx := x.idx + 1 })) := by
  intro i hi
  simp only [List.length_append, List.length_cons, List.length_map] at hi
  by_cases h1 : i < A.length
  · have := h i (by simp; omega)
    simp only [List.getD_eq_getElem?_getD, List.getElem?_append_left h1] at this ⊢
    exact this
  · by_cases h2 : i = A.length
    · subst h2
      simp only [List.getD_eq_getElem?_getD]
      rw [List.getElem?_append_right (Nat.le_refl _)]
      simp [hr]
    · have h3 : A.length + 1 ≤ i := by omega
      obtain ⟨k, rfl⟩ := Nat.exists_eq_add_of_le h3
      have := h (A.length + k) (by simp; omega)
      have hk : k < B.length := by omega
      simp only [List.getD_eq_getElem?_getD] at this ⊢
      rw [List.getElem?_append_right (by omega)] at this ⊢
      have e1 : A.length + 1 + k - A.length = k + 1 := by omega
      have e2 : A.length + k - A.length = k := by omega
      rw [e1, List.getElem?_cons_succ, List.getElem?_map]
      rw [e2] at this
      rw [List.getElem?_eq_getElem hk] at this ⊢
      simp only [Option.map_some', Option.getD_some] at this ⊢
      rw [this]
      push_cast
      ring

theorem rows_indexed_delete (A B : List erow) (r : erow) (h : rows_indexed (A ++ r :: B)) :
    rows_indexed (A ++ B.map (fun x => { x with idx := x.idx - 1 })) := by
  intro i hi
  simp only [List.length_append, List.length_map] at hi
  by_cases h1 : i < A.length
  · have := h i (by simp; omega)
    simp only [List.getD_eq_getElem?_getD, List.getElem?_append_left h1] at this ⊢
    exact this
  · have h3 : A.length ≤ i := by omega
    obtain ⟨k, rfl⟩ := Nat.exists_eq_add_of_le h3
    have := h (A.length + k + 1) (by simp; omega)
    have hk : k < B.length := by omega
    simp only [List.getD_eq_getElem?_getD] at this ⊢
    rw [List.getElem?_append_right (by omega)] at this ⊢
    have e1 : A.length + k + 1 - A.length = k + 1 := by omega
    have e2 : A.length + k - A.length = k := by omega
    rw [e1, List.getElem?_cons_succ] at this
    rw [e2, List.getElem?_map]
    rw [List.getElem?_eq_getElem hk] at this ⊢
    simp only [Option.map_some', Option.getD_some] at this ⊢
    rw [this]
    push_cast
    ring

theorem editor_update_row_length (e : editor_config) (at_ : Int) :
    (editor_update_row e at_).row.length = e.row.length := by
  simpa using congrArg List.length (editor_update_row_idx e at_)

/-- C14: `editor_insert_row` with `at < 0` or `at > numrows` and
`editor_del_row` with `at < 0` or `at >= numrows` return the editor state as
it was (rows, `numrows`, `dirty`, cursor and all); for `at` inside the range
`numrows` grows by one on insertion, shrinks by one on deletion, and `dirty`
grows by one in both. -/
theorem C14_out_of_range_row_requests (e : editor_config) (at_ : Int) (s : List Nat) :
    ((at_ < 0 ∨ at_ > e.numrows) → editor_insert_row e at_ s = e) ∧
    ((at_ < 0 ∨ at_ ≥ e.numrows) → editor_del_row e at_ = e) ∧
    ((0 ≤ at_ ∧ at_ ≤ e.numrows) →
      (editor_insert_row e at_ s).numrows = e.numrows + 1 ∧
      (editor_insert_row e at_ s).dirty = e.dirty + 1 ∧
      e.dirty < (editor_insert_row e at_ s).dirty) ∧
    ((0 ≤ at_ ∧ at_ < e.numrows) →
      (editor_del_row e at_).numrows = e.numrows - 1 ∧
      (editor_del_row e at_).dirty = e.dirty + 1 ∧
      e.dirty < (editor_del_row e at_).dirty) := by
  refine ⟨?_, ?_, ?_, ?_⟩
  · intro h
    unfold editor_insert_row
    rw [if_pos h]
  · intro h
    unfold editor_del_row
    rw [if_pos h]
  · intro h
    unfold editor_insert_row
    rw [if_neg (by omega)]
    simp only
    rw [frame_numrows (editor_update_row_frame _ _), frame_dirty (editor_update_row_frame _ _)]
    exact ⟨rfl, rfl, by simp only; omega⟩
  · intro h
    unfold editor_del_row
    rw [if_neg (by omega)]
    exact ⟨rfl, rfl, by simp only; omega⟩

/-- C14 at the buffer of the three comment rows: `at = 7` is out of range for
insertion and `at = 3` for deletion; `at = 3` is in range for insertion and
`at = 2` for deletion. -/
theorem C14_out_of_range_row_requests_witness :
    editor_insert_row doc_comment 7 [120] = doc_comment ∧
    editor_del_row doc_comment 3 = doc_comment ∧
    (editor_insert_row doc_comment 3 [120]).numrows = doc_comment.numrows + 1 ∧
    (editor_del_row doc_comment 2).numrows = doc_comment.numrows - 1 :=
  ⟨(C14_out_of_range_row_requests doc_comment 7 [120]).1 (by decide),
   (C14_out_of_range_row_requests doc_comment 3 [120]).2.1 (by decide),
   ((C14_out_of_range_row_requests doc_comment 3 [120]).2.2.1 (by decide)).1,
   ((C14_out_of_range_row_requests doc_comment 2 [120]).2.2.2 (by decide)).1⟩

theorem editor_insert_row_rows (e : editor_config) (at_ : Int) (s : List Nat) (h0 : 0 ≤ at_)
    (h1 : at_ ≤ e.numrows) :
    (editor_insert_row e at_ s).row =
      (editor_update_row
        { e with row := e.row.take at_.toNat ++ (⟨at_, s, [], [], false⟩ : erow) ::
            (e.row.drop at_.toNat).map (fun r => { r with idx := r.idx + 1 }) } at_).row := by
  unfold editor_insert_row
  rw [if_neg (by omega)]

theorem list_drop_insert {α : Type} (A : List α) (x : α) (B : List α) (n : Nat)
    (h : A.length = n) : (A ++ x :: B).drop (n + 1) = B := by
  subst h
  simp

/-- C15: on a document whose `numrows` counts its rows and whose rows carry
their offset as `idx`, after `editor_insert_row` and after `editor_del_row`,
for any `at`, every row again carries its offset as `idx` (and `numrows`
counts the rows); an in-range insert puts the text at offset `at`, leaves the
rows before `at` as they were and moves the rows from `at` on one offset up,
their `idx` raised by one and their content and render kept; an in-range
delete leaves the rows before `at` as they were, removes the row at `at` and
moves the later rows one offset down, their `idx` lowered by one and nothing
else changed. -/
theorem C15_row_index_invariant (e : editor_config) (at_ : Int) (s : List Nat) (hwf : doc_wf e) :
    doc_wf (editor_insert_row e at_ s) ∧ doc_wf (editor_del_row e at_) ∧
    ((0 ≤ at_ ∧ at_ ≤ e.numrows) →
      (row_at (editor_insert_row e at_ s).row at_).chars = s ∧
      (editor_insert_row e at_ s).row.take at_.toNat = e.row.take at_.toNat ∧
      ((editor_insert_row e at_ s).row.drop (at_.toNat + 1)).map erow.content
        = (e.row.drop at_.toNat).map (fun r => (r.idx + 1, r.chars, r.render))) ∧
    ((0 ≤ at_ ∧ at_ < e.numrows) →
      (editor_del_row e at_).row.take at_.toNat = e.row.take at_.toNat ∧
      (editor_del_row e at_).row.drop at_.toNat
        = (e.row.drop (at_.toNat + 1)).map (fun r => { r with idx := r.idx - 1 })) := by
  obtain ⟨hnum, hidx⟩ := hwf
  have hpre : 0 ≤ at_ → at_ ≤ e.numrows →
      rows_indexed (e.row.take at_.toNat ++ (⟨at_, s, [], [], false⟩ : erow) ::
        (e.row.drop at_.toNat).map (fun r => { r with idx := r.idx + 1 })) := by
    intro h0 h1
    apply rows_indexed_insert
    · rw [List.take_append_drop]; exact hidx
    · simp only [List.length_take]
      omega
  have hlen1 : 0 ≤ at_ → at_ ≤ e.numrows →
      (e.row.take at_.toNat ++ (⟨at_, s, [], [], false⟩ : erow) ::
        (e.row.drop at_.toNat).map (fun r => { r with idx := r.idx + 1 })).length
        = e.row.length + 1 := by
    intro h0 h1
    simp only [List.length_append, List.length_cons, List.length_map, List.length_take,
      List.length_drop]
    omega
  refine ⟨?_, ?_, ?_, ?_⟩
  · by_cases h : at_ < 0 ∨ at_ > e.numrows
    · unfold editor_insert_row
      rw [if_pos h]
      exact ⟨hnum, hidx⟩
    · have h0 : 0 ≤ at_ := by omega
      have h1 : at_ ≤ e.numrows := by omega
      constructor
      · rw [(editor_insert_row_view e at_ s h0 h1).2.2.1, editor_insert_row_rows e at_ s h0 h1,
          editor_update_row_length, hlen1 h0 h1, hnum]
        push_cast
        rfl
      · rw [editor_insert_row_rows e at_ s h0 h1]
        exact rows_indexed_of_idx (editor_update_row_idx _ _) (hpre h0 h1)
  · by_cases h : at_ < 0 ∨ at_ ≥ e.numrows
    · unfold editor_del_row
      rw [if_pos h]
      exact ⟨hnum, hidx⟩
    · unfold editor_del_row
      rw [if_neg h]
      have hn : at_.toNat < e.row.length := by omega
      constructor
      · simp only [List.length_append, List.length_map, List.length_take, List.length_drop]
        omega
      · simp only
        apply rows_indexed_delete _ _ (e.row.getD at_.toNat default)
        rw [← list_drop_eq_cons default e.row _ hn, List.take_append_drop]
        exact hidx
  · rintro ⟨h0, h1⟩
    have hn : at_.toNat ≤ e.row.length := by omega
    have hat : ((at_.toNat : Nat) : Int) = at_ := Int.toNat_of_nonneg h0
    refine ⟨?_, ?_, ?_⟩
    · rw [editor_insert_row_rows e at_ s h0 h1,
        (editor_update_row_content _ at_ h0 (by rw [hlen1 h0 h1]; omega)).2.1]
      have := row_at_append_length (e.row.take at_.toNat) (⟨at_, s, [], [], false⟩ : erow)
        ((e.row.drop at_.toNat).map (fun r => { r with idx := r.idx + 1 }))
      rw [List.length_take, Nat.min_eq_left hn, hat] at this
      simp only
      rw [this]
    · rw [editor_insert_row_rows e at_ s h0 h1]
      have hp := hpre h0 h1
      have hl := hlen1 h0 h1
      clear hpre hlen1 hat
      obtain ⟨n, rfl⟩ := Int.eq_ofNat_of_zero_le h0
      simp only [Int.toNat_ofNat] at hp hl hn ⊢
      refine (editor_update_row_take _ n hp ?_ ?_).trans ?_
      · rw [hl]; simp only; omega
      · rw [hl]; omega
      · simp only
        rw [List.take_append_of_le_length (by rw [List.length_take]; omega), List.take_take,
          Nat.min_self]
    · rw [editor_insert_row_rows e at_ s h0 h1]
      clear hpre hlen1 hat
      obtain ⟨n, rfl⟩ := Int.eq_ofNat_of_zero_le h0
      simp only [Int.toNat_ofNat] at hn ⊢
      have hl : (e.row.take n).length = n := by rw [List.length_take]; omega
      unfold editor_update_row
      simp only
      rw [List.map_drop, ( editor_update_syntax_frame _ (n : Int)).2]
      simp only
      have hset := row_set_append_length (e.row.take n) (⟨(n : Int), s, [], [], false⟩ : erow)
      rw [hl] at hset
      rw [hset, List.map_append, List.map_cons,
        list_drop_insert _ _ _ _ (by rw [List.length_map]; exact hl), List.map_map]
      rfl
  · rintro ⟨h0, h1⟩
    unfold editor_del_row
    rw [if_neg (by omega)]
    simp only
    have hn : at_.toNat ≤ e.row.length := by omega
    constructor
    · rw [List.take_append_of_le_length (by rw [List.length_take]; omega), List.take_take,
        Nat.min_self]
    · have hl : (e.row.take at_.toNat).length = at_.toNat := by rw [List.length_take]; omega
      rw [List.drop_append_of_le_length (by omega), List.drop_eq_nil_of_le (by omega)]
      simp [hl]

/-- C15 at the buffer of the three comment rows, with an insertion and a
deletion at offset 1. -/
theorem C15_row_index_invariant_witness :
    doc_wf doc_comment ∧
    doc_wf (editor_insert_row doc_comment 1 [120]) ∧ doc_wf (editor_del_row doc_comment 1) :=
  ⟨doc_comment_wf, (C15_row_index_invariant doc_comment 1 [120] doc_comment_wf).1,
   (C15_row_index_invariant doc_comment 1 [120] doc_comment_wf).2.1⟩

/-! ## Splitting and joining rows -/

theorem list_getD_append_at {α : Type} (d : α) (A : List α) (x : α) (B : List α) (n : Nat)
    (h : A.length = n) : (A ++ x :: B).getD n d = x := by
  subst h
  simp only [List.getD_eq_getElem?_getD]
  rw [List.getElem?_append_right (Nat.le_refl _)]
  simp

theorem list_getD_append_after {α : Type} (d : α) (A : List α) (x y : α) (B : List α) (n : Nat)
    (h : A.length = n) : (A ++ x :: y :: B).getD (n + 1) d = y := by
  subst h
  simp only [List.getD_eq_getElem?_getD]
  rw [List.getElem?_append_right (by omega)]
  simp

/-- C16: on a document whose `numrows` counts its rows, with the cursor on a
row (`0 <= cy < numrows`) and `0 <= cx <= size` of that row,
`editor_insert_newline` raises `numrows` by one; the content of the rows
becomes: the rows before `cy` as they were, then the first `cx` bytes of the
old row `cy`, then its bytes from `cx` on, then the rows after `cy` as they
were (one offset later); so row `cy` holds the first `cx` bytes and row
`cy + 1` the rest; and the cursor is at column 0 of row `cy + 1`. -/
theorem C16_insert_newline_splits (e : editor_config) (hnum : e.numrows = e.row.length)
    (hcy0 : 0 ≤ e.cy) (hcy : e.cy < e.numrows) (hcx0 : 0 ≤ e.cx)
    (_hcx : e.cx ≤ (row_at e.row e.cy).size) :
    (editor_insert_newline e).numrows = e.numrows + 1 ∧
    (editor_insert_newline e).row.map erow.chars
      = (e.row.map erow.chars).take e.cy.toNat
          ++ (row_at e.row e.cy).chars.take e.cx.toNat
          :: (row_at e.row e.cy).chars.drop e.cx.toNat
          :: (e.row.map erow.chars).drop (e.cy.toNat + 1) ∧
    (row_at (editor_insert_newline e).row e.cy).chars = (row_at e.row e.cy).chars.take e.cx.toNat ∧
    (row_at (editor_insert_newline e).row (e.cy + 1)).chars
      = (row_at e.row e.cy).chars.drop e.cx.toNat ∧
    (editor_insert_newline e).cx = 0 ∧ (editor_insert_newline e).cy = e.cy + 1 := by
  obtain ⟨a, b, c, d⟩ := editor_insert_newline_view e hnum hcy0 hcy hcx0
  rw [← row_at_chars e.row e.cy hcy0] at d
  have hl : ((e.row.map erow.chars).take e.cy.toNat).length = e.cy.toNat := by
    rw [List.length_take, List.length_map]; omega
  refine ⟨c, d, ?_, ?_, a, b⟩
  · rw [row_at_chars _ _ hcy0, d]
    exact list_getD_append_at _ _ _ _ _ hl
  · rw [row_at_chars _ _ (by omega), d, show (e.cy + 1).toNat = e.cy.toNat + 1 by omega]
    exact list_getD_append_after _ _ _ _ _ _ hl

/-- C16 at the two-row buffer used for the split, cursor at column 1 of row 0. -/
theorem C16_insert_newline_splits_witness :
    (editor_insert_newline doc_split).row.map erow.chars
      = (doc_split.row.map erow.chars).take doc_split.cy.toNat
          ++ (row_at doc_split.row doc_split.cy).chars.take doc_split.cx.toNat
          :: (row_at doc_split.row doc_split.cy).chars.drop doc_split.cx.toNat
          :: (doc_split.row.map erow.chars).drop (doc_split.cy.toNat + 1) :=
  (C16_insert_newline_splits doc_split (by decide) (by decide) (by decide) (by decide)
    (by decide)).2.1

theorem editor_row_del_char_view (e : editor_config) (r at_ : Int) (h0 : 0 ≤ r)
    (ha0 : 0 ≤ at_) (ha : at_ < (row_at e.row r).size) :
    (editor_row_del_char e r at_).cx = e.cx ∧ (editor_row_del_char e r at_).cy = e.cy ∧
    (editor_row_del_char e r at_).numrows = e.numrows ∧
    (editor_row_del_char e r at_).row.map erow.chars
      = (e.row.map erow.chars).set r.toNat ((row_at e.row r).chars.eraseIdx at_.toNat) := by
  unfold editor_row_del_char
  simp only
  rw [if_neg (by omega)]
  refine ⟨(editor_update_row_view _ r).1, (editor_update_row_view _ r).2.1,
    (editor_update_row_view _ r).2.2.1, ?_⟩
  simp only
  rw [(editor_update_row_view _ r).2.2.2, List.eraseIdx_eq_take_drop_succ]
  exact row_set_map_chars _ _ _ h0

/-- C17: on a document whose `numrows` counts its rows and with a valid
cursor, `editor_del_char` (1) returns the state as it was when `cy = numrows`
or the cursor is at `(0, 0)`; (2) with `cx > 0` removes the byte at index
`cx - 1` of row `cy`, keeps the content of every other row and the row count,
and moves the cursor to `(cx - 1, cy)`; (3) with `cx = 0` and `cy > 0`
replaces row `cy - 1` by the bytes of row `cy - 1` followed by those of row
`cy`, removes row `cy`, keeps the content of every other row, and moves the
cursor to `(old size of row cy - 1, cy - 1)`. -/
theorem C17_del_char_three_cases (e : editor_config) (hnum : e.numrows = e.row.length)
    (hv : cursor_valid e) :
    ((e.cy = e.numrows ∨ (e.cx = 0 ∧ e.cy = 0)) → editor_del_char e = e) ∧
    (e.cy < e.numrows → 0 < e.cx →
      (editor_del_char e).row.map erow.chars
        = (e.row.map erow.chars).set e.cy.toNat
            ((row_at e.row e.cy).chars.eraseIdx (e.cx - 1).toNat) ∧
      (editor_del_char e).numrows = e.numrows ∧
      (editor_del_char e).cx = e.cx - 1 ∧ (editor_del_char e).cy = e.cy) ∧
    (e.cy < e.numrows → e.cx = 0 → 0 < e.cy →
      (editor_del_char e).row.map erow.chars
        = (e.row.map erow.chars).take (e.cy.toNat - 1)
            ++ ((row_at e.row (e.cy - 1)).chars ++ (row_at e.row e.cy).chars)
            :: (e.row.map erow.chars).drop (e.cy.toNat + 1) ∧
      (editor_del_char e).numrows = e.numrows - 1 ∧
      (editor_del_char e).cx = (row_at e.row (e.cy - 1)).size ∧
      (editor_del_char e).cy = e.cy - 1) := by
  obtain ⟨hcy0, _, hcx0, hcx⟩ := hv
  refine ⟨?_, ?_, ?_⟩
  · intro h
    unfold editor_del_char
    by_cases h1 : e.cy = e.numrows
    · rw [if_pos h1]
    · rw [if_neg h1, if_pos (by omega)]
  · intro h1 h2
    rw [if_pos h1] at hcx
    obtain ⟨a, b, c, d⟩ := editor_row_del_char_view e e.cy (e.cx - 1) hcy0 (by omega) (by omega)
    unfold editor_del_char
    rw [if_neg (by omega), if_neg (by omega)]
    simp only
    rw [if_pos h2]
    exact ⟨d, c, by simp only; rw [a], b⟩
  · intro h1 h2 h3
    obtain ⟨a, b, c, d⟩ := editor_del_char_join_view e hnum h2 h3 h1
    rw [row_at_chars e.row (e.cy - 1) (by omega), row_at_chars e.row e.cy hcy0,
      show (e.cy - 1).toNat = e.cy.toNat - 1 by omega]
    refine ⟨d, c, ?_, b⟩
    rw [a]
    unfold erow.size
    rw [row_at_chars e.row (e.cy - 1) (by omega), show (e.cy - 1).toNat = e.cy.toNat - 1 by omega]

/-- C17 at the three-row buffer `//`, `/*`, `x` with the cursor at `(0, 1)`:
the join case. -/
theorem C17_del_char_three_cases_witness :
    (editor_del_char doc_join).cx = (row_at doc_join.row (doc_join.cy - 1)).size ∧
    (editor_del_char doc_join).cy = doc_join.cy - 1 :=
  ⟨((C17_del_char_three_cases doc_join (by decide) (by decide)).2.2
      (by decide) (by decide) (by decide)).2.2.1,
   ((C17_del_char_three_cases doc_join (by decide) (by decide)).2.2
      (by decide) (by decide) (by decide)).2.2.2⟩

/-! ## Scrolling -/

theorem editor_scroll_eq (e : editor_config) :
    editor_scroll e =
      { e with
        rx := if e.cy < e.numrows then editor_row_cx_to_rx (row_at e.row e.cy) e.cx else 0,
        rowoff :=
          if e.cy ≥ (if e.cy < e.rowoff then e.cy else e.rowoff) + e.screenrows
          then e.cy - e.screenrows + 1 else (if e.cy < e.rowoff then e.cy else e.rowoff),
        coloff :=
          if (if e.cy < e.numrows then editor_row_cx_to_rx (row_at e.row e.cy) e.cx else 0)
              ≥ (if (if e.cy < e.numrows then editor_row_cx_to_rx (row_at e.row e.cy) e.cx else 0)
                    < e.coloff
                  then (if e.cy < e.numrows then editor_row_cx_to_rx (row_at e.row e.cy) e.cx else 0)
                  else e.coloff) + e.screencols
          then (if e.cy < e.numrows then editor_row_cx_to_rx (row_at e.row e.cy) e.cx else 0)
                - e.screencols + 1
          else (if (if e.cy < e.numrows then editor_row_cx_to_rx (row_at e.row e.cy) e.cx else 0)
                    < e.coloff
                then (if e.cy < e.numrows then editor_row_cx_to_rx (row_at e.row e.cy) e.cx else 0)
                else e.coloff) } := by
  unfold editor_scroll
  by_cases h1 : e.cy < e.numrows
  · simp only [h1, if_true]
    generalize editor_row_cx_to_rx (row_at e.row e.cy) e.cx = R
    by_cases h2 : e.cy < e.rowoff <;> simp only [h2, if_true, if_false] <;>
    by_cases h3 : R < e.coloff <;> simp only [h3, if_true, if_false] <;>
    split_ifs <;> rfl
  · simp only [h1, if_false]
    by_cases h2 : e.cy < e.rowoff <;> simp only [h2, if_true, if_false] <;>
    by_cases h3 : (0 : Int) < e.coloff <;> simp only [h3, if_true, if_false] <;>
    split_ifs <;> rfl

/-- C19: for `screenrows >= 1` and `screencols >= 1`, `editor_scroll` stores
in `rx` the display column of the cursor (`editor_row_cx_to_rx` of the cursor
row at `cx`, or 0 on the line after the last row), leaves the cursor alone,
and ends with `rowoff <= cy < rowoff + screenrows` and
`coloff <= rx < coloff + screencols`; an offset whose window already held the
cursor is unchanged; and for every offset `r` whose window holds the cursor,
the new offset is no further from the old one than `r` is. -/
theorem C19_scroll_correct_and_minimal (e : editor_config) (hr : 1 ≤ e.screenrows)
    (hc : 1 ≤ e.screencols) :
    (editor_scroll e).rx
      = (if e.cy < e.numrows then editor_row_cx_to_rx (row_at e.row e.cy) e.cx else 0) ∧
    (editor_scroll e).cx = e.cx ∧ (editor_scroll e).cy = e.cy ∧
    ((editor_scroll e).rowoff ≤ e.cy ∧ e.cy < (editor_scroll e).rowoff + e.screenrows) ∧
    ((editor_scroll e).coloff ≤ (editor_scroll e).rx ∧
      (editor_scroll e).rx < (editor_scroll e).coloff + e.screencols) ∧
    ((e.rowoff ≤ e.cy ∧ e.cy < e.rowoff + e.screenrows) → (editor_scroll e).rowoff = e.rowoff) ∧
    ((e.coloff ≤ (editor_scroll e).rx ∧ (editor_scroll e).rx < e.coloff + e.screencols) →
      (editor_scroll e).coloff = e.coloff) ∧
    (∀ (r : Int), r ≤ e.cy → e.cy < r + e.screenrows →
      ((editor_scroll e).rowoff - e.rowoff).natAbs ≤ (r - e.rowoff).natAbs) ∧
    (∀ (r : Int), r ≤ (editor_scroll e).rx → (editor_scroll e).rx < r + e.screencols →
      ((editor_scroll e).coloff - e.coloff).natAbs ≤ (r - e.coloff).natAbs) := by
  rw [editor_scroll_eq]
  simp only
  generalize (if e.cy < e.numrows then editor_row_cx_to_rx (row_at e.row e.cy) e.cx else 0) = R
  refine ⟨trivial, trivial, trivial, ?_, ?_, ?_, ?_, ?_, ?_⟩
  · split_ifs <;> omega
  · split_ifs <;> omega
  · intro h; split_ifs <;> omega
  · intro h; split_ifs <;> omega
  · intro r h1 h2; split_ifs <;> omega
  · intro r h1 h2; split_ifs <;> omega

/-- C19 on a 22 by 80 window at offset (10, 0) with the cursor on row 2 of
the three comment rows. -/
theorem C19_scroll_correct_and_minimal_witness :
    (editor_scroll { doc_comment with cy := 2, rowoff := 10 }).rowoff ≤ 2 ∧
    (2 : Int) < (editor_scroll { doc_comment with cy := 2, rowoff := 10 }).rowoff + 22 :=
  (C19_scroll_correct_and_minimal { doc_comment with cy := 2, rowoff := 10 }
    (by decide) (by decide)).2.2.2.1

/-! ## Cursor validity -/

theorem erow_size_nonneg (r : erow) : 0 ≤ r.size := by
  unfold erow.size
  omega

theorem row_at_size (rows : List erow) (i : Int) (h0 : 0 ≤ i) :
    (row_at rows i).size = (((rows.map erow.chars).getD i.toNat []).length : Int) := by
  unfold erow.size
  rw [row_at_chars rows i h0]

theorem cursor_valid_clamp (e1 : editor_config) (h1 : 0 ≤ e1.cy) (h2 : e1.cy ≤ e1.numrows)
    (h3 : 0 ≤ e1.cx) :
    cursor_valid
      (if e1.cx > (if e1.cy ≥ e1.numrows then 0 else (row_at e1.row e1.cy).size)
        then { e1 with cx := (if e1.cy ≥ e1.numrows then 0 else (row_at e1.row e1.cy).size) }
        else e1) := by
  have hs := erow_size_nonneg (row_at e1.row e1.cy)
  by_cases hc : e1.cy ≥ e1.numrows
  · simp only [hc, if_true]
    by_cases hg : e1.cx > 0
    · rw [if_pos hg]
      exact ⟨h1, h2, le_refl _, by simp only; rw [if_neg (by omega)]⟩
    · rw [if_neg hg]
      exact ⟨h1, h2, h3, by rw [if_neg (by omega)]; omega⟩
  · simp only [hc, if_false]
    by_cases hg : e1.cx > (row_at e1.row e1.cy).size
    · rw [if_pos hg]
      exact ⟨h1, h2, hs, by simp only; rw [if_pos (by omega)]⟩
    · rw [if_neg hg]
      exact ⟨h1, h2, h3, by rw [if_pos (by omega)]; omega⟩

theorem cursor_valid_move_cursor (e : editor_config) (key : Int) (hv : cursor_valid e) :
    cursor_valid (editor_move_cursor e key) := by
  obtain ⟨h1, h2, h3, h4⟩ := hv
  have hs := erow_size_nonneg (row_at e.row (e.cy - 1))
  unfold editor_move_cursor
  refine cursor_valid_clamp _ ?_ ?_ ?_ <;> split_ifs <;> (try simp only) <;> omega

theorem editor_row_insert_char_view (e : editor_config) (r at_ c : Int) (h0 : 0 ≤ r) :
    (editor_row_insert_char e r at_ c).cx = e.cx ∧ (editor_row_insert_char e r at_ c).cy = e.cy ∧
    (editor_row_insert_char e r at_ c).numrows = e.numrows ∧
    (editor_row_insert_char e r at_ c).row.map erow.chars
      = (e.row.map erow.chars).set r.toNat
          ((row_at e.row r).chars.take
              (if at_ < 0 ∨ at_ > (row_at e.row r).size then (row_at e.row r).size else at_).toNat
            ++ (c % 256).toNat :: (row_at e.row r).chars.drop
              (if at_ < 0 ∨ at_ > (row_at e.row r).size then (row_at e.row r).size else at_).toNat) := by
  unfold editor_row_insert_char
  simp only
  refine ⟨(editor_update_row_view _ r).1, (editor_update_row_view _ r).2.1,
    (editor_update_row_view _ r).2.2.1, ?_⟩
  rw [(editor_update_row_view _ r).2.2.2]
  exact row_set_map_chars _ _ _ h0

theorem list_getD_set_self {α : Type} (d x : α) (L : List α) (n : Nat) (h : n < L.length) :
    (L.set n x).getD n d = x := by
  simp [List.getD_eq_getElem?_getD, List.getElem?_set, h]

theorem cursor_valid_row_insert_char (e1 : editor_config) (c : Int)
    (hnum : e1.numrows = e1.row.length) (h0 : 0 ≤ e1.cy) (h1 : e1.cy < e1.numrows)
    (h3 : 0 ≤ e1.cx) (h4 : e1.cx ≤ (row_at e1.row e1.cy).size) :
    cursor_valid { (editor_row_insert_char e1 e1.cy e1.cx c) with
      cx := (editor_row_insert_char e1 e1.cy e1.cx c).cx + 1 } := by
  obtain ⟨a, b, n, d⟩ := editor_row_insert_char_view e1 e1.cy e1.cx c h0
  unfold cursor_valid
  simp only
  rw [a, b, n, if_pos h1, row_at_size _ _ h0, d,
    list_getD_set_self _ _ _ _ (by rw [List.length_map]; omega)]
  unfold erow.size at h4
  simp only [List.length_append, List.length_cons, List.length_take, List.length_drop]
  refine ⟨h0, by omega, by omega, by omega⟩

theorem cursor_valid_insert_char (e : editor_config) (c : Int) (hnum : e.numrows = e.row.length)
    (hv : cursor_valid e) : cursor_valid (editor_insert_char e c) := by
  obtain ⟨h1, h2, h3, h4⟩ := hv
  unfold editor_insert_char
  simp only
  by_cases hc : e.cy = e.numrows
  · rw [if_pos hc]
    rw [if_neg (by omega)] at h4
    obtain ⟨a, b, n, d⟩ := editor_insert_row_view e e.numrows [] (by omega) (le_refl _)
    have hlen := congrArg List.length d
    simp only [List.length_map, List.length_append, List.length_cons, List.length_take,
      List.length_drop] at hlen
    apply cursor_valid_row_insert_char
    · rw [n, hlen]; omega
    · rw [b]; exact h1
    · rw [b, n]; omega
    · rw [a]; exact h3
    · rw [a]
      have := erow_size_nonneg (row_at (editor_insert_row e e.numrows []).row (editor_insert_row e e.numrows []).cy)
      omega
  · rw [if_neg hc]
    rw [if_pos (by omega)] at h4
    exact cursor_valid_row_insert_char e c hnum h1 (by omega) h3 h4

theorem cursor_valid_insert_newline (e : editor_config) (hnum : e.numrows = e.row.length)
    (hv : cursor_valid e) : cursor_valid (editor_insert_newline e) := by
  obtain ⟨h1, h2, h3, h4⟩ := hv
  by_cases hc : e.cy < e.numrows
  · obtain ⟨a, b, n, _⟩ := editor_insert_newline_view e hnum h1 hc h3
    have hs := erow_size_nonneg (row_at (editor_insert_newline e).row (editor_insert_newline e).cy)
    refine ⟨by omega, by omega, by omega, ?_⟩
    split_ifs <;> omega
  · rw [if_neg hc] at h4
    have hcx : e.cx = 0 := by omega
    obtain ⟨a, b, n, _⟩ := editor_insert_row_view e e.cy [] h1 h2
    have hs := erow_size_nonneg (row_at (editor_insert_newline e).row (editor_insert_newline e).cy)
    have e1 : (editor_insert_newline e).cx = 0 := by
      unfold editor_insert_newline
      rfl
    have e2 : (editor_insert_newline e).cy = e.cy + 1 := by
      unfold editor_insert_newline
      simp only
      rw [if_pos hcx, b]
    have e3 : (editor_insert_newline e).numrows = e.numrows + 1 := by
      unfold editor_insert_newline
      simp only
      rw [if_pos hcx, n]
    refine ⟨by omega, by omega, by omega, ?_⟩
    split_ifs <;> omega

theorem cursor_valid_del_char (e : editor_config) (hnum : e.numrows = e.row.length)
    (hv : cursor_valid e) : cursor_valid (editor_del_char e) := by
  have hv0 := hv
  obtain ⟨h1, h2, h3, h4⟩ := hv
  by_cases hc : e.cy = e.numrows
  · unfold editor_del_char
    rw [if_pos hc]
    exact hv0
  by_cases hz : e.cx = 0 ∧ e.cy = 0
  · unfold editor_del_char
    rw [if_neg hc, if_pos hz]
    exact hv0
  rw [if_pos (by omega)] at h4
  by_cases hx : e.cx > 0
  · obtain ⟨a, b, n, d⟩ := editor_row_del_char_view e e.cy (e.cx - 1) h1 (by omega) (by omega)
    have e1 : editor_del_char e = { (editor_row_del_char e e.cy (e.cx - 1)) with
        cx := (editor_row_del_char e e.cy (e.cx - 1)).cx - 1 } := by
      unfold editor_del_char
      rw [if_neg hc, if_neg hz]
      simp only
      rw [if_pos hx]
    rw [e1]
    unfold cursor_valid
    simp only
    rw [a, b, n, if_pos (by omega), row_at_size _ _ h1, d,
      list_getD_set_self _ _ _ _ (by rw [List.length_map]; omega), List.length_eraseIdx]
    unfold erow.size at h4
    refine ⟨h1, h2, by omega, ?_⟩
    rw [if_pos (by omega)]
    omega
  · have hcx : e.cx = 0 := by omega
    obtain ⟨a, b, n, d⟩ := editor_del_char_join_view e hnum hcx (by omega) (by omega)
    unfold cursor_valid
    rw [a, b, n, if_pos (by omega), row_at_size _ _ (by omega), d,
      show (e.cy - 1).toNat = e.cy.toNat - 1 by omega,
      list_getD_append_at _ _ _ _ _ (by rw [List.length_take, List.length_map]; omega)]
    simp only [List.length_append]
    refine ⟨by omega, by omega, by omega, by omega⟩

/-- C20: on a document whose `numrows` counts its rows, a valid cursor
(`0 <= cy <= numrows`, `0 <= cx`, and `cx` at most the size of row `cy` when
`cy < numrows`, else at most 0) is again valid after `editor_move_cursor`
with any key, after `editor_insert_char` with any value, after
`editor_insert_newline` and after `editor_del_char`. -/
theorem C20_cursor_validity_invariant (e : editor_config) (hnum : e.numrows = e.row.length)
    (hv : cursor_valid e) :
    (∀ (key : Int), cursor_valid (editor_move_cursor e key)) ∧
    (∀ (c : Int), cursor_valid (editor_insert_char e c)) ∧
    cursor_valid (editor_insert_newline e) ∧
    cursor_valid (editor_del_char e) :=
  ⟨fun key => cursor_valid_move_cursor e key hv,
   fun c => cursor_valid_insert_char e c hnum hv,
   cursor_valid_insert_newline e hnum hv,
   cursor_valid_del_char e hnum hv⟩

/-- C20 at the two-row buffer `/*/`, `x` with the cursor at column 1 of row 0. -/
theorem C20_cursor_validity_invariant_witness :
    cursor_valid doc_split ∧
    cursor_valid (editor_move_cursor doc_split ARROW_DOWN) ∧
    cursor_valid (editor_insert_char doc_split 97) ∧
    cursor_valid (editor_insert_newline doc_split) ∧
    cursor_valid (editor_del_char doc_split) :=
  ⟨by decide,
   (C20_cursor_validity_invariant doc_split (by decide) (by decide)).1 ARROW_DOWN,
   (C20_cursor_validity_invariant doc_split (by decide) (by decide)).2.1 97,
   (C20_cursor_validity_invariant doc_split (by decide) (by decide)).2.2.1,
   (C20_cursor_validity_invariant doc_split (by decide) (by decide)).2.2.2⟩

/-! ## Key decoding -/

theorem read_escape_table (seq : List Nat) (k : Int) (h : (seq, k) ∈ escape_table_spec)
    (rest : List read_result) :
    read_escape (seq.map read_result.byte ++ rest) = key_result.key k rest := by
  simp only [escape_table_spec, List.mem_cons, Prod.mk.injEq, List.mem_singleton,
    List.not_mem_nil, or_false] at h
  rcases h with h | h | h | h | h | h | h | h | h | h | h | h | h | h | h <;>
    obtain ⟨rfl, rfl⟩ := h <;> rfl

theorem read_escape_only_table (input : List read_result) (k : Int) (rest : List read_result)
    (h : read_escape input = key_result.key k rest) (hk : k ≠ KEY_ESC) :
    ∃ (seq : List Nat), (seq, k) ∈ escape_table_spec ∧ input = seq.map read_result.byte ++ rest := by
  rcases input with _ | ⟨r0, t⟩
  · simp [read_escape] at h
  rcases r0 with s0 | _ | _
  rotate_left
  · simp only [read_escape, key_result.key.injEq] at h
    exact absurd h.1.symm hk
  · simp only [read_escape, key_result.key.injEq] at h
    exact absurd h.1.symm hk
  rcases t with _ | ⟨r1, t1⟩
  · simp [read_escape] at h
  rcases r1 with s1 | _ | _
  rotate_left
  · simp only [read_escape, key_result.key.injEq] at h
    exact absurd h.1.symm hk
  · simp only [read_escape, key_result.key.injEq] at h
    exact absurd h.1.symm hk
  simp only [read_escape] at h
  by_cases h0 : s0 = 91
  · subst h0
    simp only [if_true] at h
    by_cases hd : 48 ≤ s1 ∧ s1 ≤ 57
    · simp only [hd, and_self, if_true] at h
      rcases t1 with _ | ⟨r2, t2⟩
      · simp at h
      rcases r2 with s2 | _ | _
      rotate_left
      · simp only [key_result.key.injEq] at h
        exact absurd h.1.symm hk
      · simp only [key_result.key.injEq] at h
        exact absurd h.1.symm hk
      simp only at h
      by_cases h2 : s2 = 126
      · subst h2
        simp only [if_true] at h
        obtain ⟨hd1, hd2⟩ := hd
        interval_cases s1 <;> simp only [Nat.reduceEqDiff, if_true, if_false,
          key_result.key.injEq] at h <;> obtain ⟨rfl, rfl⟩ := h <;>
          first
          | exact absurd rfl hk
          | (refine ⟨[91, _, 126], ?_, rfl⟩; decide)
      · simp only [h2, if_false, key_result.key.injEq] at h
        exact absurd h.1.symm hk
    · simp only [hd, if_false] at h
      split_ifs at h <;> simp only [key_result.key.injEq] at h <;> obtain ⟨rfl, rfl⟩ := h <;>
        first
        | exact absurd rfl hk
        | (subst_vars; refine ⟨[91, _], ?_, rfl⟩; decide)
  · simp only [h0, if_false] at h
    split_ifs at h <;> simp only [key_result.key.injEq] at h <;> obtain ⟨rfl, rfl⟩ := h <;>
      first
      | exact absurd rfl hk
      | (subst_vars; refine ⟨[79, _], ?_, rfl⟩; decide)

theorem read_escape_returns (input : List read_result) (h : 3 ≤ input.length) :
    ∃ (k : Int) (rest : List read_result), read_escape input = key_result.key k rest := by
  rcases input with _ | ⟨r0, _ | ⟨r1, _ | ⟨r2, t⟩⟩⟩
  · simp at h
  · simp at h
  · simp at h
  rcases r0 with s0 | _ | _
  rotate_left
  · exact ⟨_, _, rfl⟩
  · exact ⟨_, _, rfl⟩
  rcases r1 with s1 | _ | _
  rotate_left
  · exact ⟨_, _, rfl⟩
  · exact ⟨_, _, rfl⟩
  simp only [read_escape]
  by_cases h0 : s0 = 91
  · simp only [h0, if_true]
    by_cases hd : 48 ≤ s1 ∧ s1 ≤ 57
    · simp only [hd, and_self, if_true]
      rcases r2 with s2 | _ | _
      · simp only
        split_ifs <;> exact ⟨_, _, rfl⟩
      · exact ⟨_, _, rfl⟩
      · exact ⟨_, _, rfl⟩
    · simp only [hd, if_false]
      split_ifs <;> exact ⟨_, _, rfl⟩
  · simp only [h0, if_false]
    split_ifs <;> exact ⟨_, _, rfl⟩

/-- C18 (amended): `editor_read_key` on the outcomes of its `read` calls.
(1) After `ESC`, each byte sequence of the table gives the key of the table
and consumes exactly that sequence.  (2) After `ESC`, when the three
following reads are answered, a key is returned, and it is `0x1B` unless the
bytes after `ESC` start with a sequence of the table whose key it is.  (3) A
read that returns no byte at the first, second or (after `[` and a digit)
third position after `ESC` gives `0x1B`.  (4) A first byte other than `ESC`
is returned as the value of the signed `char` holding it: a byte below 128 is
returned as the key itself, a byte from 128 to 255 is returned as the byte
minus 256, a negative key whose low eight bits are the byte.  (5) Reads that
return no byte before the first byte are retried. -/
theorem C18_read_key_decode_table :
    (∀ (seq : List Nat) (k : Int), (seq, k) ∈ escape_table_spec → ∀ (rest : List read_result),
      editor_read_key (read_result.byte 27 :: (seq.map read_result.byte ++ rest))
        = key_result.key k rest) ∧
    (∀ (input : List read_result), 3 ≤ input.length →
      ∃ (k : Int) (rest : List read_result),
        editor_read_key (read_result.byte 27 :: input) = key_result.key k rest ∧
        (k = KEY_ESC ∨
          ∃ (seq : List Nat), (seq, k) ∈ escape_table_spec ∧
            input = seq.map read_result.byte ++ rest)) ∧
    (∀ (rest : List read_result),
      editor_read_key (read_result.byte 27 :: read_result.nothing :: rest)
        = key_result.key KEY_ESC rest) ∧
    (∀ (s0 : Nat) (rest : List read_result),
      editor_read_key (read_result.byte 27 :: read_result.byte s0 :: read_result.nothing :: rest)
        = key_result.key KEY_ESC rest) ∧
    (∀ (s1 : Nat) (rest : List read_result), 48 ≤ s1 → s1 ≤ 57 →
      editor_read_key (read_result.byte 27 :: read_result.byte 91 :: read_result.byte s1
          :: read_result.nothing :: rest)
        = key_result.key KEY_ESC rest) ∧
    (∀ (c : Nat) (rest : List read_result), c ≠ 27 →
      editor_read_key (read_result.byte c :: rest) = key_result.key (char_to_int c) rest ∧
      (c < 128 → char_to_int c = (c : Int)) ∧
      (c < 256 → char_to_int c % 256 = (c : Int)) ∧
      (c < 128 →
        editor_read_key (read_result.byte c :: rest) = key_result.key (c : Int) rest) ∧
      (128 ≤ c → c < 256 →
        editor_read_key (read_result.byte c :: rest) = key_result.key ((c : Int) - 256) rest ∧
        (c : Int) - 256 < 0)) ∧
    (∀ (input : List read_result),
      editor_read_key (read_result.nothing :: input) = editor_read_key input) := by
  refine ⟨?_, ?_, ?_, ?_, ?_, ?_, ?_⟩
  · intro seq k h rest
    simp only [editor_read_key, if_true]
    exact read_escape_table seq k h rest
  · intro input h
    obtain ⟨k, rest, hk⟩ := read_escape_returns input h
    refine ⟨k, rest, ?_, ?_⟩
    · simp only [editor_read_key, if_true]
      exact hk
    · by_cases he : k = KEY_ESC
      · exact Or.inl he
      · exact Or.inr (read_escape_only_table input k rest hk he)
  · intro rest
    rfl
  · intro s0 rest
    rfl
  · intro s1 rest h1 h2
    simp only [editor_read_key, if_true, read_escape, h1, h2, and_self]
  · intro c rest hc
    have hkey : editor_read_key (read_result.byte c :: rest)
        = key_result.key (char_to_int c) rest := by
      simp only [editor_read_key, hc, if_false]
    refine ⟨hkey, ?_, ?_, ?_, ?_⟩
    · intro h
      simp only [char_to_int, h, if_true]
    · intro h
      unfold char_to_int
      split_ifs <;> omega
    · intro h
      rw [hkey]
      simp only [char_to_int, h, if_true]
    · intro h1 h2
      rw [hkey]
      refine ⟨?_, by omega⟩
      simp only [char_to_int, show ¬ c < 128 by omega, if_false]
  · intro input
    rfl

/-- C18 on the stream `ESC [ 5 ~ x`: the key is `PAGE_UP` and `x` is left; on
the byte `a`, returned as 97; and on the byte 200, returned as -56. -/
theorem C18_read_key_decode_table_witness :
    editor_read_key (read_result.byte 27 ::
        ([91, 53, 126].map read_result.byte ++ [read_result.byte 120]))
      = key_result.key PAGE_UP [read_result.byte 120] ∧
    editor_read_key [read_result.byte 97] = key_result.key 97 [] ∧
    editor_read_key [read_result.byte 200] = key_result.key (200 - 256) [] :=
  ⟨C18_read_key_decode_table.1 [91, 53, 126] PAGE_UP (by decide) [read_result.byte 120],
   (C18_read_key_decode_table.2.2.2.2.2.1 97 [] (by decide)).2.2.2.1 (by decide),
   ((C18_read_key_decode_table.2.2.2.2.2.1 200 [] (by decide)).2.2.2.2 (by decide)
      (by decide)).1⟩

/-- Counterexample to C18 as stated: the first byte 200 is not `ESC`, yet
`editor_read_key` does not return it as the key 200: `return c` converts the
signed `char` holding the byte to `int` and the key is -56. -/
theorem C18_counterexample :
    (200 : Nat) ≠ 27 ∧
    editor_read_key [read_result.byte 200] = key_result.key (-56) [] ∧
    editor_read_key [read_result.byte 200] ≠ key_result.key 200 [] := by
  decide

/-! ## Load and save -/

theorem editor_prompt_append
    (cb : Option (find_state → editor_config → List Nat → Int → find_state × editor_config))
    (post : List Int) : ∀ (pre : List Int) (st st1 : prompt_state),
    editor_prompt cb st pre = prompt_outcome.waiting st1 →
    editor_prompt cb st (pre ++ post) = editor_prompt cb st1 post := by
  intro pre
  induction pre with
  | nil =>
    intro st st1 h
    simp only [editor_prompt, prompt_outcome.waiting.injEq] at h
    rw [h, List.nil_append]
  | cons c keys ih =>
    intro st st1 h
    rw [List.cons_append]
    rw [editor_prompt] at h ⊢
    simp only at h ⊢
    by_cases h1 : c = DEL_KEY ∨ c = 8 ∨ c = BACKSPACE
    · rw [if_pos h1] at h ⊢
      exact ih _ _ h
    · rw [if_neg h1] at h ⊢
      by_cases h2 : c = KEY_ESC
      · rw [if_pos h2] at h
        exact absurd h (by simp)
      · rw [if_neg h2] at h ⊢
        by_cases h3 : c = KEY_ENTER
        · rw [if_pos h3] at h ⊢
          by_cases h4 : st.buf.length ≠ 0
          · rw [if_pos h4] at h
            exact absurd h (by simp)
          · rw [if_neg h4] at h ⊢
            exact ih _ _ h
        · rw [if_neg h3] at h ⊢
          exact ih _ _ h

theorem editor_prompt_escape
    (cb : Option (find_state → editor_config → List Nat → Int → find_state × editor_config))
    (st : prompt_state) (rest : List Int) :
    editor_prompt cb st (KEY_ESC :: rest)
      = prompt_outcome.returned none
          (prompt_callback cb { st with e := editor_scroll st.e } KEY_ESC) rest := by
  rw [editor_prompt]
  simp only
  rw [if_neg (by decide), if_pos trivial]

/-- C11: when the keys `pre` typed into the search prompt leave it open, the
key Escape after them makes `editor_find` return, with the keys after Escape
unread, and `cx`, `cy`, `rowoff` and `coloff` then have the values they had
when `editor_find` was called, whatever the static variables of the callback,
the document and the keys `pre` are. -/
theorem C11_cancel_restores_position (fs : find_state) (e : editor_config) (pre rest : List Int)
    (hpre : ∃ (st : prompt_state),
      editor_prompt (some editor_find_callback) ⟨fs, e, []⟩ pre = prompt_outcome.waiting st) :
    ∃ (st1 : prompt_state),
      editor_find fs e (pre ++ KEY_ESC :: rest) = prompt_outcome.returned none st1 rest ∧
      st1.e.cx = e.cx ∧ st1.e.cy = e.cy ∧ st1.e.rowoff = e.rowoff ∧ st1.e.coloff = e.coloff := by
  obtain ⟨st, hst⟩ := hpre
  unfold editor_find
  rw [editor_prompt_append _ _ _ _ _ hst, editor_prompt_escape]
  exact ⟨_, rfl, rfl, rfl, rfl, rfl⟩

theorem editor_prompt_stays_open
    (cb : Option (find_state → editor_config → List Nat → Int → find_state × editor_config)) :
    ∀ (pre : List Int) (st : prompt_state), (∀ k ∈ pre, k ≠ KEY_ESC ∧ k ≠ KEY_ENTER) →
    ∃ (st1 : prompt_state), editor_prompt cb st pre = prompt_outcome.waiting st1 := by
  intro pre
  induction pre with
  | nil =>
    intro st _
    exact ⟨st, rfl⟩
  | cons c keys ih =>
    intro st h
    have hc := h c (by simp)
    have hk : ∀ k ∈ keys, k ≠ KEY_ESC ∧ k ≠ KEY_ENTER := fun k hk => h k (by simp [hk])
    rw [editor_prompt]
    simp only
    rw [if_neg hc.1, if_neg hc.2]
    split_ifs <;> exact ih _ hk

/-- C11 on the three comment rows, cursor at `(1, 2)`, viewport at `(1, 0)`:
the keys `m`, `i`, right arrow and then Escape. -/
theorem C11_cancel_restores_position_witness :
    ∃ (st1 : prompt_state),
      editor_find find_state_init { doc_comment with cx := 1, cy := 2, rowoff := 1 }
        ([109, 105, ARROW_RIGHT] ++ KEY_ESC :: []) = prompt_outcome.returned none st1 [] ∧
      st1.e.cx = 1 ∧ st1.e.cy = 2 ∧ st1.e.rowoff = 1 ∧ st1.e.coloff = 0 :=
  C11_cancel_restores_position find_state_init { doc_comment with cx := 1, cy := 2, rowoff := 1 }
    [109, 105, ARROW_RIGHT] []
    (editor_prompt_stays_open _ _ _ (by decide))

/-! ## The search overlay -/

theorem memset_hl_length (hl : List editor_highlight) (i : Nat) (v : editor_highlight) :
    ∀ (n : Nat), (memset_hl hl i v n).length = hl.length := by
  intro n
  induction n with
  | zero => rfl
  | succ n ih => simp [memset_hl, ih]

theorem memset_hl_outside (hl : List editor_highlight) (i : Nat) (v : editor_highlight) (j : Nat) :
    ∀ (n : Nat), (j < i ∨ i + n ≤ j) → (memset_hl hl i v n)[j]? = hl[j]? := by
  intro n
  induction n with
  | zero => intro _; rfl
  | succ n ih =>
    intro h
    simp only [memset_hl]
    rw [List.getElem?_set_ne (by omega), ih (by omega)]

theorem memset_hl_drop (hl : List editor_highlight) (i : Nat) (v : editor_highlight) (R : Nat) :
    ∀ (n : Nat), i + n ≤ R → (memset_hl hl i v n).drop R = hl.drop R := by
  intro n h
  apply List.ext_getElem?
  intro k
  rw [List.getElem?_drop, List.getElem?_drop, memset_hl_outside _ _ _ _ _ (by omega)]

theorem find_scan_some (e : editor_config) (q : List Nat) (dir : Int) :
    ∀ (n : Nat) (cur r : Int) (off : Nat), find_scan e q dir n cur = some (r, off) →
      strstr (row_at e.row r).render q = some off := by
  intro n
  induction n with
  | zero =>
    intro cur r off h
    simp [find_scan] at h
  | succ n ih =>
    intro cur r off h
    simp only [find_scan] at h
    split at h
    · rename_i o ho
      simp only [Option.some.injEq, Prod.mk.injEq] at h
      obtain ⟨rfl, rfl⟩ := h
      exact ho
    · exact ih _ _ _ h

theorem strstr_span {r q : List Nat} {off : Nat} (h : strstr r q = some off) :
    off + (cstr q).length ≤ r.length := by
  obtain ⟨⟨h1, h2⟩, _⟩ := strstr_some h
  have h3 := h2.length_le
  rw [List.length_drop] at h3
  have h4 : (cstr r).length ≤ r.length := by
    unfold cstr
    exact (List.takeWhile_sublist _).length_le
  omega

theorem row_set_row_set (rows : List erow) (i : Int) (m r : erow) :
    row_set (row_set rows i m) i r = row_set rows i r := by
  unfold row_set
  split
  · rfl
  · simp

theorem row_at_row_set_ne (rows : List erow) (i j : Int) (m : erow) (h : j ≠ i) :
    row_at (row_set rows i m) j = row_at rows j := by
  unfold row_at row_set
  by_cases hi : i < 0
  · rw [if_pos hi]
  · rw [if_neg hi]
    by_cases hj : j < 0
    · rw [if_pos hj, if_pos hj]
    · rw [if_neg hj, if_neg hj]
      simp only [List.getD_eq_getElem?_getD]
      rw [List.getElem?_set_ne (by omega)]

theorem row_at_row_set_cases (rows : List erow) (i : Int) (m : erow) :
    row_at (row_set rows i m) i = m ∨ ∀ (r : erow), row_set rows i r = rows := by
  by_cases h : 0 ≤ i ∧ i < rows.length
  · exact Or.inl (row_at_row_set_self rows i m h.1 h.2)
  · right
    intro r
    unfold row_set
    by_cases hi : i < 0
    · rw [if_pos hi]
    · rw [if_neg hi]
      exact List.set_eq_of_length_le (by omega)

theorem find_restore_saved (fs : find_state) (e : editor_config) :
    (find_restore fs e).1.saved_hl = none := by
  unfold find_restore
  split <;> simp_all

theorem find_restore_none (fs : find_state) (e : editor_config) (h : fs.saved_hl = none) :
    find_restore fs e = (fs, e) := by
  unfold find_restore
  rw [h]

theorem find_callback_step (fs : find_state) (e : editor_config) (q : List Nat) (key : Int) :
    (find_restore (editor_find_callback fs e q key).1 (editor_find_callback fs e q key).2).2.row
      = (find_restore fs e).2.row ∧
    ((key = KEY_ENTER ∨ key = KEY_ESC) →
      (editor_find_callback fs e q key).2.row = (find_restore fs e).2.row ∧
      (editor_find_callback fs e q key).1.saved_hl = none) ∧
    ∃ (off len : Nat),
      (editor_find_callback fs e q key).2.row
        = row_set (find_restore fs e).2.row (editor_find_callback fs e q key).1.saved_hl_line
            (overlay_row (row_at (find_restore fs e).2.row
              (editor_find_callback fs e q key).1.saved_hl_line) off len) ∧
      (len ≠ 0 →
        strstr (row_at (find_restore fs e).2.row
          (editor_find_callback fs e q key).1.saved_hl_line).render q = some off ∧
        len = (cstr q).length ∧
        (editor_find_callback fs e q key).2.cy = (editor_find_callback fs e q key).1.saved_hl_line) := by
  have hs := find_restore_saved fs e
  unfold editor_find_callback
  generalize find_restore fs e = p at hs ⊢
  obtain ⟨fs1, e1⟩ := p
  simp only at hs ⊢
  by_cases hk : key = KEY_ENTER ∨ key = KEY_ESC
  · rw [if_pos hk]
    simp only
    refine ⟨?_, fun _ => ⟨by trivial, hs⟩, 0, 0, ?_, fun h => absurd rfl h⟩
    · rw [find_restore_none { fs1 with last_match := -1, direction := 1 } e1 hs]
    · exact (row_set_row_at_self _ _).symm
  · rw [if_neg hk]
    generalize hfs3 : (if _ = (-1 : Int) then _ else _ : find_state) = fs3
    have hs3 : fs3.saved_hl = none := by
      rw [← hfs3]
      split_ifs <;> exact hs
    clear hfs3
    cases hscan : find_scan e1 q fs3.direction e1.numrows.toNat fs3.last_match with
    | none =>
      simp only
      refine ⟨?_, fun h => absurd h hk, 0, 0, ?_, fun h => absurd rfl h⟩
      · rw [find_restore_none _ _ hs3]
      · exact (row_set_row_at_self _ _).symm
    | some p =>
      obtain ⟨cur, off⟩ := p
      have hstr := find_scan_some _ _ _ _ _ _ _ hscan
      have hspan := strstr_span hstr
      simp only
      refine ⟨?_, fun h => absurd h hk, off, (cstr q).length, by trivial,
        fun _ => ⟨hstr, by trivial, by trivial⟩⟩
      unfold find_restore
      simp only
      rw [row_set_row_set]
      rcases row_at_row_set_cases e1.row cur
        (overlay_row (row_at e1.row cur) off (cstr q).length) with h | h
      · unfold overlay_row at h
        rw [h]
        simp only
        unfold erow.rsize
        rw [memset_hl_drop _ _ _ _ _ hspan, List.take_take, Nat.min_self, List.take_append_drop]
        exact row_set_row_at_self _ _
      · exact h _

theorem find_calls_cons (c : List Nat × Int) (t : List (List Nat × Int)) (fs : find_state)
    (e : editor_config) :
    find_calls (c :: t) fs e
      = find_calls t (editor_find_callback fs e c.1 c.2).1 (editor_find_callback fs e c.1 c.2).2 := rfl

theorem find_calls_concat (calls : List (List Nat × Int)) (q : List Nat) (key : Int)
    (fs : find_state) (e : editor_config) :
    find_calls (calls ++ [(q, key)]) fs e
      = editor_find_callback (find_calls calls fs e).1 (find_calls calls fs e).2 q key := by
  unfold find_calls
  rw [List.foldl_append]
  rfl

theorem find_calls_restorable (calls : List (List Nat × Int)) : ∀ (fs : find_state)
    (e : editor_config),
    (find_restore (find_calls calls fs e).1 (find_calls calls fs e).2).2.row
      = (find_restore fs e).2.row := by
  induction calls with
  | nil =>
    intro fs e
    rfl
  | cons c t ih =>
    intro fs e
    rw [find_calls_cons, ih]
    exact (find_callback_step fs e c.1 c.2).1

theorem overlay_pointwise (R : List erow) (L : Int) (off len : Nat) :
    (∀ (i : Int), i ≠ L →
      row_at (row_set R L (overlay_row (row_at R L) off len)) i = row_at R i) ∧
    (row_at (row_set R L (overlay_row (row_at R L) off len)) L).hl.length
      = (row_at R L).hl.length ∧
    (∀ (j : Nat), (j < off ∨ off + len ≤ j) →
      (row_at (row_set R L (overlay_row (row_at R L) off len)) L).hl[j]? = (row_at R L).hl[j]?) := by
  refine ⟨fun i hi => row_at_row_set_ne _ _ _ _ hi, ?_, ?_⟩
  · rcases row_at_row_set_cases R L (overlay_row (row_at R L) off len) with h | h
    · rw [h]
      exact memset_hl_length _ _ _ _
    · rw [h]
  · intro j hj
    rcases row_at_row_set_cases R L (overlay_row (row_at R L) off len) with h | h
    · rw [h]
      exact memset_hl_outside _ _ _ _ _ hj
    · rw [h]

/-- C12: a search session is a sequence of calls of `editor_find_callback`
that starts with no overlay saved (`saved_hl` is `NULL`).  (1) After a call
with Enter or Escape, whatever calls came before it in the session, the rows
are the rows of before the session, so every highlight array is the one of
before the session, and no overlay is saved.  (2) After any call of the
session, with the query `q`, the rows are those of before the session except
for the highlight array of the one row `saved_hl_line`, which has the cells
`off .. off + len - 1` set to `HL_MATCH`: the other rows are as before, the
array of that row has its old length and its old values outside those cells,
and when `len` is not 0 the cells are the match, that is `off` is the offset
at which `strstr` finds `q` in the render of that row, `len` is the length of
`q`, and the row is the cursor row. -/
theorem C12_search_overlay_undone (fs : find_state) (e : editor_config)
    (calls : List (List Nat × Int)) (q : List Nat) (key : Int) (hs : fs.saved_hl = none) :
    ((key = KEY_ENTER ∨ key = KEY_ESC) →
      (find_calls (calls ++ [(q, key)]) fs e).2.row = e.row ∧
      (find_calls (calls ++ [(q, key)]) fs e).1.saved_hl = none) ∧
    (∀ (fs1 : find_state) (e1 : editor_config),
      find_calls (calls ++ [(q, key)]) fs e = (fs1, e1) →
      ∃ (off len : Nat),
        e1.row = row_set e.row fs1.saved_hl_line
          (overlay_row (row_at e.row fs1.saved_hl_line) off len) ∧
        (∀ (i : Int), i ≠ fs1.saved_hl_line → row_at e1.row i = row_at e.row i) ∧
        (row_at e1.row fs1.saved_hl_line).hl.length = (row_at e.row fs1.saved_hl_line).hl.length ∧
        (∀ (j : Nat), (j < off ∨ off + len ≤ j) →
          (row_at e1.row fs1.saved_hl_line).hl[j]? = (row_at e.row fs1.saved_hl_line).hl[j]?) ∧
        (len ≠ 0 →
          strstr (row_at e.row fs1.saved_hl_line).render q = some off ∧
          len = (cstr q).length ∧ e1.cy = fs1.saved_hl_line)) := by
  have h0 : (find_restore fs e).2.row = e.row := by rw [find_restore_none fs e hs]
  have hinv := (find_calls_restorable calls fs e).trans h0
  obtain ⟨_, hend, off, len, hrow, hmatch⟩ :=
    find_callback_step (find_calls calls fs e).1 (find_calls calls fs e).2 q key
  rw [hinv] at hend hrow hmatch
  rw [find_calls_concat]
  refine ⟨hend, ?_⟩
  intro fs1 e1 heq
  rw [heq] at hrow hmatch
  simp only at hrow hmatch
  obtain ⟨p1, p2, p3⟩ := overlay_pointwise e.row fs1.saved_hl_line off len
  rw [← hrow] at p1 p2 p3
  exact ⟨off, len, hrow, p1, p2, p3, hmatch⟩

/-- C12 on the three comment rows: the query `m` typed (a match in row 1 gets
the overlay), then Escape. -/
theorem C12_search_overlay_undone_witness :
    (find_calls ([(lit "m", 109)] ++ [(lit "m", KEY_ESC)]) find_state_init doc_comment).2.row
      = doc_comment.row ∧
    (find_calls ([(lit "m", 109)] ++ [(lit "m", KEY_ESC)]) find_state_init doc_comment).1.saved_hl
      = none :=
  (C12_search_overlay_undone find_state_init doc_comment [(lit "m", 109)] (lit "m") KEY_ESC
    rfl).1 (Or.inr rfl)

/-! ## Horizontal movement -/

theorem move_right_eq (e : editor_config) (hcy : e.cy < e.numrows)
    (hcx : e.cx ≤ (row_at e.row e.cy).size) :
    editor_move_cursor e ARROW_RIGHT =
      (if e.cx < (row_at e.row e.cy).size then { e with cx := e.cx + 1 }
       else { e with cy := e.cy + 1, cx := 0 }) := by
  have hs := erow_size_nonneg (row_at e.row (e.cy + 1))
  have hk : (ARROW_RIGHT = ARROW_LEFT) = False := by decide
  unfold editor_move_cursor
  simp only [hk, if_false, if_true, hcy, true_and]
  by_cases h : e.cx < (row_at e.row e.cy).size
  · simp only [h, if_true]
    split_ifs <;> first | rfl | (exfalso; simp only at *; omega)
  · have heq : e.cx = (row_at e.row e.cy).size := by omega
    simp only [h, heq, if_false, if_true]
    split_ifs <;> first | rfl | (exfalso; simp only at *; omega)

theorem move_left_eq (e : editor_config) (h0 : 0 ≤ e.cx) (hcy : e.cy ≤ e.numrows)
    (hcx : e.cx ≤ (if e.cy < e.numrows then (row_at e.row e.cy).size else 0)) :
    editor_move_cursor e ARROW_LEFT =
      (if e.cx ≠ 0 then { e with cx := e.cx - 1 }
       else if e.cy > 0 then { e with cy := e.cy - 1, cx := (row_at e.row (e.cy - 1)).size }
       else e) := by
  unfold editor_move_cursor
  rw [if_pos rfl]
  by_cases h : e.cx ≠ 0
  · rw [if_pos h]
    simp only
    have hle : ¬ (e.cx - 1 > (if e.cy ≥ e.numrows then 0 else (row_at e.row e.cy).size)) := by
      split_ifs at hcx ⊢ <;> omega
    exact if_neg hle
  · rw [if_neg h]
    by_cases h2 : e.cy > 0
    · rw [if_pos h2]
      simp only
      split_ifs <;> first | rfl | (exfalso; simp only at *; omega)
    · rw [if_neg h2]
      simp only
      have hs := erow_size_nonneg (row_at e.row e.cy)
      split_ifs <;> first | rfl | (exfalso; simp only at *; omega)

/-- C21: with a valid cursor on an existing row (`cy < numrows`),
`editor_move_cursor` with `ARROW_RIGHT` moves from the end of the row
(`cx = size`) to column 0 of row `cy + 1` and from any other column to
`cx + 1` of the same row; with `ARROW_LEFT` at column 0 and `cy > 0` it moves
to the end of row `cy - 1` (`cx` = size of that row); and `ARROW_RIGHT`
followed by `ARROW_LEFT` gives back the state it started from, so the cursor
is at the original `(cx, cy)`. -/
theorem C21_horizontal_movement (e : editor_config) (hv : cursor_valid e)
    (hcy : e.cy < e.numrows) :
    (e.cx = (row_at e.row e.cy).size →
      (editor_move_cursor e ARROW_RIGHT).cx = 0 ∧
      (editor_move_cursor e ARROW_RIGHT).cy = e.cy + 1) ∧
    (e.cx ≠ (row_at e.row e.cy).size →
      (editor_move_cursor e ARROW_RIGHT).cx = e.cx + 1 ∧
      (editor_move_cursor e ARROW_RIGHT).cy = e.cy) ∧
    (e.cx = 0 → 0 < e.cy →
      (editor_move_cursor e ARROW_LEFT).cx = (row_at e.row (e.cy - 1)).size ∧
      (editor_move_cursor e ARROW_LEFT).cy = e.cy - 1) ∧
    editor_move_cursor (editor_move_cursor e ARROW_RIGHT) ARROW_LEFT = e := by
  obtain ⟨h1, h2, h3, h4⟩ := hv
  rw [if_pos hcy] at h4
  have hr := move_right_eq e hcy h4
  have hl := move_left_eq e h3 h2 (by rw [if_pos hcy]; exact h4)
  refine ⟨?_, ?_, ?_, ?_⟩
  · intro h
    rw [hr, if_neg (by omega)]
    exact ⟨rfl, rfl⟩
  · intro h
    rw [hr, if_pos (by omega)]
    exact ⟨rfl, rfl⟩
  · intro h5 h6
    rw [hl, if_neg (by omega), if_pos h6]
    exact ⟨rfl, rfl⟩
  · rw [hr]
    by_cases h : e.cx < (row_at e.row e.cy).size
    · rw [if_pos h]
      rw [move_left_eq _ (by simp only; omega) (by simp only; omega)
        (by simp only; rw [if_pos hcy]; omega)]
      rw [if_pos (by simp only; omega)]
      simp only [Int.add_sub_cancel]
    · have heq : e.cx = (row_at e.row e.cy).size := by omega
      have hs := erow_size_nonneg (row_at e.row (e.cy + 1))
      rw [if_neg h]
      rw [move_left_eq _ (by simp only; omega) (by simp only; omega)
        (by simp only; split_ifs <;> omega)]
      rw [if_neg (by simp only; omega), if_pos (by simp only; omega)]
      simp only [Int.add_sub_cancel, ← heq]

/-- C21 on the two-row buffer `/*/`, `x` with the cursor at the end of row 0:
right goes to `(0, 1)` and right then left comes back. -/
theorem C21_horizontal_movement_witness :
    ((editor_move_cursor { doc_split with cx := 3 } ARROW_RIGHT).cx = 0 ∧
      (editor_move_cursor { doc_split with cx := 3 } ARROW_RIGHT).cy = 1) ∧
    editor_move_cursor (editor_move_cursor { doc_split with cx := 3 } ARROW_RIGHT) ARROW_LEFT
      = { doc_split with cx := 3 } :=
  ⟨(C21_horizontal_movement { doc_split with cx := 3 } (by decide) (by decide)).1 (by decide),
   (C21_horizontal_movement { doc_split with cx := 3 } (by decide) (by decide)).2.2.2⟩

/-! ## Round trip of the column mappings -/

theorem rx_to_cx_loop_round_trip (cx : Nat) (rest : List Nat) :
    ∀ (pre : List Nat), pre.length ≤ cx → cx ≤ (pre ++ rest).length →
      rx_to_cx_loop (cx_to_rx_loop (pre ++ rest) cx : Nat) rest pre.length
        (cx_to_rx_loop (pre ++ rest) pre.length) = cx := by
  induction rest with
  | nil =>
    intro pre h1 h2
    simp only [List.append_nil] at h2
    simp only [rx_to_cx_loop]
    omega
  | cons c rest ih =>
    intro pre h1 h2
    have hstep : cx_to_rx_loop (pre ++ c :: rest) (pre.length + 1) =
        (if c = TAB then cx_to_rx_loop (pre ++ c :: rest) pre.length
            + ((KILO_TAB_STOP - 1) - cx_to_rx_loop (pre ++ c :: rest) pre.length % KILO_TAB_STOP)
          else cx_to_rx_loop (pre ++ c :: rest) pre.length) + 1 := by
      simp only [cx_to_rx_loop, byte_at_append_cons]
    simp only [rx_to_cx_loop]
    rw [← hstep]
    by_cases hlt : pre.length < cx
    · have hmono := cx_to_rx_loop_mono (pre ++ c :: rest) (show pre.length + 1 ≤ cx by omega)
      rw [if_neg (by omega)]
      have key := ih (pre ++ [c])
      simp only [List.append_assoc, List.singleton_append, List.length_append,
        List.length_singleton] at key
      exact key (by omega) (by simpa using h2)
    · have heq : cx = pre.length := by omega
      have hsucc := cx_to_rx_loop_succ_ge (pre ++ c :: rest) pre.length
      rw [if_pos (by rw [heq]; omega)]
      exact heq.symm

/-- C23: for every row and every logical column `0 <= cx <= row.size`,
`editor_row_rx_to_cx` of the display column `editor_row_cx_to_rx row cx` is
`cx` again. -/
theorem C23_column_round_trip (row : erow) (cx : Int) (h0 : 0 ≤ cx) (h1 : cx ≤ row.size) :
    editor_row_rx_to_cx row (editor_row_cx_to_rx row cx) = cx := by
  unfold erow.size at h1
  have key := rx_to_cx_loop_round_trip cx.toNat row.chars [] (Nat.zero_le _)
    (by simp only [List.nil_append]; omega)
  simp only [List.nil_append, List.length_nil, cx_to_rx_loop] at key
  unfold editor_row_rx_to_cx editor_row_cx_to_rx
  rw [key]
  omega

/-- C23 at the row of `doc_tabs` (tab, `a`, tab) with `cx = 2`, the column of
the second tab. -/
theorem C23_column_round_trip_witness :
    editor_row_rx_to_cx (row_at doc_tabs.row 0) (editor_row_cx_to_rx (row_at doc_tabs.row 0) 2) = 2 :=
  C23_column_round_trip (row_at doc_tabs.row 0) 2 (by decide) (by decide)

/-! ## Keyword choice -/

theorem C_HL_keywords_plain : keywords_plain C_HL_keywords := by decide

theorem C_HL_keywords_prefix_free : keywords_prefix_free C_HL_keywords := by decide

theorem strncmp_eq_isPrefixOf : ∀ (n : Nat) (s t : List Nat), n ≤ t.length →
    (∀ c ∈ t.take n, c ≠ 0) → strncmp_eq n s t = (t.take n).isPrefixOf s := by
  intro n
  induction n with
  | zero =>
    intro s t _ _
    simp [strncmp_eq]
  | succ n ih =>
    intro s t hlen hnz
    cases t with
    | nil => simp at hlen
    | cons b t =>
      have hb : b ≠ 0 := hnz b (by simp)
      have ht : ∀ c ∈ t.take n, c ≠ 0 := fun c hc => hnz c (by simp [hc])
      have hl : n ≤ t.length := by simpa using hlen
      cases s with
      | nil =>
        simp [strncmp_eq, hb, Ne.symm hb]
      | cons a s =>
        simp only [strncmp_eq, List.headD_cons, List.tail_cons, List.take_succ_cons,
          List.isPrefixOf]
        by_cases hab : a = b
        · subst hab
          simp [hb, ih s t hl ht]
        · have hba : ¬ b = a := fun h => hab h.symm
          simp [hab, hba]

theorem stripped_len_le (kw : List Nat) : stripped_len kw ≤ kw.length := by
  unfold stripped_len
  split <;> omega

theorem keyword_test_spec (render : List Nat) (i : Nat) (kw : List Nat)
    (h1 : kw.take (stripped_len kw) = keyword_text_spec kw)
    (h3 : ∀ c ∈ keyword_text_spec kw, c ≠ 0) :
    stripped_len kw = (keyword_text_spec kw).length ∧
    (strncmp_eq (stripped_len kw) (render.drop i) kw
        && is_separator (byte_at render (i + stripped_len kw)))
      = keyword_matches_spec render i kw := by
  have hlen : stripped_len kw = (keyword_text_spec kw).length := by
    rw [← h1, List.length_take, Nat.min_eq_left (stripped_len_le kw)]
  refine ⟨hlen, ?_⟩
  unfold keyword_matches_spec
  rw [strncmp_eq_isPrefixOf _ _ _ (stripped_len_le kw) (by rw [h1]; exact h3), h1, hlen]

theorem keyword_match_find (render : List Nat) (i : Nat) : ∀ (kws : List (List Nat)),
    keywords_plain kws →
    keyword_match render i kws
      = (kws.find? (keyword_matches_spec render i)).map
          (fun kw => ((keyword_text_spec kw).length, keyword_is_kw2_spec kw)) := by
  intro kws
  induction kws with
  | nil => intro _; rfl
  | cons kw rest ih =>
    intro hp
    obtain ⟨h1, h2, h3⟩ := hp kw (List.mem_cons_self _ _)
    obtain ⟨hlen, htest⟩ := keyword_test_spec render i kw h1 h3
    rw [keyword_match_cons, htest, List.find?_cons]
    cases hm : keyword_matches_spec render i kw with
    | true =>
      simp only [if_true, Option.map_some']
      rw [hlen, h2]
    | false =>
      simp only [Bool.false_eq_true, if_false]
      exact ih (fun k hk => hp k (List.mem_cons_of_mem _ hk))

theorem longest_keyword_spec_longest (render : List Nat) (i : Nat) :
    ∀ (kws : List (List Nat)),
    (∀ b, longest_keyword_spec render i kws = some b →
      b ∈ kws ∧ keyword_matches_spec render i b = true ∧
      ∀ kw ∈ kws, keyword_matches_spec render i kw = true →
        (keyword_text_spec kw).length ≤ (keyword_text_spec b).length) ∧
    (longest_keyword_spec render i kws = none →
      ∀ kw ∈ kws, keyword_matches_spec render i kw = false) := by
  intro kws
  induction kws with
  | nil =>
    constructor
    · intro b h
      simp [longest_keyword_spec] at h
    · intro _ kw hk
      simp at hk
  | cons kw rest ih =>
    obtain ⟨ih1, ih2⟩ := ih
    simp only [longest_keyword_spec]
    cases hr : longest_keyword_spec render i rest with
    | none =>
      have hnone := ih2 hr
      simp only
      constructor
      · intro b h
        split_ifs at h with hm
        simp only [Option.some.injEq] at h
        subst h
        refine ⟨List.mem_cons_self _ _, hm, ?_⟩
        intro k hk hkm
        rcases List.mem_cons.1 hk with rfl | hk
        · exact Nat.le_refl _
        · rw [hnone k hk] at hkm
          exact absurd hkm (by decide)
      · intro h k hk
        split_ifs at h with hm
        rcases List.mem_cons.1 hk with rfl | hk
        · simpa using hm
        · exact hnone k hk
    | some b0 =>
      obtain ⟨hb1, hb2, hb3⟩ := ih1 b0 hr
      simp only
      constructor
      · intro b h
        split_ifs at h with hm
        · simp only [Option.some.injEq] at h
          subst h
          refine ⟨List.mem_cons_self _ _, hm.1, ?_⟩
          intro k hk hkm
          rcases List.mem_cons.1 hk with rfl | hk
          · exact Nat.le_refl _
          · exact Nat.le_trans (hb3 k hk hkm) hm.2
        · simp only [Option.some.injEq] at h
          subst h
          refine ⟨List.mem_cons_of_mem _ hb1, hb2, ?_⟩
          intro k hk hkm
          rcases List.mem_cons.1 hk with rfl | hk
          · have : ¬ (keyword_text_spec b0).length ≤ (keyword_text_spec k).length :=
              fun hle => hm ⟨hkm, hle⟩
            omega
          · exact hb3 k hk hkm
      · intro h
        split_ifs at h

theorem keyword_match_unique (render : List Nat) (i : Nat) (kws : List (List Nat))
    (hf : keywords_prefix_free kws) (kw1 kw2 : List Nat) (h1 : kw1 ∈ kws) (h2 : kw2 ∈ kws)
    (m1 : keyword_matches_spec render i kw1 = true)
    (m2 : keyword_matches_spec render i kw2 = true) : kw1 = kw2 := by
  unfold keyword_matches_spec at m1 m2
  simp only [Bool.and_eq_true, List.isPrefixOf_iff_prefix] at m1 m2
  rcases Nat.le_total (keyword_text_spec kw1).length (keyword_text_spec kw2).length with h | h
  · exact hf kw1 h1 kw2 h2
      (List.isPrefixOf_iff_prefix.2 (List.prefix_of_prefix_length_le m1.1 m2.1 h))
  · exact (hf kw2 h2 kw1 h1
      (List.isPrefixOf_iff_prefix.2 (List.prefix_of_prefix_length_le m2.1 m1.1 h))).symm

theorem longest_keyword_spec_find (render : List Nat) (i : Nat) : ∀ (kws : List (List Nat)),
    keywords_prefix_free kws →
    longest_keyword_spec render i kws = kws.find? (keyword_matches_spec render i) := by
  intro kws
  induction kws with
  | nil => intro _; rfl
  | cons kw rest ih =>
    intro hf
    have hfr : keywords_prefix_free rest :=
      fun a ha b hb h => hf a (List.mem_cons_of_mem _ ha) b (List.mem_cons_of_mem _ hb) h
    have hrest := ih hfr
    obtain ⟨s1, _⟩ := longest_keyword_spec_longest render i rest
    simp only [longest_keyword_spec, List.find?_cons]
    cases hm : keyword_matches_spec render i kw with
    | true =>
      cases hr : longest_keyword_spec render i rest with
      | none => simp
      | some b =>
        obtain ⟨hb1, hb2, _⟩ := s1 b hr
        have : b = kw := keyword_match_unique render i (kw :: rest) hf b kw
          (List.mem_cons_of_mem _ hb1) (List.mem_cons_self _ _) hb2 hm
        subst this
        simp
    | false =>
      rw [← hrest]
      cases hr : longest_keyword_spec render i rest with
      | none => simp
      | some b => simp

theorem hl_step_keyword (s : editor_syntax) (render : List Nat) (st : hl_state)
    (h : keyword_attempted s render st) :
    hl_step s render st =
      (match keyword_match render st.i s.keywords with
       | some (klen, kw2) =>
         ({ st with hl := memset_hl st.hl st.i (if kw2 then HL_KEYWORD2 else HL_KEYWORD1) klen
                    i := st.i + klen, prev_sep := false }, true)
       | none => ({ st with prev_sep := is_separator (byte_at render st.i), i := st.i + 1 }, true)) := by
  obtain ⟨h1, h2, h3, h4, h5, h6, h7⟩ := h
  unfold hl_step
  simp only
  rw [if_neg h1, if_neg h2, if_neg h3, if_neg h4, if_neg h5, if_neg h6, h7]
  rfl

theorem memset_hl_inside (hl : List editor_highlight) (i : Nat) (v : editor_highlight) (j : Nat) :
    ∀ (n : Nat), i ≤ j → j < i + n → j < hl.length → (memset_hl hl i v n)[j]? = some v := by
  intro n
  induction n with
  | zero => intro h1 h2 _; omega
  | succ n ih =>
    intro h1 h2 h3
    simp only [memset_hl]
    by_cases hj : j = i + n
    · subst hj
      rw [List.getElem?_set_self (by rw [memset_hl_length]; exact h3)]
    · rw [List.getElem?_set_ne (by omega)]
      exact ih h1 (by omega) h3

/-- C22: with the keyword list of the C profile, at every position `i` of
every render: (1) the result of the keyword loop is the result for the
longest keyword of the list that matches at `i` with a separator after it
(`longest_keyword_spec`): the length of its text without the `|` marker, and
the flag that is set exactly when its entry ends in `|`; (2) so when the loop
finds a keyword, some entry of the list matches at `i`, the length found is
the length of its text, the flag says whether it ends in `|`, and no entry
that matches at `i` has a longer text; (3) when the loop finds none, no entry
matches at `i`; (4) in an iteration of the highlighter that comes to the
keyword loop at `i` while the keyword `kw` is that longest match, `i` advances
by the length of the text of `kw` and the highlight array changes in exactly
the cells of that span, which become `HL_KEYWORD2` when the entry ends in `|`
and `HL_KEYWORD1` otherwise. -/
theorem C22_keyword_longest_match (render : List Nat) (i : Nat) :
    keyword_match render i C_HL_keywords
      = (longest_keyword_spec render i C_HL_keywords).map
          (fun kw => ((keyword_text_spec kw).length, keyword_is_kw2_spec kw)) ∧
    (∀ (klen : Nat) (kw2 : Bool), keyword_match render i C_HL_keywords = some (klen, kw2) →
      ∃ kw ∈ C_HL_keywords, keyword_matches_spec render i kw = true ∧
        klen = (keyword_text_spec kw).length ∧ kw2 = keyword_is_kw2_spec kw ∧
        ∀ kw1 ∈ C_HL_keywords, keyword_matches_spec render i kw1 = true →
          (keyword_text_spec kw1).length ≤ klen) ∧
    (keyword_match render i C_HL_keywords = none →
      ∀ kw ∈ C_HL_keywords, keyword_matches_spec render i kw = false) ∧
    (∀ (st : hl_state) (kw : List Nat), st.i = i → keyword_attempted HLDB_c render st →
      longest_keyword_spec render i C_HL_keywords = some kw →
      (hl_step HLDB_c render st).1.hl
        = memset_hl st.hl i (if keyword_is_kw2_spec kw = true then HL_KEYWORD2 else HL_KEYWORD1)
            (keyword_text_spec kw).length ∧
      (hl_step HLDB_c render st).1.i = i + (keyword_text_spec kw).length ∧
      (∀ (j : Nat), i ≤ j → j < i + (keyword_text_spec kw).length → j < st.hl.length →
        (hl_step HLDB_c render st).1.hl[j]?
          = some (if keyword_is_kw2_spec kw = true then HL_KEYWORD2 else HL_KEYWORD1)) ∧
      (∀ (j : Nat), (j < i ∨ i + (keyword_text_spec kw).length ≤ j) →
        (hl_step HLDB_c render st).1.hl[j]? = st.hl[j]?)) := by
  have h1 : keyword_match render i C_HL_keywords
      = (longest_keyword_spec render i C_HL_keywords).map
          (fun kw => ((keyword_text_spec kw).length, keyword_is_kw2_spec kw)) := by
    rw [keyword_match_find render i C_HL_keywords C_HL_keywords_plain,
      longest_keyword_spec_find render i C_HL_keywords C_HL_keywords_prefix_free]
  obtain ⟨s1, s2⟩ := longest_keyword_spec_longest render i C_HL_keywords
  refine ⟨h1, ?_, ?_, ?_⟩
  · intro klen kw2 h
    rw [h1] at h
    cases hl : longest_keyword_spec render i C_HL_keywords with
    | none =>
      rw [hl] at h
      simp at h
    | some kw =>
      rw [hl] at h
      simp only [Option.map_some', Option.some.injEq, Prod.mk.injEq] at h
      obtain ⟨m1, m2, m3⟩ := s1 kw hl
      refine ⟨kw, m1, m2, h.1.symm, h.2.symm, ?_⟩
      rw [← h.1]
      exact m3
  · intro h
    rw [h1] at h
    cases hl : longest_keyword_spec render i C_HL_keywords with
    | none => exact s2 hl
    | some kw =>
      rw [hl] at h
      simp at h
  · intro st kw hi ha hl
    subst hi
    have hstep := hl_step_keyword HLDB_c render st ha
    have hkm : keyword_match render st.i HLDB_c.keywords
        = some ((keyword_text_spec kw).length, keyword_is_kw2_spec kw) := by
      rw [show HLDB_c.keywords = C_HL_keywords from rfl, h1, hl]
      rfl
    rw [hkm] at hstep
    simp only at hstep
    rw [hstep]
    exact ⟨rfl, rfl, fun j a b c => memset_hl_inside _ _ _ _ _ a b c,
      fun j a => memset_hl_outside _ _ _ _ _ a⟩

/-- C22 on the render `unsigned x` at position 0, where the loop finds a
keyword of length 8 with the flag set, and in the first iteration of the
highlighter on that render. -/
theorem C22_keyword_longest_match_witness :
    (∃ kw ∈ C_HL_keywords, keyword_matches_spec (lit "unsigned x") 0 kw = true ∧
      8 = (keyword_text_spec kw).length ∧ true = keyword_is_kw2_spec kw ∧
      ∀ kw1 ∈ C_HL_keywords, keyword_matches_spec (lit "unsigned x") 0 kw1 = true →
        (keyword_text_spec kw1).length ≤ 8) ∧
    (hl_step HLDB_c (lit "unsigned x")
        ⟨0, List.replicate 10 HL_NORMAL, true, 0, false⟩).1.i
      = 0 + (keyword_text_spec (lit "unsigned|")).length :=
  ⟨(C22_keyword_longest_match (lit "unsigned x") 0).2.1 8 true (by decide),
   ((C22_keyword_longest_match (lit "unsigned x") 0).2.2.2
      ⟨0, List.replicate 10 HL_NORMAL, true, 0, false⟩ (lit "unsigned|") rfl (by decide)
      (by decide)).2.1⟩

end EasyPoetry
